import Mathlib

/-!
# Verification of the OCR post-processing cleaner

A shallow embedding of the text-cleaning passes of `english_cleaner.py` and
`urdu_cleaner.py` (paragraph strings are `String` / `List Char`; Python regex
substitutions are modelled by an explicit left-to-right scan with one-character
look-behind context, mirroring `re.sub` semantics for the concrete patterns of
the source, whose greedy runs are deterministic over disjoint character
classes).  The word-frequency oracle `wordfreq.zipf_frequency` is external
data; it is modelled as an abstract boolean-valued parameter wherever a source
function consults it.

Character-class predicates (`\s`, `\d`, `\w`, casing) are modelled over the
character ranges that occur in this corpus (ASCII plus the Arabic blocks and
the explicit Unicode space/format characters named by the source); this matches
Python semantics on every string the development evaluates or quantifies over
in a way the theorems depend on.
-/

namespace OcrClean

/-! ## Character classes -/

/-- ASCII letters, the class `[A-Za-z]`. -/
def isAsciiAlpha (c : Char) : Bool :=
  ('A' ≤ c && c ≤ 'Z') || ('a' ≤ c && c ≤ 'z')

/-- ASCII lowercase, the class `[a-z]` (also Python `str.islower` per char). -/
def isAsciiLower (c : Char) : Bool := 'a' ≤ c && c ≤ 'z'

/-- ASCII uppercase, the class `[A-Z]`. -/
def isAsciiUpper (c : Char) : Bool := 'A' ≤ c && c ≤ 'Z'

/-- Digits as matched by Python `\d` / `str.isdigit` on this corpus:
ASCII digits plus the Eastern Arabic-Indic ranges U+0660–0669, U+06F0–06F9. -/
def isPyDigit (c : Char) : Bool :=
  ('0' ≤ c && c ≤ '9') ||
  ('\u0660' ≤ c && c ≤ '\u0669') ||
  ('\u06f0' ≤ c && c ≤ '\u06f9')

/-- Python `\s` (str patterns): ASCII whitespace, the C1 separators, NEL,
NBSP and the Unicode space/separator characters. -/
def isPySpace (c : Char) : Bool :=
  c = ' ' || c = '\t' || c = '\n' || c = '\x0b' || c = '\x0c' || c = '\r' ||
  c = '\x1c' || c = '\x1d' || c = '\x1e' || c = '\x1f' ||
  c = '\u0085' || c = '\u00a0' || c = '\u1680' ||
  ('\u2000' ≤ c && c ≤ '\u200a') ||
  c = '\u2028' || c = '\u2029' || c = '\u202f' || c = '\u205f' || c = '\u3000'

/-- Python `\w` on this corpus: ASCII alphanumerics, underscore, and the
Arabic blocks U+0600–06FF, U+0750–077F used by the source's patterns. -/
def isWordChar (c : Char) : Bool :=
  isAsciiAlpha c || isPyDigit c || c = '_' ||
  ('\u0600' ≤ c && c ≤ '\u06ff') || ('\u0750' ≤ c && c ≤ '\u077f')

/-- The horizontal-whitespace class `[ \t\f\v]` of `normalize_unicode_and_spaces`. -/
def isHws (c : Char) : Bool :=
  c = ' ' || c = '\t' || c = '\x0c' || c = '\x0b'

/-! ## Python string helpers -/

/-- `str.strip()` from the left. -/
def pyStripLeft (cs : List Char) : List Char := cs.dropWhile isPySpace

/-- `str.strip()`: drop leading and trailing whitespace. -/
def pyStrip (cs : List Char) : List Char :=
  ((cs.dropWhile isPySpace).reverse.dropWhile isPySpace).reverse

/-- `str.rstrip()`. -/
def pyRstrip (cs : List Char) : List Char :=
  (cs.reverse.dropWhile isPySpace).reverse

/-- ASCII `str.lower()` per character. -/
def pyLowerChar (c : Char) : Char :=
  if isAsciiUpper c then Char.ofNat (c.toNat + 32) else c

/-- ASCII `str.lower()`. -/
def pyLower (cs : List Char) : List Char := cs.map pyLowerChar

/-! ## The `re.sub` scan combinator

A matcher receives the character immediately before the current position
(`none` at the start of the string) and the remaining suffix; on success it
returns the replacement text together with the number of characters consumed
(at least one for every matcher in this development — none of the source's
patterns can match the empty string).  `subScanF` replays `re.sub`: try a
match at each position from left to right, emit the replacement and continue
after the consumed characters, otherwise copy one character.  Look-behinds
always refer to the original string, which is exactly the `prev` threading
below.  The fuel argument only serves structural recursion; `length + 1` fuel
is always sufficient since every step consumes at least one character. -/

/-- Result of a successful match: replacement text and consumed length. -/
abbrev RMatch := List Char × Nat

abbrev RMatcher := Option Char → List Char → Option RMatch

/-- The character before the position reached after consuming `k` characters
of `cs` (the last consumed character), used as the next look-behind context. -/
def newPrevAfter (prev : Option Char) (cs : List Char) (k : Nat) : Option Char :=
  match (cs.take k).getLast? with
  | some c => some c
  | none => prev

def subScanF (m : RMatcher) : Nat → Option Char → List Char → List Char
  | 0, _, cs => cs
  | _ + 1, _, [] => []
  | fuel + 1, prev, c :: rest =>
    match m prev (c :: rest) with
    | none => c :: subScanF m fuel (some c) rest
    | some (repl, k) =>
        repl ++ subScanF m fuel (newPrevAfter prev (c :: rest) k) ((c :: rest).drop k)

/-- One full `re.sub` pass with matcher `m`. -/
def subScan (m : RMatcher) (cs : List Char) : List Char :=
  subScanF m (cs.length + 1) none cs

/-- `prev` is at a (multiline) line start: beginning of string or after `\n`. -/
def atLineStart : Option Char → Bool
  | none => true
  | some c => c = '\n'

/-! ## `is_word` and the hyphenation repair (`fix_ocr_hyphenated_words`)

`is_word(w)` is `zipf_frequency(w.lower(), "en") >= threshold`; the zipf score
at the default threshold 2.5 is the abstract parameter `zipf25`. -/

/-- `is_word` at the default threshold: the oracle applied to the lowercased word. -/
def is_word (zipf25 : List Char → Bool) (w : List Char) : Bool :=
  zipf25 (pyLower w)

/-- Matcher for `([A-Za-z]+)-\s+([A-Za-z]+)` with the merge/keep replacement
of `fix_ocr_hyphenated_words.merge_match` (`is_word(combined.lower())`). -/
def mFixHyph (zipf25 : List Char → Bool) : RMatcher := fun _ cs =>
  let a := cs.takeWhile isAsciiAlpha
  if a.isEmpty then none else
  match cs.drop a.length with
  | '-' :: r2 =>
    let w := r2.takeWhile isPySpace
    if w.isEmpty then none else
    let b := (r2.drop w.length).takeWhile isAsciiAlpha
    if b.isEmpty then none else
    let repl := if is_word zipf25 (pyLower (a ++ b)) then a ++ b else a ++ '-' :: b
    some (repl, a.length + 1 + w.length + b.length)
  | _ => none

/-- `fix_ocr_hyphenated_words`: three passes of the substitution. -/
def fix_ocr_hyphenated_words (zipf25 : List Char → Bool) (s : String) : String :=
  ⟨subScan (mFixHyph zipf25) (subScan (mFixHyph zipf25) (subScan (mFixHyph zipf25) s.data))⟩

/-! ## Script classification (`is_arabic_word`) -/

/-- The fixed Urdu-exclusive code points `URDU_ONLY_CHARS`. -/
def urduOnlyChars : List Char :=
  ['ٹ', 'ڈ', 'ڑ', 'ں', 'ھ', 'ہ', 'ے']

/-- `AR_WORD_RE.match`: `^[\\u0600-\\u06FF]+$` (a `re.match` with `$` also
accepts one trailing newline after the block run). -/
def arWordMatch (cs : List Char) : Bool :=
  let run := cs.takeWhile (fun c => '\u0600' ≤ c && c ≤ '\u06ff')
  !run.isEmpty && (cs.drop run.length = [] || cs.drop run.length = ['\n'])

/-- `is_arabic_word`: in the Arabic block and free of Urdu-exclusive letters. -/
def is_arabic_word (token : String) : Bool :=
  arWordMatch token.data && !token.data.any (fun c => urduOnlyChars.contains c)

end OcrClean

namespace OcrClean

/-! ## `normalize_unicode_and_spaces` -/

/-- The three explicit space replacements (NBSP, figure space, narrow NBSP). -/
def nbspToSpace (c : Char) : Char :=
  if c = ' ' || c = ' ' || c = ' ' then ' ' else c

/-- The zero-width class `[​‌‍﻿]`. -/
def isZeroWidth (c : Char) : Bool :=
  c = '​' || c = '‌' || c = '‍' || c = '﻿'

/-- `text.replace("\r\n", "\n")`. -/
def replaceCRLF : List Char → List Char
  | '\r' :: '\n' :: t => '\n' :: replaceCRLF t
  | c :: t => c :: replaceCRLF t
  | [] => []

/-- `text.replace("\r", "\n")` (after CRLF replacement). -/
def crToNl (c : Char) : Char := if c = '\r' then '\n' else c

/-- Matcher for `[ \t\f\v]+` with replacement a single space. -/
def mHwsRun : RMatcher := fun _ cs =>
  let r := cs.takeWhile isHws
  if r.isEmpty then none else some ([' '], r.length)

/-- Matcher for `\n{3,}` with replacement two newlines. -/
def mNl3 : RMatcher := fun _ cs =>
  let r := cs.takeWhile (fun c => c = '\n')
  if r.length < 3 then none else some (['\n', '\n'], r.length)

/-- `normalize_unicode_and_spaces` (on the character list). -/
def normalizeUnicodeList (cs : List Char) : List Char :=
  pyStrip (subScan mNl3 (subScan mHwsRun
    ((replaceCRLF ((cs.map nbspToSpace).filter (fun c => !isZeroWidth c))).map crToNl)))

/-- `normalize_unicode_and_spaces`. -/
def normalize_unicode_and_spaces (s : String) : String :=
  ⟨normalizeUnicodeList s.data⟩

/-! ## `normalize_em_dashes` -/

/-- The dash class `[-–—]`. -/
def isDashChar (c : Char) : Bool := c = '-' || c = '–' || c = '—'

/-- Matcher for `(?<=[A-Za-z])-{2,}(?=[A-Za-z])` replaced by an em dash. -/
def mDash1 : RMatcher := fun prev cs =>
  match prev with
  | some p =>
    if !isAsciiAlpha p then none else
    let h := cs.takeWhile (fun c => c = '-')
    if h.length < 2 then none else
    match cs.drop h.length with
    | c :: _ => if isAsciiAlpha c then some (['—'], h.length) else none
    | [] => none
  | none => none

/-- Matcher for `(?<=[A-Za-z])\s+[-–—]\s+(?=[A-Za-z])` replaced by ` — `. -/
def mDash2 : RMatcher := fun prev cs =>
  match prev with
  | some p =>
    if !isAsciiAlpha p then none else
    let a := cs.takeWhile isPySpace
    if a.isEmpty then none else
    match cs.drop a.length with
    | d :: r2 =>
      if !isDashChar d then none else
      let b := r2.takeWhile isPySpace
      if b.isEmpty then none else
      match r2.drop b.length with
      | c :: _ =>
        if isAsciiAlpha c then some ([' ', '—', ' '], a.length + 1 + b.length)
        else none
      | [] => none
    | [] => none
  | none => none

/-- Matcher for `(?<=[A-Za-z])\s*-{2,}\s*(?=[A-Za-z])` replaced by an em dash. -/
def mDash3 : RMatcher := fun prev cs =>
  match prev with
  | some p =>
    if !isAsciiAlpha p then none else
    let a := cs.takeWhile isPySpace
    let h := (cs.drop a.length).takeWhile (fun c => c = '-')
    if h.length < 2 then none else
    let b := ((cs.drop a.length).drop h.length).takeWhile isPySpace
    match ((cs.drop a.length).drop h.length).drop b.length with
    | c :: _ =>
      if isAsciiAlpha c then some (['—'], a.length + h.length + b.length)
      else none
    | [] => none
  | none => none

/-- `normalize_em_dashes` on the character list: the three passes in order. -/
def normalizeEmDashList (cs : List Char) : List Char :=
  subScan mDash3 (subScan mDash2 (subScan mDash1 cs))

/-- `normalize_em_dashes`. -/
def normalize_em_dashes (s : String) : String :=
  ⟨normalizeEmDashList s.data⟩

/-! ## Paragraph splitting and the two paragraph-merge passes -/

/-- Python `text.split("\n\n")` (leftmost, non-overlapping). -/
def splitOnNN : List Char → List (List Char)
  | [] => [[]]
  | [c] => [[c]]
  | c1 :: c2 :: t =>
    if c1 = '\n' ∧ c2 = '\n' then [] :: splitOnNN t
    else
      match splitOnNN (c2 :: t) with
      | h :: r => (c1 :: h) :: r
      | [] => [[c1]]

/-- `[p.strip() for p in text.split("\n\n") if p.strip()]`. -/
def paraClean (cs : List Char) : List (List Char) :=
  ((splitOnNN cs).map pyStrip).filter (fun p => !p.isEmpty)

/-- Matcher for `\s+` (any whitespace run) with replacement one space. -/
def mWsRun : RMatcher := fun _ cs =>
  let r := cs.takeWhile isPySpace
  if r.isEmpty then none else some ([' '], r.length)

/-- `re.sub(r"\s+", " ", para).strip()` applied to each merged paragraph. -/
def collapseWsStrip (cs : List Char) : List Char :=
  pyStrip (subScan mWsRun cs)

/-- The soft-split merge guard:
`para[-1].islower() and not para[-1] in ".!?" and paras[i+1].strip()[0].islower()`. -/
def softCond (p q : List Char) : Bool :=
  (match p.getLast? with
   | some c => isAsciiLower c && !(c = '.' || c = '!' || c = '?')
   | none => false) &&
  (match (pyStrip q).head? with
   | some c => isAsciiLower c
   | none => false)

/-- The merge loop of `merge_soft_split_paragraphs_text` from a current
paragraph `p` and the remaining paragraphs. -/
def mergeSoftGo : List Char → List (List Char) → List (List Char)
  | p, [] => [collapseWsStrip p]
  | p, q :: rest =>
    if softCond p q then mergeSoftGo (p ++ ' ' :: pyStrip q) rest
    else collapseWsStrip p :: mergeSoftGo q rest

/-- The outer loop of `merge_soft_split_paragraphs_text`. -/
def mergeSoftLoop : List (List Char) → List (List Char)
  | [] => []
  | p :: rest => mergeSoftGo p rest

/-- `merge_soft_split_paragraphs_text`. -/
def merge_soft_split_paragraphs_text (s : String) : String :=
  ⟨List.intercalate ['\n', '\n'] (mergeSoftLoop (paraClean s.data))⟩

/-- The merge loop of `merge_paragraphs_split_by_hyphen`: while the next
paragraph is a lone hyphen, splice ` - ` and the paragraph after it. -/
def mergeHyphGo : List Char → List (List Char) → List (List Char)
  | p, [] => [collapseWsStrip p]
  | p, q :: rest =>
    if pyStrip q = ['-'] then
      match rest with
      | next :: rest2 => mergeHyphGo (p ++ ' ' :: '-' :: ' ' :: pyStrip next) rest2
      | [] => [collapseWsStrip (p ++ [' ', '-'])]
    else collapseWsStrip p :: mergeHyphGo q rest

/-- The outer loop of `merge_paragraphs_split_by_hyphen`. -/
def mergeHyphLoop : List (List Char) → List (List Char)
  | [] => []
  | p :: rest => mergeHyphGo p rest

/-- `merge_paragraphs_split_by_hyphen`. -/
def merge_paragraphs_split_by_hyphen (s : String) : String :=
  ⟨List.intercalate ['\n', '\n'] (mergeHyphLoop (paraClean s.data))⟩

end OcrClean

namespace OcrClean

/-! ## Audit records (`AUDIT_HEADER` rows) -/

structure AuditRecord where
  file : String
  para_index : Nat
  action : String
  pat : String
  before_preview : String
  after_preview : String
deriving Repr, DecidableEq

/-- `_safe_preview`: truncate to 140 characters with an ellipsis. -/
def safePreview (s : List Char) : List Char :=
  if 140 < s.length then s.take 140 ++ "...".data else s

/-! ## `merge_broken_words` -/

/-- `re.search(r'([A-Za-z]+)-\s*$', cur)`: the trailing broken-word match,
returning `(group(1), len(group(0)))`. -/
def hyphTail (cur : List Char) : Option (List Char × Nat) :=
  let rev := cur.reverse
  let ws := rev.takeWhile isPySpace
  match rev.drop ws.length with
  | '-' :: r2 =>
    let letters := r2.takeWhile isAsciiAlpha
    if letters.isEmpty then none
    else some (letters.reverse, letters.length + 1 + ws.length)
  | _ => none

/-- `^(\[\d+\]|\d+|[-–—]+)$` on an already-stripped candidate line. -/
def junkLine (s : List Char) : Bool :=
  (match s with
   | '[' :: t =>
     let d := t.takeWhile isPyDigit
     !d.isEmpty && t.drop d.length = [']']
   | _ => false) ||
  (!s.isEmpty && s.all isPyDigit) ||
  (!s.isEmpty && s.all isDashChar)

/-- The junk test applied to a raw paragraph (candidate is stripped first). -/
def junkPara (q : List Char) : Bool := junkLine (pyStrip q)

/-- Python `str.split()` (whitespace split, empties dropped). -/
def pySplitWsGo : List Char → List Char → List (List Char)
  | acc, [] => if acc.isEmpty then [] else [acc.reverse]
  | acc, c :: t =>
    if isPySpace c then
      if acc.isEmpty then pySplitWsGo [] t else acc.reverse :: pySplitWsGo [] t
    else pySplitWsGo (c :: acc) t

def pySplitWs (cs : List Char) : List (List Char) := pySplitWsGo [] cs

/-- The inner `while True` merge loop of `merge_broken_words`: repeatedly
merge the trailing broken word of `cur` with the next non-junk paragraph,
skipping junk paragraphs; returns the final paragraph text, the final outer
index, the remaining paragraph suffix, and the audit rows in emission order.
Fuel only drives the recursion; each iteration consumes at least one
remaining paragraph, so `rest.length + 1` fuel is always sufficient. -/
def innerMBF (fname : String) :
    Nat → List Char → Nat → List (List Char) →
    List Char × Nat × List (List Char) × List AuditRecord
  | 0, cur, i, rest => (cur, i, rest, [])
  | fuel + 1, cur, i, rest =>
    match hyphTail cur with
    | none => (cur, i, rest, [])
    | some (letters, g0) =>
      let junks := rest.takeWhile junkPara
      match rest.drop junks.length with
      | [] => (cur, i, rest, [])
      | next0 :: rest2 =>
        let next := pyStrip next0
        if next.isEmpty then (cur, i, rest, []) else
        match pySplitWs next with
        | [] => (cur, i, rest, [])
        | t0 :: trest =>
          let j := i + 1 + junks.length
          let newCur :=
            cur.take (cur.length - g0) ++ letters ++ t0 ++
              ' ' :: List.intercalate [' '] trest
          let row : AuditRecord :=
            { file := fname, para_index := i, action := "merge_broken_word_multi",
              pat := ⟨letters ++ "- + ".data ++ next.take 30 ++ "...".data⟩,
              before_preview := ⟨newCur.take 50 ++ "...".data⟩,
              after_preview := ⟨newCur.take 50 ++ "...".data⟩ }
          let res := innerMBF fname fuel newCur j rest2
          (res.1, res.2.1, res.2.2.1, row :: res.2.2.2)

/-- The outer loop of `merge_broken_words` over the paragraph list, carrying
the original outer index `i`. -/
def mergeBrokenGo (fname : String) :
    Nat → Nat → List (List Char) → List (List Char) × List AuditRecord
  | 0, _, ps => (ps, [])
  | fuel + 1, i, ps =>
    match ps with
    | [] => ([], [])
    | p :: rest =>
      let res := innerMBF fname (rest.length + 1) (pyRstrip p) i rest
      let res2 := mergeBrokenGo fname fuel (res.2.1 + 1) res.2.2.1
      (res.1 :: res2.1, res.2.2.2 ++ res2.2)

/-- `merge_broken_words` (with the audit rows the writer would receive). -/
def merge_broken_words (fname : String) (paragraphs : List String) :
    List String × List AuditRecord :=
  let res :=
    mergeBrokenGo fname (paragraphs.length + 1) 0 (paragraphs.map String.data)
  (res.1.map fun l => ⟨l⟩, res.2)

/-! ## Header detection and removal -/

/-- `^[-–—]?\s*\(?\d{1,3}\)?\s*[-–—]?$`: standalone page-number or
decorative-dash lines. -/
def pageNumLine (s : List Char) : Bool :=
  let s1 := match s with
            | c :: t => if isDashChar c then t else s
            | [] => s
  let s2 := s1.dropWhile isPySpace
  let s3 := match s2 with
            | '(' :: t => t
            | _ => s2
  let d := s3.takeWhile isPyDigit
  if d.isEmpty || 3 < d.length then false else
  let s4 := s3.drop d.length
  let s5 := match s4 with
            | ')' :: t => t
            | _ => s4
  let s6 := s5.dropWhile isPySpace
  match s6 with
  | [] => true
  | [c] => isDashChar c
  | _ => false

/-- Python `str.islower()` over the ASCII cased letters. -/
def pyIslower (s : List Char) : Bool :=
  s.any (fun c => isAsciiLower c || isAsciiUpper c) &&
  s.all (fun c => !isAsciiUpper c)

/-- Python `str.isupper()` over the ASCII cased letters. -/
def pyIsupper (s : List Char) : Bool :=
  s.any (fun c => isAsciiLower c || isAsciiUpper c) &&
  s.all (fun c => !isAsciiLower c)

/-- The `normalized` list built by `detect_repetitive_headers`: stripped,
non-empty lines that are not page-number artifacts and have more than two
ASCII letters. -/
def detectNormalized (paras : List (List Char)) : List (List Char) :=
  paras.filterMap fun p =>
    let line := pyStrip p
    if line.isEmpty then none
    else if pageNumLine line then none
    else if (line.filter isAsciiAlpha).length ≤ 2 then none
    else some line

/-- Membership in the set returned by `detect_repetitive_headers`. -/
def detect_repetitive_headers (paras : List (List Char)) (minRepeats : Nat)
    (line : List Char) : Bool :=
  let normalized := detectNormalized paras
  0 < normalized.count line &&
  minRepeats ≤ normalized.count line &&
  !pyIslower line &&
  !(match line.head? with
    | some c => isPyDigit c
    | none => true)

/-- The walk of `remove_known_headers`: regex patterns first, then the
exact detected set, sharing one `seen_headers` set; first occurrence kept,
later occurrences dropped with an audit row. -/
def removeKnownGo (patterns : List (List Char → Bool))
    (detected : List Char → Bool) (fname : String) :
    Nat → List (List Char) → List (List Char) →
    List (List Char) × List AuditRecord
  | _, _, [] => ([], [])
  | i, seen, p :: rest =>
    let stripped := pyStrip p
    if patterns.any (fun pat => pat stripped) then
      if seen.contains stripped then
        let (out, recs) := removeKnownGo patterns detected fname (i + 1) seen rest
        (out, { file := fname, para_index := i, action := "remove_header",
                pat := "regex_header_duplicate",
                before_preview := ⟨safePreview stripped⟩,
                after_preview := "" } :: recs)
      else
        let (out, recs) :=
          removeKnownGo patterns detected fname (i + 1) (stripped :: seen) rest
        (p :: out, recs)
    else if detected stripped then
      if seen.contains stripped then
        let (out, recs) := removeKnownGo patterns detected fname (i + 1) seen rest
        (out, { file := fname, para_index := i, action := "remove_header",
                pat := "exact_header_duplicate",
                before_preview := ⟨safePreview stripped⟩,
                after_preview := "" } :: recs)
      else
        let (out, recs) :=
          removeKnownGo patterns detected fname (i + 1) (stripped :: seen) rest
        (p :: out, recs)
    else
      let (out, recs) := removeKnownGo patterns detected fname (i + 1) seen rest
      (p :: out, recs)

/-- `remove_known_headers`. -/
def remove_known_headers (paragraphs : List (List Char))
    (detected : List Char → Bool) (patterns : List (List Char → Bool))
    (fname : String) : List (List Char) × List AuditRecord :=
  removeKnownGo patterns detected fname 0 [] paragraphs

/-- The dynamically generated header pattern `^\s*{re.escape(h)}\s*$`
used with `re.match` by `process_docx_file`. -/
def dynHeaderPat (h : List Char) (s : List Char) : Bool :=
  (List.range ((s.takeWhile isPySpace).length + 1)).any fun k =>
    (s.drop k).take h.length = h &&
    ((s.drop k).drop h.length).all isPySpace

end OcrClean

namespace OcrClean

/-! ## Paragraph model and the misspelling highlighters

A `docx` paragraph is modelled as its list of runs; `Para.text` is
`paragraph.text` (the concatenation python-docx exposes).  Highlighting
clears the paragraph and rebuilds one run per `re.split` piece. -/

structure Run where
  text : String
  highlight : Bool
deriving Repr, DecidableEq

structure Para where
  runs : List Run
deriving Repr, DecidableEq

/-- `paragraph.text`. -/
def Para.text (p : Para) : String := String.join (p.runs.map Run.text)

/-- The token class of `\b[A-Za-z؀-ۿݐ-ݿ']+\b`. -/
def isTokChar (c : Char) : Bool :=
  isAsciiAlpha c || c = '\'' ||
  ('؀' ≤ c && c ≤ 'ۿ') || ('ݐ' ≤ c && c ≤ 'ݿ')

/-- Word-ness of an optional character (`\b` treats both ends as non-word). -/
def optWord : Option Char → Bool
  | some c => isWordChar c
  | none => false

/-- `\b` between two (optional) characters. -/
def wordBoundary (a b : Option Char) : Bool := optWord a != optWord b

/-- Match length of `\b[A-Za-z؀-ۿݐ-ݿ']+\b` at the current
position: a `\b` before the greedy class run, backtracking the run down to the
longest cut that ends on a `\b`. -/
def mTokLen (prev : Option Char) (cs : List Char) : Option Nat :=
  if !wordBoundary prev cs.head? then none else
  let r := cs.takeWhile isTokChar
  if r.isEmpty then none else
  (List.range r.length).reverse.findSome? fun i =>
    let nxt := match r[i + 1]? with
               | some c => some c
               | none => cs[r.length]?
    if wordBoundary r[i]? nxt then some (i + 1) else none

/-- A capture-class matcher as used by `re.split`/`re.findall`: only the
consumed length matters (the piece itself is the replacement). -/
abbrev CMatcher := Option Char → List Char → Option Nat

/-- Match length of the Urdu token class `[؀-ۿݐ-ݿ]+`. -/
def mUrduLen : CMatcher := fun _ cs =>
  let r := cs.takeWhile fun c =>
    ('؀' ≤ c && c ≤ 'ۿ') || ('ݐ' ≤ c && c ≤ 'ݿ')
  if r.isEmpty then none else some r.length

/-- `re.split` with a single capturing group: the alternating
gap/match/…/gap pieces, in order.  `gapRev` accumulates the current gap. -/
def splitCapGo (m : CMatcher) :
    Nat → Option Char → List Char → List Char → List (List Char)
  | 0, _, gapRev, cs => [gapRev.reverse ++ cs]
  | _ + 1, _, gapRev, [] => [gapRev.reverse]
  | fuel + 1, prev, gapRev, c :: rest =>
    match m prev (c :: rest) with
    | none => splitCapGo m fuel (some c) (c :: gapRev) rest
    | some k =>
        gapRev.reverse :: (c :: rest).take k ::
          splitCapGo m fuel (newPrevAfter prev (c :: rest) k) []
            ((c :: rest).drop k)

/-- `re.split(pattern-with-capture, text)`. -/
def splitCap (m : CMatcher) (cs : List Char) : List (List Char) :=
  splitCapGo m (cs.length + 1) none [] cs

/-- `re.findall(class-pattern, text)`: the matched pieces only. -/
def findallCap (m : CMatcher) :
    Nat → Option Char → List Char → List (List Char)
  | 0, _, _ => []
  | _ + 1, _, [] => []
  | fuel + 1, prev, c :: rest =>
    match m prev (c :: rest) with
    | none => findallCap m fuel (some c) rest
    | some k =>
        (c :: rest).take k ::
          findallCap m fuel (newPrevAfter prev (c :: rest) k) ((c :: rest).drop k)

def findall (m : CMatcher) (cs : List Char) : List (List Char) :=
  findallCap m (cs.length + 1) none cs

/-- `EN_WORD_RE.match`: `^[A-Za-z][A-Za-z']+$` on a token (tokens contain no
newline, so the `$` end-of-string case suffices). -/
def enWordMatch (w : List Char) : Bool :=
  match w with
  | c :: rest =>
    isAsciiAlpha c && !rest.isEmpty &&
      rest.all (fun d => isAsciiAlpha d || d = '\'')
  | [] => false

/-- The misspelling filter of `highlight_misspellings_in_paragraph`. -/
def misspelledEn (zipf25 : List Char → Bool) (w : List Char) : Bool :=
  if w.length < 4 || pyIsupper w then false
  else if enWordMatch w then !is_word zipf25 w
  else if arWordMatch w then !is_arabic_word ⟨w⟩
  else false

/-- `highlight_misspellings_in_paragraph`. -/
def highlight_misspellings_in_paragraph (zipf25 : List Char → Bool)
    (p : Para) : Para :=
  let text := p.text.data
  let words := findall mTokLen text
  let missp := words.filter (misspelledEn zipf25)
  if missp.isEmpty then p
  else
    { runs := (splitCap mTokLen text).map fun tok =>
        { text := ⟨tok⟩, highlight := missp.contains tok } }

/-- `is_valid_urdu_word`: zero-width characters removed, then the zipf-1.6
oracle (abstract parameter `zipfUr16`). -/
def is_valid_urdu_word (zipfUr16 : List Char → Bool) (w : List Char) : Bool :=
  zipfUr16 (w.filter fun c => !isZeroWidth c)

/-- `highlight_urdu_misspellings`. -/
def highlight_urdu_misspellings (zipfUr16 : List Char → Bool)
    (p : Para) : Para :=
  let text := p.text.data
  if (pyStrip text).isEmpty then p
  else
    let missp := (findall mUrduLen text).filter fun w =>
      3 ≤ w.length && !is_valid_urdu_word zipfUr16 w
    if missp.isEmpty then p
    else
      { runs := (splitCap mUrduLen text).map fun tok =>
          { text := ⟨tok⟩, highlight := missp.contains tok } }

end OcrClean

namespace OcrClean

/-! ## The artifact scrubber `enhanced_ocr_preclean` — stage matchers -/

def isAsciiAlnum (c : Char) : Bool := isAsciiAlpha c || ('0' ≤ c && c ≤ '9')

def isRomanChar (c : Char) : Bool :=
  c = 'i' || c = 'v' || c = 'x' || c = 'I' || c = 'V' || c = 'X'

/-- Index cut for a trailing `\s*$` under `re.MULTILINE`: greedy, backtracking
to the last position whose next character is a newline, or the full run when
the run reaches the end of the string. -/
def lastNlCut (w : List Char) : Option Nat :=
  (w.reverse.findIdx? (fun c => c = '\n')).map (fun i => w.length - 1 - i)

def wsDollarM (w : List Char) (rest : List Char) : Option Nat :=
  if rest.isEmpty then some w.length else lastNlCut w

/-- `\s*-\s*` replaced by `-`. -/
def mSpacedHyphen : RMatcher := fun _ cs =>
  let a := cs.takeWhile isPySpace
  match cs.drop a.length with
  | '-' :: r2 => some (['-'], a.length + 1 + (r2.takeWhile isPySpace).length)
  | _ => none

/-- `(?m)^\s*\[?[ivxIVX]+\]?\s*$` removed. -/
def mRomanLine : RMatcher := fun prev cs =>
  if !atLineStart prev then none else
  let a := cs.takeWhile isPySpace
  let r1 := cs.drop a.length
  let br1 : Nat := match r1 with
                   | '[' :: _ => 1
                   | _ => 0
  let r2 := r1.drop br1
  let ro := r2.takeWhile isRomanChar
  if ro.isEmpty then none else
  let r3 := r2.drop ro.length
  let br2 : Nat := match r3 with
                   | ']' :: _ => 1
                   | _ => 0
  let r4 := r3.drop br2
  let w := r4.takeWhile isPySpace
  match wsDollarM w (r4.drop w.length) with
  | some j => some ([], a.length + br1 + ro.length + br2 + j)
  | none => none

/-- `(?m)^\*\s?.*\n?` removed. -/
def mAsteriskLine : RMatcher := fun prev cs =>
  if !atLineStart prev then none else
  match cs with
  | '*' :: r1 =>
    let s1 : Nat := match r1 with
                    | c :: _ => if isPySpace c then 1 else 0
                    | [] => 0
    let r2 := r1.drop s1
    let dots := r2.takeWhile (fun c => c ≠ '\n')
    let r3 := r2.drop dots.length
    let nl : Nat := match r3 with
                    | '\n' :: _ => 1
                    | _ => 0
    some ([], 1 + s1 + dots.length + nl)
  | _ => none

/-- `\s*\[\d{1,3}\]\s*` replaced by one space. -/
def mBracketNum : RMatcher := fun _ cs =>
  let a := cs.takeWhile isPySpace
  match cs.drop a.length with
  | '[' :: r2 =>
    let d := r2.takeWhile isPyDigit
    if d.isEmpty || 3 < d.length then none else
    match r2.drop d.length with
    | ']' :: r3 => some ([' '], a.length + 1 + d.length + 1 + (r3.takeWhile isPySpace).length)
    | _ => none
  | _ => none

/-- The paragraph-filtering step: split on blank lines, strip, drop empty,
all-digit and page-number-only paragraphs, and rejoin with blank lines. -/
def paraFilterJoin (cs : List Char) : List Char :=
  let kept := (splitOnNN cs).filterMap fun p =>
    let t := pyStrip p
    if t.isEmpty then none
    else if t.all isPyDigit then none
    else if pageNumLine t then none
    else some t
  List.intercalate ['\n', '\n'] kept

def ciA (c : Char) : Bool := c = 'A' || c = 'a'
def ciP (c : Char) : Bool := c = 'P' || c = 'p'
def ciM (c : Char) : Bool := c = 'M' || c = 'm'
def ciG (c : Char) : Bool := c = 'G' || c = 'g'

/-- `\b(\d{1,2})\.(\d{2})\s*(A\.M|P\.M)\b` (IGNORECASE) rewritten to
`\1:\2 \3`, tried at hour width `n`. -/
def tryTime (cs : List Char) (n : Nat) : Option RMatch :=
  let d1 := cs.take n
  if d1.length = n && d1.all isPyDigit then
    match cs.drop n with
    | '.' :: r1 =>
      match r1 with
      | m1 :: m2 :: r2 =>
        if isPyDigit m1 && isPyDigit m2 then
          let w := r2.takeWhile isPySpace
          match r2.drop w.length with
          | ap :: '.' :: mm :: r3 =>
            if (ciA ap || ciP ap) && ciM mm &&
               (match r3.head? with
                | some c => !isWordChar c
                | none => true) then
              some (d1 ++ ':' :: m1 :: m2 :: ' ' :: [ap, '.', mm],
                    n + 3 + w.length + 3)
            else none
          | _ => none
        else none
      | _ => none
    | _ => none
  else none

def mTime : RMatcher := fun prev cs =>
  if optWord prev then none else
  match tryTime cs 2 with
  | some r => some r
  | none => tryTime cs 1

/-- `(?m)^\d+\s*[A-Za-z].*?(?=\n|$)` removed. -/
def mNumLetterLine : RMatcher := fun prev cs =>
  if !atLineStart prev then none else
  let d := cs.takeWhile isPyDigit
  if d.isEmpty then none else
  let r1 := cs.drop d.length
  let w := r1.takeWhile isPySpace
  match r1.drop w.length with
  | c :: r2 =>
    if isAsciiAlpha c then
      some ([], d.length + w.length + 1 + (r2.takeWhile (fun x => x ≠ '\n')).length)
    else none
  | [] => none

/-- `(?m)^(?:Page\s*\d+)\s*$` removed. -/
def mPageLine : RMatcher := fun prev cs =>
  if !atLineStart prev then none else
  match cs with
  | 'P' :: 'a' :: 'g' :: 'e' :: r1 =>
    let a := r1.takeWhile isPySpace
    let d := (r1.drop a.length).takeWhile isPyDigit
    if d.isEmpty then none else
    let r2 := (r1.drop a.length).drop d.length
    let w := r2.takeWhile isPySpace
    match wsDollarM w (r2.drop w.length) with
    | some j => some ([], 4 + a.length + d.length + j)
    | none => none
  | _ => none

/-- `(?<![A-Z])(?<=[a-z])\d+` removed. -/
def mDigitAfterLower : RMatcher := fun prev cs =>
  match prev with
  | some c =>
    if isAsciiLower c then
      let d := cs.takeWhile isPyDigit
      if d.isEmpty then none else some ([], d.length)
    else none
  | none => none

/-- `(?m)^\s*\d{1,2}\s+[A-Za-z]+\b.*$` removed. -/
def mNumWordLine : RMatcher := fun prev cs =>
  if !atLineStart prev then none else
  let a := cs.takeWhile isPySpace
  let r1 := cs.drop a.length
  let d := r1.takeWhile isPyDigit
  if d.isEmpty || 2 < d.length then none else
  let r2 := r1.drop d.length
  let u := r2.takeWhile isPySpace
  if u.isEmpty then none else
  let r3 := r2.drop u.length
  let L := r3.takeWhile isAsciiAlpha
  if L.isEmpty then none else
  let r4 := r3.drop L.length
  match r4.head? with
  | some c =>
    if isWordChar c then none
    else some ([], a.length + d.length + u.length + L.length +
                   (r4.takeWhile (fun x => x ≠ '\n')).length)
  | none => some ([], a.length + d.length + u.length + L.length)

def wsLen (cs : List Char) : Nat := (cs.takeWhile isPySpace).length

/-- Full-suffix match of `(\n\s*\d{1,2}\s+.*)+\Z`: one or more blocks of
newline, whitespace, one or two digits, whitespace, rest-of-line, ending
exactly at the end of the string.  The disjunction explores the places the
backtracking `\s+`/`.*` split can put the next block's newline. -/
def trailBlocksF : Nat → List Char → Bool
  | 0, _ => false
  | fuel + 1, cs =>
    match cs with
    | '\n' :: t =>
      let a := wsLen t
      let v := t.drop a
      let d := (v.takeWhile isPyDigit).length
      if d = 0 || 2 < d then false else
      let u := v.drop d
      let w := wsLen u
      if w = 0 then false else
      (match (u.drop w).findIdx? (fun c => c = '\n') with
       | none => true
       | some idx => trailBlocksF fuel (u.drop (w + idx))) ||
      ((List.range w).any fun n =>
        decide (1 ≤ n) &&
        (match u[n]? with
         | some c => decide (c = '\n')
         | none => false) &&
        trailBlocksF fuel (u.drop n))
    | _ => false

/-- `(\n\s*\d{1,2}\s+.*)+\Z` removed (matches only a suffix reaching the end). -/
def mTrailBlock : RMatcher := fun _ cs =>
  if trailBlocksF (cs.length + 1) cs then some ([], cs.length) else none

/-- `\(\s*pg\.?\s*\d+\s*\)` (IGNORECASE) removed. -/
def mPgFoot : RMatcher := fun _ cs =>
  match cs with
  | '(' :: r1 =>
    let a := r1.takeWhile isPySpace
    match r1.drop a.length with
    | p :: g :: r2 =>
      if !(ciP p && ciG g) then none else
      let dot : Nat := match r2 with
                       | '.' :: _ => 1
                       | _ => 0
      let r3 := r2.drop dot
      let b := r3.takeWhile isPySpace
      let d := (r3.drop b.length).takeWhile isPyDigit
      if d.isEmpty then none else
      let r4 := (r3.drop b.length).drop d.length
      let e := r4.takeWhile isPySpace
      match r4.drop e.length with
      | ')' :: _ =>
        some ([], 1 + a.length + 2 + dot + b.length + d.length + e.length + 1)
      | _ => none
    | _ => none
  | _ => none

/-- `(?<!\d)\.[0-9A-Za-z]+(?=\s|$)` replaced by a bare dot. -/
def mDotAlnum : RMatcher := fun prev cs =>
  if (match prev with
      | some c => isPyDigit c
      | none => false) then none else
  match cs with
  | '.' :: r1 =>
    let run := r1.takeWhile isAsciiAlnum
    if run.isEmpty then none else
    match (r1.drop run.length).head? with
    | some c => if isPySpace c then some (['.'], 1 + run.length) else none
    | none => some (['.'], 1 + run.length)
  | _ => none

/-- `\.(\*)` replaced by a dot. -/
def mDotStar : RMatcher := fun _ cs =>
  match cs with
  | '.' :: '*' :: _ => some (['.'], 2)
  | _ => none

/-- `\.\s*\d+\s+(?=[A-Z])` replaced by `. `. -/
def mDotNumCap : RMatcher := fun _ cs =>
  match cs with
  | '.' :: r1 =>
    let a := r1.takeWhile isPySpace
    let d := (r1.drop a.length).takeWhile isPyDigit
    if d.isEmpty then none else
    let r2 := (r1.drop a.length).drop d.length
    let u := r2.takeWhile isPySpace
    if u.isEmpty then none else
    match (r2.drop u.length).head? with
    | some c =>
      if isAsciiUpper c then some (['.', ' '], 1 + a.length + d.length + u.length)
      else none
    | none => none
  | _ => none

/-- `"\s*(\d+)(?=\s|[A-Z])` replaced by the quote. -/
def mQuoteNum : RMatcher := fun _ cs =>
  match cs with
  | '"' :: r1 =>
    let a := r1.takeWhile isPySpace
    let d := (r1.drop a.length).takeWhile isPyDigit
    if d.isEmpty then none else
    match ((r1.drop a.length).drop d.length).head? with
    | some c =>
      if isPySpace c || isAsciiUpper c then some (['"'], 1 + a.length + d.length)
      else none
    | none => none
  | _ => none

def isLatinOrArabic (c : Char) : Bool :=
  isAsciiAlpha c || ('؀' ≤ c && c ≤ 'ۿ')

/-- `(?<!\d),(\d{1,3})(?=\s+[A-Za-z؀-ۿ])` replaced by the comma. -/
def mCommaNum : RMatcher := fun prev cs =>
  if (match prev with
      | some c => isPyDigit c
      | none => false) then none else
  match cs with
  | ',' :: r1 =>
    let d := r1.takeWhile isPyDigit
    if d.isEmpty || 3 < d.length then none else
    let r2 := r1.drop d.length
    let u := r2.takeWhile isPySpace
    if u.isEmpty then none else
    match (r2.drop u.length).head? with
    | some c => if isLatinOrArabic c then some ([','], 1 + d.length) else none
    | none => none
  | _ => none

/-- `\.\s+\d+(?=\s+[A-Z؀-ۿ]|$)` replaced by `. `. -/
def mDotSpNum : RMatcher := fun _ cs =>
  match cs with
  | '.' :: r1 =>
    let u := r1.takeWhile isPySpace
    if u.isEmpty then none else
    let d := (r1.drop u.length).takeWhile isPyDigit
    if d.isEmpty then none else
    let r2 := (r1.drop u.length).drop d.length
    let la :=
      (let v := r2.takeWhile isPySpace
       !v.isEmpty &&
         (match (r2.drop v.length).head? with
          | some c => isAsciiUpper c || ('؀' ≤ c && c ≤ 'ۿ')
          | none => false)) ||
      r2.isEmpty || r2 = ['\n']
    if la then some (['.', ' '], 1 + u.length + d.length) else none
  | _ => none

/-- `([:;])\d+(?=\s|$)` replaced by the captured separator. -/
def mColonNum : RMatcher := fun _ cs =>
  match cs with
  | c :: r1 =>
    if !(c = ':' || c = ';') then none else
    let d := r1.takeWhile isPyDigit
    if d.isEmpty then none else
    match (r1.drop d.length).head? with
    | some x => if isPySpace x then some ([c], 1 + d.length) else none
    | none => some ([c], 1 + d.length)
  | [] => none

/-- The source's `["""]` class contains only the straight quote, so this
substitution replaces `"` by `"`. -/
def mQuoteClass : RMatcher := fun _ cs =>
  match cs with
  | '"' :: _ => some (['"'], 1)
  | _ => none

/-- `[‘’]` replaced by a straight apostrophe. -/
def mCurlyApos : RMatcher := fun _ cs =>
  match cs with
  | c :: _ =>
    if c = '‘' || c = '’' then some (['\''], 1) else none
  | [] => none

/-- `(?<=[.!?])\s{2,}(?=\S)` replaced by one space. -/
def mSentSpace : RMatcher := fun prev cs =>
  if !(match prev with
       | some c => c = '.' || c = '!' || c = '?'
       | none => false) then none else
  let r := cs.takeWhile isPySpace
  if r.length < 2 then none else
  match (cs.drop r.length).head? with
  | some _ => some ([' '], r.length)
  | none => none

/-- The three repair passes of `fix_ocr_hyphenated_words`, list level. -/
def fixHyphList (zipf25 : List Char → Bool) (cs : List Char) : List Char :=
  subScan (mFixHyph zipf25) (subScan (mFixHyph zipf25) (subScan (mFixHyph zipf25) cs))

/-- `enhanced_ocr_preclean` on the character list: the full stage sequence in
source order. -/
def enhancedList (zipf25 : List Char → Bool) (cs : List Char) : List Char :=
  if cs.isEmpty then cs else
  let t1 := normalizeEmDashList cs
  let t2 := normalizeUnicodeList t1
  let t3 := fixHyphList zipf25 t2
  let t4 := subScan mSpacedHyphen t3
  let t5 := subScan mRomanLine t4
  let t6 := subScan mAsteriskLine t5
  let t7 := subScan mBracketNum t6
  let t8 := paraFilterJoin t7
  let t9 := subScan mTime t8
  let t10 := subScan mNumLetterLine t9
  let t11 := subScan mPageLine t10
  let t12 := subScan mDigitAfterLower t11
  let t13 := subScan mNumWordLine t12
  let t14 := subScan mTrailBlock t13
  let t15 := subScan mPgFoot t14
  let t16 := subScan mDotAlnum t15
  let t17 := subScan mDotStar t16
  let t18 := subScan mDotNumCap t17
  let t19 := subScan mQuoteNum t18
  let t20 := subScan mCommaNum t19
  let t21 := subScan mDotSpNum t20
  let t22 := subScan mColonNum t21
  let t23 := subScan mQuoteClass t22
  let t24 := subScan mCurlyApos t23
  let t25 := subScan mNl3 t24
  let t26 := subScan mSentSpace t25
  pyStrip t26

/-- `enhanced_ocr_preclean`. -/
def enhanced_ocr_preclean (zipf25 : List Char → Bool) (s : String) : String :=
  ⟨enhancedList zipf25 s.data⟩

end OcrClean

namespace OcrClean

/-! ## Theorems -/

/-- C7: a token containing any character of the fixed Urdu-exclusive set is
never classified as Arabic by `is_arabic_word`, regardless of the remaining
characters. -/
theorem urdu_exclusive_never_arabic (token : String) (c : Char)
    (hc : c ∈ token.data) (hu : c ∈ urduOnlyChars) :
    is_arabic_word token = false := by
  unfold is_arabic_word
  have hany : token.data.any (fun c => urduOnlyChars.contains c) = true := by
    refine List.any_eq_true.mpr ⟨c, hc, ?_⟩
    simpa using hu
  simp only [hany, Bool.not_true, Bool.and_false]

/-- Witness for C7 at the concrete token `"ٹست"`. -/
theorem urdu_exclusive_never_arabic_witness :
    'ٹ' ∈ ("ٹست" : String).data ∧ 'ٹ' ∈ urduOnlyChars ∧
      is_arabic_word "ٹست" = false :=
  ⟨by decide, by decide,
    urdu_exclusive_never_arabic "ٹست" 'ٹ' (by decide) (by decide)⟩

/-- C1, counterexample: with an oracle that accepts exactly
`"econometrics"` (the allow-list word of the claim), the hyphenation repair
on `"econo- mics"` does not produce `"econometrics"`: the concatenation is
`"economics"`, which this oracle rejects, so the output is `"econo-mics"`. -/
theorem hyphen_repair_econometrics_cex :
    fix_ocr_hyphenated_words (fun w => w == "econometrics".data) "econo- mics"
      = "econo-mics" ∧
    ("econo-mics" : String) ≠ "econometrics" := by
  constructor
  · rfl
  · decide

end OcrClean

namespace OcrClean

/-! ## The text-level pipeline of `process_docx_file` -/

/-- The merge stage of `process_docx_file` (its two text-level merge calls).
The source calls `merge_soft_split_paragraphs_text` and
`merge_paragraphs_split_by_hyphen` without an audit writer, so the stage
contributes no audit rows: the second component is the stage's (empty)
audit output. -/
def mergeStageOfProcess (t : String) : String × List AuditRecord :=
  (merge_paragraphs_split_by_hyphen (merge_soft_split_paragraphs_text t), [])

/-- The text-level tail of `process_docx_file`: artifact scrubbing, the two
merge passes, the paragraph re-split (`if p.strip()`), and
`merge_broken_words`. -/
def englishCleanParas (zipf25 : List Char → Bool) (fname : String)
    (s : String) : List String × List AuditRecord :=
  let t3 := (mergeStageOfProcess (enhanced_ocr_preclean zipf25 s)).1
  let paras := (splitOnNN t3.data).filter fun p => !(pyStrip p).isEmpty
  merge_broken_words fname (paras.map fun l => ⟨l⟩)

/-- All characters of the final paragraph list. -/
def parasChars (ps : List String) : List Char := (ps.map String.data).flatten

/-- C1, amended behaviour: on `"econo- mics"` the repair consults the zipf
oracle on the concatenation `"economics"` (not on any allow-list) and outputs
`"economics"` when the oracle accepts it, otherwise `"econo-mics"` — the
space after the hyphen is dropped, not kept; on `"well- formed"` with
`"wellformed"` failing the oracle the output is `"well-formed"`. -/
theorem hyphen_repair_amended (z : List Char → Bool) :
    fix_ocr_hyphenated_words z "econo- mics" =
      (if z "economics".data then "economics" else "econo-mics") ∧
    (z "wellformed".data = false →
      fix_ocr_hyphenated_words z "well- formed" = "well-formed") := by
  constructor
  · have h0 : subScan (mFixHyph z) "econo- mics".data =
        (if z "economics".data then "economics".data else "econo-mics".data) ++ [] := rfl
    rw [List.append_nil] at h0
    show (⟨subScan (mFixHyph z) (subScan (mFixHyph z)
        (subScan (mFixHyph z) "econo- mics".data))⟩ : String) = _
    rw [h0]
    cases hz : z "economics".data
    · rfl
    · rfl
  · intro hz
    have h0 : subScan (mFixHyph z) "well- formed".data =
        (if z "wellformed".data then "wellformed".data else "well-formed".data) ++ [] := rfl
    rw [List.append_nil, hz] at h0
    show (⟨subScan (mFixHyph z) (subScan (mFixHyph z)
        (subScan (mFixHyph z) "well- formed".data))⟩ : String) = _
    rw [h0]
    rfl

/-- Witness for the amended C1 at the all-rejecting oracle. -/
theorem hyphen_repair_amended_witness :
    fix_ocr_hyphenated_words (fun _ => false) "econo- mics" = "econo-mics" ∧
    fix_ocr_hyphenated_words (fun _ => false) "well- formed" = "well-formed" := by
  have h := hyphen_repair_amended (fun _ => false)
  exact ⟨by simpa using h.1, h.2 rfl⟩

/-- A zipf oracle rejecting every word; the inputs below never reach an
oracle consultation (they contain no hyphen-space break), so every oracle
gives the same trace. -/
def zNone : List Char → Bool := fun _ => false

set_option maxHeartbeats 2000000 in
/-- C2: the artifact scrubber does not preserve `"11.40 A.M"`.  The
protection step rewrites it to `"11:40 A.M"`, but the later
`(?<!\d)\.[0-9A-Za-z]+(?=\s|$)` and `([:;])\d+(?=\s|$)` passes then strip
`.M` and the minutes `40`, leaving `"11: A."` — the digits `4` and `0` do
not survive. -/
theorem time_pattern_destroyed :
    enhanced_ocr_preclean zNone "11.40 A.M" = "11: A." ∧
    '4' ∉ (enhanced_ocr_preclean zNone "11.40 A.M").data ∧
    '0' ∉ (enhanced_ocr_preclean zNone "11.40 A.M").data := by
  refine ⟨by decide, by decide, by decide⟩

set_option maxHeartbeats 2000000 in
/-- C5, counterexample: on `"at 11.40 A.M ’go’ now"` the pipeline emits a
colon (clock-time rewriting) and a straight apostrophe (curly-quote
normalization), neither of which occurs in the normalized input, and neither
of which is the em dash, a space, or a period. -/
theorem pipeline_inserts_colon_and_apostrophe :
    (englishCleanParas zNone "f" "at 11.40 A.M ’go’ now").1 =
      ["at 11: A. 'go' now"] ∧
    ':' ∈ parasChars ["at 11: A. 'go' now"] ∧
    '\'' ∈ parasChars ["at 11: A. 'go' now"] ∧
    ':' ∉ (normalize_unicode_and_spaces
            (normalize_em_dashes "at 11.40 A.M ’go’ now")).data ∧
    '\'' ∉ (normalize_unicode_and_spaces
            (normalize_em_dashes "at 11.40 A.M ’go’ now")).data :=
  ⟨by decide, by decide, by decide, by decide, by decide⟩

/-- C3: the soft-split and hyphen-line merge passes of `process_docx_file`
run without an audit writer: on a document whose two paragraphs are merged
into one, the merge stage changes the text but appends no audit record. -/
theorem merge_stage_appends_no_audit :
    (splitOnNN ("the cat sat on the\n\nmat and slept" : String).data).length = 2 ∧
    (mergeStageOfProcess "the cat sat on the\n\nmat and slept").1 =
      "the cat sat on the mat and slept" ∧
    (splitOnNN ("the cat sat on the mat and slept" : String).data).length = 1 ∧
    (mergeStageOfProcess "the cat sat on the\n\nmat and slept").2 = [] :=
  ⟨by decide, rfl, by decide, rfl⟩

/-- C9: while the current paragraph ends in a lowercase letter (with no
sentence-terminal punctuation) and the next begins with one, the soft-split
merge concatenates them with a single space and keeps checking the merged
paragraph against the following one; and the claim's concrete document
merges to one paragraph. -/
theorem soft_split_merge_continues (p q : List Char) (rest : List (List Char))
    (h : softCond p q = true) :
    mergeSoftLoop (p :: q :: rest) =
      mergeSoftLoop ((p ++ ' ' :: pyStrip q) :: rest) ∧
    merge_soft_split_paragraphs_text "the cat sat on the\n\nmat and slept" =
      "the cat sat on the mat and slept" := by
  constructor
  · show mergeSoftGo p (q :: rest) = mergeSoftGo (p ++ ' ' :: pyStrip q) rest
    rw [mergeSoftGo, h]
    simp
  · rfl

/-- Witness for C9 at the claim's document. -/
theorem soft_split_merge_continues_witness :
    softCond "the cat sat on the".data "mat and slept".data = true ∧
    mergeSoftLoop ["the cat sat on the".data, "mat and slept".data] =
      mergeSoftLoop [("the cat sat on the".data ++ ' ' :: pyStrip "mat and slept".data)] ∧
    merge_soft_split_paragraphs_text "the cat sat on the\n\nmat and slept" =
      "the cat sat on the mat and slept" :=
  ⟨by decide,
   (soft_split_merge_continues "the cat sat on the".data "mat and slept".data []
      (by decide)).1,
   (soft_split_merge_continues "the cat sat on the".data "mat and slept".data []
      (by decide)).2⟩

end OcrClean

namespace OcrClean

/-! ## C4: header removal keeps the first occurrence -/

/-- Modelled from the spec's wording of the removal policy: walk the
paragraphs in order, keep the first occurrence of each header string, drop
every later occurrence, and pass non-headers through untouched. -/
def keepFirstSpec (isHeader : List Char → Bool) :
    List (List Char) → List (List Char) → List (List Char)
  | _, [] => []
  | seen, p :: rest =>
    if isHeader (pyStrip p) then
      if seen.contains (pyStrip p) then keepFirstSpec isHeader seen rest
      else p :: keepFirstSpec isHeader (pyStrip p :: seen) rest
    else p :: keepFirstSpec isHeader seen rest

theorem removeKnownGo_no_patterns (detected : List Char → Bool) (fname : String) :
    ∀ (paras : List (List Char)) (i : Nat) (seen : List (List Char)),
      (removeKnownGo [] detected fname i seen paras).1 =
        keepFirstSpec detected seen paras := by
  intro paras
  induction paras with
  | nil => intro i seen; rfl
  | cons p rest ih =>
    intro i seen
    simp only [removeKnownGo, keepFirstSpec, List.any_nil, Bool.false_eq_true,
      if_false]
    by_cases hd : detected (pyStrip p) = true
    · simp only [hd, if_true]
      by_cases hs : seen.contains (pyStrip p) = true
      · simp only [hs, if_true, ih]
      · simp only [Bool.not_eq_true] at hs
        simp only [hs, Bool.false_eq_true, if_false, ih]
    · simp only [Bool.not_eq_true] at hd
      simp only [hd, Bool.false_eq_true, if_false, ih]

/-- The claim's six-paragraph document. -/
def chapterDoc : List (List Char) :=
  ["Chapter One".data, "body text".data, "Chapter One".data,
   "more text".data, "Chapter One".data, "end".data]

/-- C4: with no regex patterns, `remove_known_headers` realizes exactly the
first-kept / later-dropped policy over the detected set, passing non-headers
through in order; and on the claim's document (threshold 3, with the
dynamically generated pattern as built by `process_docx_file`) the result is
`["Chapter One", "body text", "more text", "end"]`. -/
theorem remove_headers_first_kept (detected : List Char → Bool) (fname : String)
    (paras : List (List Char)) :
    (remove_known_headers paras detected [] fname).1 =
      keepFirstSpec detected [] paras ∧
    detect_repetitive_headers chapterDoc 3 "Chapter One".data = true ∧
    (remove_known_headers chapterDoc (detect_repetitive_headers chapterDoc 3)
        [dynHeaderPat "Chapter One".data] "f").1 =
      ["Chapter One".data, "body text".data, "more text".data, "end".data] :=
  ⟨removeKnownGo_no_patterns detected fname paras 0 [], by decide, by decide⟩

/-! ## C10: junk paragraphs skipped by the broken-word merge -/

theorem innerMBF_actions (fname : String) :
    ∀ (fuel : Nat) (cur : List Char) (i : Nat) (rest : List (List Char)),
      ∀ r ∈ (innerMBF fname fuel cur i rest).2.2.2,
        r.action = "merge_broken_word_multi" := by
  intro fuel
  induction fuel with
  | zero => intro cur i rest r hr; simp [innerMBF] at hr
  | succ fuel ih =>
    intro cur i rest r hr
    rw [innerMBF] at hr
    split at hr
    · simp at hr
    · dsimp only at hr
      split at hr
      · simp at hr
      · split at hr
        · simp at hr
        · split at hr
          · simp at hr
          · simp only [List.mem_cons] at hr
            rcases hr with rfl | hr
            · rfl
            · exact ih _ _ _ r hr

theorem mergeBrokenGo_actions (fname : String) :
    ∀ (fuel i : Nat) (ps : List (List Char)),
      ∀ r ∈ (mergeBrokenGo fname fuel i ps).2,
        r.action = "merge_broken_word_multi" := by
  intro fuel
  induction fuel with
  | zero => intro i ps r hr; simp [mergeBrokenGo] at hr
  | succ fuel ih =>
    intro i ps r hr
    rcases ps with _ | ⟨p, rest⟩
    · simp [mergeBrokenGo] at hr
    · rw [mergeBrokenGo] at hr
      simp only [List.mem_append] at hr
      rcases hr with hr | hr
      · exact innerMBF_actions fname _ _ _ _ r hr
      · exact ih _ _ r hr

theorem takeWhile_junk_append (junks : List (List Char)) (next : List Char)
    (t : List (List Char)) (hj : ∀ j ∈ junks, junkPara j = true)
    (hn : junkPara next = false) :
    (junks ++ next :: t).takeWhile junkPara = junks ∧
    (junks ++ next :: t).drop junks.length = next :: t := by
  constructor
  · induction junks with
    | nil => simp [List.takeWhile, hn]
    | cons j js ihj =>
      have hjj := hj j (by simp)
      simp only [List.cons_append, List.takeWhile_cons, hjj, if_true]
      rw [ihj (fun x hx => hj x (by simp [hx]))]
  · exact List.drop_left junks (next :: t)

/-- The merged current paragraph produced by one broken-word merge step. -/
def mergedCurOf (cur letters t0 : List Char) (g0 : Nat)
    (trest : List (List Char)) : List Char :=
  cur.take (cur.length - g0) ++ letters ++ t0 ++ ' ' :: List.intercalate [' '] trest

/-- The audit row produced by one broken-word merge step. -/
def mergeRowOf (fname : String) (i : Nat) (letters next newCur : List Char) :
    AuditRecord :=
  { file := fname, para_index := i, action := "merge_broken_word_multi",
    pat := ⟨letters ++ "- + ".data ++ next.take 30 ++ "...".data⟩,
    before_preview := ⟨newCur.take 50 ++ "...".data⟩,
    after_preview := ⟨newCur.take 50 ++ "...".data⟩ }

/-- C10: every audit row `merge_broken_words` emits carries the action
`merge_broken_word_multi` (so no row ever records a junk-paragraph removal),
and whenever the merge fires, the junk paragraphs between the broken word
and the next real paragraph are dropped: the loop continues on the
paragraphs after the merged one, so the skipped junk appears neither in the
output paragraphs nor in any later audit row. -/
theorem broken_word_merge_skips_junk :
    (∀ (fname : String) (paras : List String),
       ∀ r ∈ (merge_broken_words fname paras).2,
         r.action = "merge_broken_word_multi") ∧
    (∀ (fname : String) (fuel : Nat) (cur : List Char) (i : Nat)
       (junks : List (List Char)) (next : List Char) (rest : List (List Char))
       (letters : List Char) (g0 : Nat) (t0 : List Char) (trest : List (List Char)),
       hyphTail cur = some (letters, g0) →
       (∀ j ∈ junks, junkPara j = true) →
       junkPara next = false →
       (pyStrip next).isEmpty = false →
       pySplitWs (pyStrip next) = t0 :: trest →
       innerMBF fname (fuel + 1) cur i (junks ++ next :: rest) =
         ((innerMBF fname fuel (mergedCurOf cur letters t0 g0 trest)
             (i + 1 + junks.length) rest).1,
          (innerMBF fname fuel (mergedCurOf cur letters t0 g0 trest)
             (i + 1 + junks.length) rest).2.1,
          (innerMBF fname fuel (mergedCurOf cur letters t0 g0 trest)
             (i + 1 + junks.length) rest).2.2.1,
          mergeRowOf fname i letters (pyStrip next)
              (mergedCurOf cur letters t0 g0 trest) ::
            (innerMBF fname fuel (mergedCurOf cur letters t0 g0 trest)
               (i + 1 + junks.length) rest).2.2.2)) := by
  constructor
  · intro fname paras r hr
    exact mergeBrokenGo_actions fname _ _ _ r hr
  · intro fname fuel cur i junks next rest letters g0 t0 trest hm hj hn hne hsp
    have htw := takeWhile_junk_append junks next rest hj hn
    rw [innerMBF, hm, htw.1]
    dsimp only
    rw [htw.2]
    simp only [hne, Bool.false_eq_true, if_false, hsp]
    simp [mergedCurOf, mergeRowOf]

end OcrClean

namespace OcrClean

/-- Witness for C10 at `["word-", "12", "continuation more"]`. -/
theorem broken_word_merge_skips_junk_witness :
    hyphTail "word-".data = some ("word".data, 5) ∧
    junkPara "12".data = true ∧
    junkPara "continuation more".data = false ∧
    innerMBF "f" 1 "word-".data 0 (["12".data] ++ "continuation more".data :: []) =
      ((innerMBF "f" 0 (mergedCurOf "word-".data "word".data "continuation".data 5
          ["more".data]) (0 + 1 + (["12".data] : List (List Char)).length) []).1,
       (innerMBF "f" 0 (mergedCurOf "word-".data "word".data "continuation".data 5
          ["more".data]) (0 + 1 + (["12".data] : List (List Char)).length) []).2.1,
       (innerMBF "f" 0 (mergedCurOf "word-".data "word".data "continuation".data 5
          ["more".data]) (0 + 1 + (["12".data] : List (List Char)).length) []).2.2.1,
       mergeRowOf "f" 0 "word".data (pyStrip "continuation more".data)
           (mergedCurOf "word-".data "word".data "continuation".data 5 ["more".data]) ::
         (innerMBF "f" 0 (mergedCurOf "word-".data "word".data "continuation".data 5
            ["more".data]) (0 + 1 + (["12".data] : List (List Char)).length) []).2.2.2) :=
  ⟨by decide, by decide, by decide,
   broken_word_merge_skips_junk.2 "f" 0 "word-".data 0 ["12".data]
     "continuation more".data [] "word".data 5 "continuation".data ["more".data]
     (by decide) (by decide) (by decide) (by decide) (by decide)⟩

/-! ## C8: the misspelling highlighters never change the text -/

theorem string_eq_of_data (s t : String) (h : s.data = t.data) : s = t := by
  cases s
  cases t
  exact congrArg String.mk (by simpa using h)

theorem splitCapGo_flatten (m : CMatcher) :
    ∀ (fuel : Nat) (prev : Option Char) (gapRev cs : List Char),
      (splitCapGo m fuel prev gapRev cs).flatten = gapRev.reverse ++ cs := by
  intro fuel
  induction fuel with
  | zero => intro prev gapRev cs; simp [splitCapGo]
  | succ fuel ih =>
    intro prev gapRev cs
    rcases cs with _ | ⟨c, rest⟩
    · simp [splitCapGo]
    · rw [splitCapGo]
      rcases h : m prev (c :: rest) with _ | k
      · rw [ih]
        simp
      · simp only [List.flatten_cons, ih, List.reverse_nil, List.nil_append,
          List.append_nil]
        rw [List.take_append_drop]

theorem stringJoinData (ss : List String) :
    (String.join ss).data = (ss.map String.data).flatten := by
  have haux : ∀ (ts : List String) (acc : String),
      (ts.foldl (fun r s => r ++ s) acc).data =
        acc.data ++ (ts.map String.data).flatten := by
    intro ts
    induction ts with
    | nil => intro acc; simp
    | cons a t ih =>
      intro acc
      simp only [List.foldl_cons, ih, List.map_cons, List.flatten_cons]
      simp [String.data_append]
  have h := haux ss ""
  simpa [String.join] using h

theorem splitCap_flatten (m : CMatcher) (cs : List Char) :
    (splitCap m cs).flatten = cs := by
  rw [splitCap, splitCapGo_flatten]
  rfl

/-- C8: neither highlighter changes a paragraph's text: the concatenation of
the rebuilt runs equals the paragraph text before highlighting, whitespace
included — only highlight flags are attached. -/
theorem highlighters_preserve_text (zipf25 zipfUr16 : List Char → Bool)
    (p : Para) :
    (highlight_misspellings_in_paragraph zipf25 p).text = p.text ∧
    (highlight_urdu_misspellings zipfUr16 p).text = p.text := by
  have rebuilt : ∀ (m : CMatcher) (f : List Char → Bool),
      Para.text { runs := (splitCap m p.text.data).map fun tok =>
          { text := ⟨tok⟩, highlight := f tok } } = p.text := by
    intro m f
    apply string_eq_of_data
    show (String.join _).data = _
    rw [List.map_map]
    have hcomp : (Run.text ∘ fun tok =>
        Run.mk (⟨tok⟩ : String) (f tok)) = fun tok => (⟨tok⟩ : String) := rfl
    rw [hcomp, stringJoinData, List.map_map]
    have hcomp2 : (String.data ∘ fun tok => (⟨tok⟩ : String)) = id := rfl
    rw [hcomp2, List.map_id, splitCap_flatten]
  constructor
  · rw [highlight_misspellings_in_paragraph]
    split
    · rfl
    · exact rebuilt mTokLen _
  · rw [highlight_urdu_misspellings]
    split
    · rfl
    · dsimp only
      split
      · rfl
      · exact rebuilt mUrduLen _

end OcrClean

namespace OcrClean

/-! ## C5 (amended): characters the pipeline may introduce -/

/-- The characters the (amended) non-insertion invariant allows the pipeline
to introduce: em dash, space, period, colon, apostrophe. -/
def insertedOk : List Char := ['—', ' ', '.', ':', '\'']

/-- `x`'s characters all come from `y` up to the allowed set `A`. -/
def CharsWithin (A : List Char) (x y : List Char) : Prop :=
  ∀ c ∈ x, c ∈ y ∨ c ∈ A

theorem CharsWithin.trans {A x y z} (h1 : CharsWithin A x y)
    (h2 : CharsWithin A y z) : CharsWithin A x z := by
  intro c hc
  rcases h1 c hc with h | h
  · exact h2 c h
  · exact Or.inr h

theorem CharsWithin.refl (A x) : CharsWithin A x x := fun _ hc => Or.inl hc

/-- A matcher whose replacements only use matched characters or `A`. -/
def MatcherWithin (A : List Char) (m : RMatcher) : Prop :=
  ∀ p cs repl k, m p cs = some (repl, k) → ∀ c ∈ repl, c ∈ cs ∨ c ∈ A

theorem subScanF_chars {A m} (hm : MatcherWithin A m) :
    ∀ (fuel : Nat) (p : Option Char) (cs : List Char),
      CharsWithin A (subScanF m fuel p cs) cs := by
  intro fuel
  induction fuel with
  | zero => intro p cs c hc; exact Or.inl hc
  | succ fuel ih =>
    intro p cs c hc
    rcases cs with _ | ⟨c0, rest⟩
    · simp [subScanF] at hc
    · rw [subScanF] at hc
      rcases h : m p (c0 :: rest) with _ | ⟨repl, k⟩ <;> rw [h] at hc
      · rcases List.mem_cons.mp hc with rfl | hc
        · exact Or.inl (by simp)
        · rcases ih (some c0) rest c hc with hin | hin
          · exact Or.inl (by simp [hin])
          · exact Or.inr hin
      · rcases List.mem_append.mp hc with hr | hr
        · exact hm p _ repl k h c hr
        · rcases ih _ _ c hr with hin | hin
          · exact Or.inl (List.drop_subset _ _ hin)
          · exact Or.inr hin

theorem subScan_chars {A m} (hm : MatcherWithin A m) (cs : List Char) :
    CharsWithin A (subScan m cs) cs :=
  subScanF_chars hm _ none cs

/-! Small subset facts for the string helpers. -/

theorem pyStrip_subset (l : List Char) : ∀ c ∈ pyStrip l, c ∈ l := by
  intro c hc
  unfold pyStrip at hc
  have h1 := List.dropWhile_sublist (l := (l.dropWhile isPySpace).reverse) (p := isPySpace)
  have h2 := List.dropWhile_sublist (l := l) (p := isPySpace)
  have := (List.reverse_sublist.mpr h1).subset (by simpa using hc)
  simp at this
  exact h2.subset this

theorem pyRstrip_subset (l : List Char) : ∀ c ∈ pyRstrip l, c ∈ l := by
  intro c hc
  unfold pyRstrip at hc
  have h1 := List.dropWhile_sublist (l := l.reverse) (p := isPySpace)
  have := (List.reverse_sublist.mpr h1).subset (by simpa using hc)
  simpa using this

theorem splitOnNN_mem :
    ∀ (cs : List Char), ∀ part ∈ splitOnNN cs, ∀ c ∈ part, c ∈ cs := by
  intro cs
  induction cs using splitOnNN.induct with
  | case1 =>
    intro part hp c hc
    simp only [splitOnNN, List.mem_singleton] at hp
    subst hp
    simp at hc
  | case2 c0 =>
    intro part hp c hc
    simp only [splitOnNN, List.mem_singleton] at hp
    subst hp
    simpa using hc
  | case3 c1 c2 t h ih =>
    intro part hp c hc
    rw [splitOnNN, if_pos h] at hp
    rcases List.mem_cons.mp hp with rfl | hp
    · simp at hc
    · rcases h with ⟨rfl, rfl⟩
      simp [ih part hp c hc]
  | case4 c1 c2 t h hd tl heq ih =>
    intro part hp c hc
    rw [splitOnNN, if_neg h, heq] at hp
    rcases List.mem_cons.mp hp with rfl | hp
    · rcases List.mem_cons.mp hc with rfl | hc
      · simp
      · have : c ∈ c2 :: t := ih hd (by rw [heq]; simp) c hc
        simp [this]
    · have : c ∈ c2 :: t := ih part (by rw [heq]; simp [hp]) c hc
      simp [this]
  | case5 c1 c2 t h heq ih =>
    intro part hp c hc
    rw [splitOnNN, if_neg h, heq] at hp
    simp only [List.mem_singleton] at hp
    subst hp
    rcases List.mem_cons.mp hc with rfl | hc
    · simp
    · simp at hc

end OcrClean

namespace OcrClean

theorem splitOnNN_two_newline :
    ∀ (cs : List Char), 2 ≤ (splitOnNN cs).length → '\n' ∈ cs := by
  intro cs
  induction cs using splitOnNN.induct with
  | case1 => intro h; simp [splitOnNN] at h
  | case2 c0 => intro h; simp [splitOnNN] at h
  | case3 c1 c2 t h ih =>
    intro _
    rcases h with ⟨rfl, _⟩
    simp
  | case4 c1 c2 t h hd tl heq ih =>
    intro hlen
    rw [splitOnNN, if_neg h, heq] at hlen
    simp only [List.length_cons] at hlen
    have : 2 ≤ (splitOnNN (c2 :: t)).length := by
      rw [heq]
      simp only [List.length_cons]
      omega
    have := ih this
    simp [this]
  | case5 c1 c2 t h heq ih =>
    intro hlen
    rw [splitOnNN, if_neg h, heq] at hlen
    simp at hlen

theorem mem_intercalateNN (parts : List (List Char)) (c : Char) :
    c ∈ List.intercalate ['\n', '\n'] parts →
      (∃ p ∈ parts, c ∈ p) ∨ (c = '\n' ∧ 2 ≤ parts.length) := by
  induction parts with
  | nil => intro h; simp [List.intercalate] at h
  | cons p rest ih =>
    rcases rest with _ | ⟨q, rest2⟩
    · intro h
      simp [List.intercalate] at h
      exact Or.inl ⟨p, by simp, h⟩
    · intro h
      have hstep : List.intercalate ['\n', '\n'] (p :: q :: rest2) =
          p ++ '\n' :: '\n' :: List.intercalate ['\n', '\n'] (q :: rest2) := by
        simp [List.intercalate, List.intersperse]
      rw [hstep] at h
      rcases List.mem_append.mp h with h | h
      · exact Or.inl ⟨p, by simp, h⟩
      · rcases List.mem_cons.mp h with rfl | h
        · exact Or.inr ⟨rfl, by simp⟩
        · rcases List.mem_cons.mp h with rfl | h
          · exact Or.inr ⟨rfl, by simp⟩
          · rcases ih h with ⟨r, hr, hcr⟩ | ⟨rfl, _⟩
            · exact Or.inl ⟨r, by simp [hr], hcr⟩
            · exact Or.inr ⟨rfl, by simp⟩

theorem paraFilterJoin_subset (cs : List Char) :
    ∀ c ∈ paraFilterJoin cs, c ∈ cs := by
  intro c hc
  unfold paraFilterJoin at hc
  rcases mem_intercalateNN _ c hc with ⟨p, hp, hcp⟩ | ⟨rfl, hlen⟩
  · rcases List.mem_filterMap.mp hp with ⟨part, hpart, hkeep⟩
    have hstrip : p = pyStrip part := by
      dsimp only at hkeep
      split at hkeep
      · simp at hkeep
      · split at hkeep
        · simp at hkeep
        · split at hkeep
          · simp at hkeep
          · exact (Option.some.inj hkeep).symm
    subst hstrip
    exact splitOnNN_mem cs part hpart c (pyStrip_subset _ c hcp)
  · apply splitOnNN_two_newline
    calc 2 ≤ ((splitOnNN cs).filterMap _).length := hlen
    _ ≤ (splitOnNN cs).length := List.length_filterMap_le _ _

end OcrClean

namespace OcrClean

/-! Per-matcher character bounds for the C5 invariant. -/

theorem mRomanLine_within : MatcherWithin insertedOk mRomanLine := by
  intro p cs repl k h c hc
  unfold mRomanLine at h
  dsimp only at h
  repeat' split at h
  all_goals simp_all

theorem mAsteriskLine_within : MatcherWithin insertedOk mAsteriskLine := by
  intro p cs repl k h c hc
  unfold mAsteriskLine at h
  dsimp only at h
  repeat' split at h
  all_goals simp_all

theorem mNumLetterLine_within : MatcherWithin insertedOk mNumLetterLine := by
  intro p cs repl k h c hc
  unfold mNumLetterLine at h
  dsimp only at h
  repeat' split at h
  all_goals simp_all

theorem mPageLine_within : MatcherWithin insertedOk mPageLine := by
  intro p cs repl k h c hc
  unfold mPageLine at h
  dsimp only at h
  repeat' split at h
  all_goals simp_all

theorem mDigitAfterLower_within : MatcherWithin insertedOk mDigitAfterLower := by
  intro p cs repl k h c hc
  unfold mDigitAfterLower at h
  dsimp only at h
  repeat' split at h
  all_goals simp_all

theorem mNumWordLine_within : MatcherWithin insertedOk mNumWordLine := by
  intro p cs repl k h c hc
  unfold mNumWordLine at h
  dsimp only at h
  repeat' split at h
  all_goals simp_all

theorem mTrailBlock_within : MatcherWithin insertedOk mTrailBlock := by
  intro p cs repl k h c hc
  unfold mTrailBlock at h
  split at h
  all_goals simp_all

theorem mPgFoot_within : MatcherWithin insertedOk mPgFoot := by
  intro p cs repl k h c hc
  unfold mPgFoot at h
  dsimp only at h
  repeat' split at h
  all_goals simp_all

theorem mBracketNum_within : MatcherWithin insertedOk mBracketNum := by
  intro p cs repl k h c hc
  unfold mBracketNum at h
  dsimp only at h
  repeat' split at h
  all_goals try simp_all
  all_goals (
    obtain ⟨hrepl, hk⟩ := h
    subst hrepl
    right
    fin_cases hc <;> decide)

theorem mDotAlnum_within : MatcherWithin insertedOk mDotAlnum := by
  intro p cs repl k h c hc
  unfold mDotAlnum at h
  dsimp only at h
  repeat' split at h
  all_goals try simp_all
  all_goals (
    obtain ⟨hrepl, hk⟩ := h
    subst hrepl
    right
    fin_cases hc <;> decide)

theorem mDotStar_within : MatcherWithin insertedOk mDotStar := by
  intro p cs repl k h c hc
  unfold mDotStar at h
  repeat' split at h
  all_goals try simp_all
  all_goals (
    obtain ⟨hrepl, hk⟩ := h
    subst hrepl
    right
    fin_cases hc <;> decide)

theorem mDotNumCap_within : MatcherWithin insertedOk mDotNumCap := by
  intro p cs repl k h c hc
  unfold mDotNumCap at h
  dsimp only at h
  repeat' split at h
  all_goals try simp_all
  all_goals (
    obtain ⟨hrepl, hk⟩ := h
    subst hrepl
    right
    fin_cases hc <;> decide)

theorem mDotSpNum_within : MatcherWithin insertedOk mDotSpNum := by
  intro p cs repl k h c hc
  unfold mDotSpNum at h
  dsimp only at h
  repeat' split at h
  all_goals try simp_all
  all_goals (
    obtain ⟨hrepl, hk⟩ := h
    subst hrepl
    right
    fin_cases hc <;> decide)

theorem mCurlyApos_within : MatcherWithin insertedOk mCurlyApos := by
  intro p cs repl k h c hc
  unfold mCurlyApos at h
  repeat' split at h
  all_goals try simp_all
  all_goals (
    obtain ⟨hrepl, hk⟩ := h
    subst hrepl
    right
    fin_cases hc <;> decide)

theorem mSentSpace_within : MatcherWithin insertedOk mSentSpace := by
  intro p cs repl k h c hc
  unfold mSentSpace at h
  dsimp only at h
  repeat' split at h
  all_goals try simp_all
  all_goals (
    obtain ⟨hrepl, hk⟩ := h
    subst hrepl
    right
    fin_cases hc <;> decide)

theorem mWsRun_within : MatcherWithin insertedOk mWsRun := by
  intro p cs repl k h c hc
  unfold mWsRun at h
  dsimp only at h
  repeat' split at h
  all_goals try simp_all
  all_goals (
    obtain ⟨hrepl, hk⟩ := h
    subst hrepl
    right
    fin_cases hc <;> decide)

theorem mQuoteClass_within : MatcherWithin insertedOk mQuoteClass := by
  intro p cs repl k h c hc
  unfold mQuoteClass at h
  try dsimp only at h
  repeat' split at h
  all_goals try simp_all
  all_goals (
    obtain ⟨hrepl, hk⟩ := h
    subst hrepl
    simp only [List.mem_singleton] at hc
    subst hc
    simp)

theorem mSpacedHyphen_within : MatcherWithin insertedOk mSpacedHyphen := by
  intro p cs repl k h c hc
  unfold mSpacedHyphen at h
  dsimp only at h
  split at h
  case h_1 r2 heq =>
    simp only [Option.some.injEq, Prod.mk.injEq] at h
    obtain ⟨hrepl, _⟩ := h
    subst hrepl
    simp only [List.mem_singleton] at hc
    subst hc
    exact Or.inl (List.mem_of_mem_drop (l := cs) (by rw [heq]; simp))
  case h_2 => simp at h

theorem mQuoteNum_within : MatcherWithin insertedOk mQuoteNum := by
  intro p cs repl k h c hc
  unfold mQuoteNum at h
  dsimp only at h
  repeat' split at h
  all_goals try simp_all
  all_goals (
    obtain ⟨hrepl, hk⟩ := h
    subst hrepl
    simp only [List.mem_singleton] at hc
    subst hc
    simp)

theorem mCommaNum_within : MatcherWithin insertedOk mCommaNum := by
  intro p cs repl k h c hc
  unfold mCommaNum at h
  dsimp only at h
  repeat' split at h
  all_goals try simp_all
  all_goals (
    obtain ⟨hrepl, hk⟩ := h
    subst hrepl
    simp only [List.mem_singleton] at hc
    subst hc
    simp)

theorem mColonNum_within : MatcherWithin insertedOk mColonNum := by
  intro p cs repl k h c hc
  unfold mColonNum at h
  dsimp only at h
  repeat' split at h
  all_goals try simp_all
  all_goals (
    obtain ⟨hrepl, hk⟩ := h
    subst hrepl
    simp only [List.mem_singleton] at hc
    subst hc
    simp)

theorem mNl3_within : MatcherWithin insertedOk mNl3 := by
  intro p cs repl k h c hc
  unfold mNl3 at h
  dsimp only at h
  split at h
  · simp at h
  · simp only [Option.some.injEq, Prod.mk.injEq] at h
    obtain ⟨hrepl, _⟩ := h
    subst hrepl
    have hlen : ¬ (cs.takeWhile (fun c => c = '\n')).length < 3 := by assumption
    have hne : (cs.takeWhile (fun c => c = '\n')) ≠ [] := by
      intro hemp
      rw [hemp] at hlen
      simp at hlen
    obtain ⟨x, hx⟩ := List.exists_mem_of_ne_nil _ hne
    have hxn : x = '\n' := by simpa using List.mem_takeWhile_imp hx
    have hmem : ('\n' : Char) ∈ cs :=
      (List.takeWhile_prefix _).subset (hxn ▸ hx)
    rcases List.mem_cons.mp hc with rfl | hc
    · exact Or.inl hmem
    · simp only [List.mem_singleton] at hc
      subst hc
      exact Or.inl hmem

theorem mFixHyph_within (z : List Char → Bool) :
    MatcherWithin insertedOk (mFixHyph z) := by
  intro p cs repl k h c hc
  unfold mFixHyph at h
  dsimp only at h
  split at h
  · simp at h
  · split at h
    case h_1 r2 heq =>
      split at h
      · simp at h
      · split at h
        · simp at h
        · simp only [Option.some.injEq, Prod.mk.injEq] at h
          obtain ⟨hrepl, _⟩ := h
          have hsubA : ∀ x ∈ cs.takeWhile isAsciiAlpha, x ∈ cs :=
            fun x hx => (List.takeWhile_prefix _).subset hx
          have hsubR2 : ∀ x ∈ r2, x ∈ cs := by
            intro x hx
            exact List.mem_of_mem_drop (l := cs) (by rw [heq]; simp [hx])
          have hsubB : ∀ x ∈ (r2.drop ((r2.takeWhile isPySpace).length)).takeWhile isAsciiAlpha,
              x ∈ cs := by
            intro x hx
            exact hsubR2 x (List.drop_subset _ _ ((List.takeWhile_prefix _).subset hx))
          subst hrepl
          split at hc
          · rcases List.mem_append.mp hc with hx | hx
            · exact Or.inl (hsubA c hx)
            · exact Or.inl (hsubB c hx)
          · rcases List.mem_append.mp hc with hx | hx
            · exact Or.inl (hsubA c hx)
            · rcases List.mem_cons.mp hx with rfl | hx
              · exact Or.inl (List.mem_of_mem_drop (l := cs) (by rw [heq]; simp))
              · exact Or.inl (hsubB c hx)
    case h_2 => simp at h

theorem tryTime_within (cs : List Char) (n : Nat) (repl : List Char) (k : Nat)
    (h : tryTime cs n = some (repl, k)) :
    ∀ c ∈ repl, c ∈ cs ∨ c ∈ insertedOk := by
  unfold tryTime at h
  repeat' split at h
  all_goals try simp at h
  rename_i x r1 m1 m2 r2 heq1 hdig
  obtain ⟨hd1, h⟩ := h
  split at h
  case h_2 => simp at h
  case h_1 ap mm r3 heq3 =>
    split at h
    case isFalse => simp at h
    case isTrue hcond =>
      simp only [Option.some.injEq, Prod.mk.injEq] at h
      obtain ⟨hrepl, hk⟩ := h
      intro c hc
      rw [← hrepl] at hc
      have hdropmem : ∀ y ∈ ('.' :: m1 :: m2 :: r2 : List Char), y ∈ cs := by
        intro y hy
        exact List.mem_of_mem_drop (l := cs) (heq1 ▸ hy)
      have hr2mem : ∀ y ∈ r2, y ∈ cs := fun y hy => hdropmem y (by simp [hy])
      have hapmem : ∀ y ∈ (ap :: '.' :: mm :: r3 : List Char), y ∈ cs := by
        intro y hy
        exact hr2mem y (List.mem_of_mem_drop (l := r2) (heq3 ▸ hy))
      rcases List.mem_append.mp hc with hx | hx
      · exact Or.inl (List.take_subset _ _ hx)
      · rcases List.mem_cons.mp hx with rfl | hx
        · exact Or.inr (by decide)
        · rcases List.mem_cons.mp hx with rfl | hx
          · exact Or.inl (hdropmem c (by simp))
          · rcases List.mem_cons.mp hx with rfl | hx
            · exact Or.inl (hdropmem c (by simp))
            · rcases List.mem_cons.mp hx with rfl | hx
              · exact Or.inr (by decide)
              · rcases List.mem_cons.mp hx with rfl | hx
                · exact Or.inl (hapmem c (by simp))
                · rcases List.mem_cons.mp hx with rfl | hx
                  · exact Or.inr (by decide)
                  · simp only [List.mem_singleton] at hx
                    subst hx
                    exact Or.inl (hapmem c (by simp))

theorem mTime_within : MatcherWithin insertedOk mTime := by
  intro p cs repl k h c hc
  unfold mTime at h
  split at h
  · simp at h
  · split at h
    case h_1 r heq =>
      obtain rfl : r = (repl, k) := by injection h
      exact tryTime_within cs 2 repl k heq c hc
    case h_2 heq =>
      exact tryTime_within cs 1 repl k h c hc

end OcrClean

namespace OcrClean

/-! Character provenance through the merge passes. -/

theorem mem_intercalate_sep (sep : List Char) (parts : List (List Char)) (c : Char) :
    c ∈ List.intercalate sep parts →
      (∃ p ∈ parts, c ∈ p) ∨ (c ∈ sep ∧ 2 ≤ parts.length) := by
  induction parts with
  | nil => intro h; simp [List.intercalate] at h
  | cons p rest ih =>
    rcases rest with _ | ⟨q, rest2⟩
    · intro h
      simp [List.intercalate] at h
      exact Or.inl ⟨p, by simp, h⟩
    · intro h
      have hstep : List.intercalate sep (p :: q :: rest2) =
          p ++ sep ++ List.intercalate sep (q :: rest2) := by
        simp [List.intercalate, List.intersperse]
      rw [hstep] at h
      rcases List.mem_append.mp h with h | h
      · rcases List.mem_append.mp h with h | h
        · exact Or.inl ⟨p, by simp, h⟩
        · exact Or.inr ⟨h, by simp⟩
      · rcases ih h with ⟨r, hr, hcr⟩ | ⟨hsep, _⟩
        · exact Or.inl ⟨r, by simp [hr], hcr⟩
        · exact Or.inr ⟨hsep, by simp⟩

theorem collapseWsStrip_within (x : List Char) :
    CharsWithin insertedOk (collapseWsStrip x) x := by
  intro c hc
  unfold collapseWsStrip at hc
  have h1 := pyStrip_subset _ c hc
  exact subScan_chars mWsRun_within x c h1

theorem paraClean_subset (cs : List Char) :
    ∀ p ∈ paraClean cs, ∀ c ∈ p, c ∈ cs := by
  intro p hp c hc
  unfold paraClean at hp
  rcases List.mem_filter.mp hp with ⟨hp, _⟩
  rcases List.mem_map.mp hp with ⟨part, hpart, rfl⟩
  exact splitOnNN_mem cs part hpart c (pyStrip_subset _ c hc)

theorem paraClean_len (cs : List Char) :
    (paraClean cs).length ≤ (splitOnNN cs).length := by
  unfold paraClean
  calc (((splitOnNN cs).map pyStrip).filter _).length
      ≤ ((splitOnNN cs).map pyStrip).length := List.length_filter_le _ _
    _ = (splitOnNN cs).length := List.length_map _ _

theorem mergeSoftGo_chars (p : List Char) (rest : List (List Char)) :
    (∀ out ∈ mergeSoftGo p rest, ∀ c ∈ out,
      (c ∈ p ∨ ∃ q ∈ rest, c ∈ q) ∨ c ∈ insertedOk) ∧
    (mergeSoftGo p rest).length ≤ 1 + rest.length := by
  induction rest generalizing p with
  | nil =>
    refine ⟨?_, by simp [mergeSoftGo]⟩
    intro out hout c hc
    simp only [mergeSoftGo, List.mem_singleton] at hout
    subst hout
    rcases collapseWsStrip_within p c hc with h | h
    · exact Or.inl (Or.inl h)
    · exact Or.inr h
  | cons q rest ih =>
    rw [mergeSoftGo]
    split
    · refine ⟨?_, le_trans (ih _).2 (by simp)⟩
      intro out hout c hc
      rcases (ih (p ++ ' ' :: pyStrip q)).1 out hout c hc with (h | ⟨r, hr, hcr⟩) | h
      · rcases List.mem_append.mp h with h | h
        · exact Or.inl (Or.inl h)
        · rcases List.mem_cons.mp h with rfl | h
          · exact Or.inr (by decide)
          · exact Or.inl (Or.inr ⟨q, by simp, pyStrip_subset _ c h⟩)
      · exact Or.inl (Or.inr ⟨r, by simp [hr], hcr⟩)
      · exact Or.inr h
    · constructor
      · intro out hout c hc
        rcases List.mem_cons.mp hout with rfl | hout
        · rcases collapseWsStrip_within p c hc with h | h
          · exact Or.inl (Or.inl h)
          · exact Or.inr h
        · rcases (ih q).1 out hout c hc with (h | ⟨r, hr, hcr⟩) | h
          · exact Or.inl (Or.inr ⟨q, by simp, h⟩)
          · exact Or.inl (Or.inr ⟨r, by simp [hr], hcr⟩)
          · exact Or.inr h
      · simp only [List.length_cons]
        have := (ih q).2
        omega

theorem mergeSoftLoop_chars (l : List (List Char)) :
    (∀ out ∈ mergeSoftLoop l, ∀ c ∈ out,
      (∃ q ∈ l, c ∈ q) ∨ c ∈ insertedOk) ∧
    (mergeSoftLoop l).length ≤ l.length := by
  rcases l with _ | ⟨p, rest⟩
  · exact ⟨by simp [mergeSoftLoop], by simp [mergeSoftLoop]⟩
  · constructor
    · intro out hout c hc
      rcases (mergeSoftGo_chars p rest).1 out hout c hc with (h | ⟨r, hr, hcr⟩) | h
      · exact Or.inl ⟨p, by simp, h⟩
      · exact Or.inl ⟨r, by simp [hr], hcr⟩
      · exact Or.inr h
    · show (mergeSoftGo p rest).length ≤ (p :: rest).length
      have := (mergeSoftGo_chars p rest).2
      simp only [List.length_cons]
      omega

theorem merge_soft_chars (s : String) :
    CharsWithin insertedOk (merge_soft_split_paragraphs_text s).data s.data := by
  intro c hc
  unfold merge_soft_split_paragraphs_text at hc
  rcases mem_intercalate_sep _ _ c hc with ⟨part, hp, hcp⟩ | ⟨hsep, hlen⟩
  · rcases (mergeSoftLoop_chars (paraClean s.data)).1 part hp c hcp with ⟨q, hq, hcq⟩ | h
    · exact Or.inl (paraClean_subset s.data q hq c hcq)
    · exact Or.inr h
  · simp only [List.mem_cons, List.not_mem_nil, or_false] at hsep
    have hn : c = '\n' := by rcases hsep with h | h <;> exact h
    subst hn
    have h2 : 2 ≤ (paraClean s.data).length :=
      le_trans hlen (mergeSoftLoop_chars (paraClean s.data)).2
    exact Or.inl (splitOnNN_two_newline s.data (le_trans h2 (paraClean_len s.data)))

theorem mergeHyphGo_cons_ne (p q : List Char) (rest : List (List Char))
    (hq : ¬ pyStrip q = ['-']) :
    mergeHyphGo p (q :: rest) = collapseWsStrip p :: mergeHyphGo q rest := by
  rcases rest with _ | ⟨h, r⟩
  · rw [mergeHyphGo.eq_3, if_neg hq]
  · rw [mergeHyphGo.eq_2, if_neg hq]

theorem mergeHyphGo_chars (p : List Char) (rest : List (List Char)) :
    (∀ out ∈ mergeHyphGo p rest, ∀ c ∈ out,
      (c ∈ p ∨ ∃ q ∈ rest, c ∈ q) ∨ c ∈ insertedOk) ∧
    (mergeHyphGo p rest).length ≤ 1 + rest.length := by
  induction p, rest using mergeHyphGo.induct with
  | case1 p =>
    refine ⟨?_, by simp [mergeHyphGo.eq_1]⟩
    intro out hout c hc
    simp only [mergeHyphGo.eq_1, List.mem_singleton] at hout
    subst hout
    rcases collapseWsStrip_within p c hc with h | h
    · exact Or.inl (Or.inl h)
    · exact Or.inr h
  | case2 p q hq next rest2 ih =>
    have hgo : mergeHyphGo p (q :: next :: rest2) =
        mergeHyphGo (p ++ ' ' :: '-' :: ' ' :: pyStrip next) rest2 := by
      rw [mergeHyphGo.eq_2, if_pos hq]
    have hdashq : ('-' : Char) ∈ q := by
      have : ('-' : Char) ∈ pyStrip q := by rw [hq]; simp
      exact pyStrip_subset _ _ this
    rw [hgo]
    refine ⟨?_, le_trans ih.2 (by simp; omega)⟩
    intro out hout c hc
    rcases ih.1 out hout c hc with (h | ⟨r, hr, hcr⟩) | h
    · rcases List.mem_append.mp h with h | h
      · exact Or.inl (Or.inl h)
      · rcases List.mem_cons.mp h with rfl | h
        · exact Or.inr (by decide)
        · rcases List.mem_cons.mp h with rfl | h
          · exact Or.inl (Or.inr ⟨q, by simp, hdashq⟩)
          · rcases List.mem_cons.mp h with rfl | h
            · exact Or.inr (by decide)
            · exact Or.inl (Or.inr ⟨next, by simp, pyStrip_subset _ c h⟩)
    · exact Or.inl (Or.inr ⟨r, by simp [hr], hcr⟩)
    · exact Or.inr h
  | case3 p q hq =>
    have hgo : mergeHyphGo p [q] = [collapseWsStrip (p ++ [' ', '-'])] := by
      rw [mergeHyphGo.eq_3, if_pos hq]
    have hdashq : ('-' : Char) ∈ q := by
      have : ('-' : Char) ∈ pyStrip q := by rw [hq]; simp
      exact pyStrip_subset _ _ this
    rw [hgo]
    refine ⟨?_, by simp⟩
    intro out hout c hc
    simp only [List.mem_singleton] at hout
    subst hout
    rcases collapseWsStrip_within _ c hc with h | h
    · rcases List.mem_append.mp h with h | h
      · exact Or.inl (Or.inl h)
      · rcases List.mem_cons.mp h with rfl | h
        · exact Or.inr (by decide)
        · simp only [List.mem_singleton] at h
          subst h
          exact Or.inl (Or.inr ⟨q, by simp, hdashq⟩)
    · exact Or.inr h
  | case4 p q rest hq ih =>
    rw [mergeHyphGo_cons_ne p q rest hq]
    constructor
    · intro out hout c hc
      rcases List.mem_cons.mp hout with rfl | hout
      · rcases collapseWsStrip_within p c hc with h | h
        · exact Or.inl (Or.inl h)
        · exact Or.inr h
      · rcases ih.1 out hout c hc with (h | ⟨r, hr, hcr⟩) | h
        · exact Or.inl (Or.inr ⟨q, by simp, h⟩)
        · exact Or.inl (Or.inr ⟨r, by simp [hr], hcr⟩)
        · exact Or.inr h
    · simp only [List.length_cons]
      have := ih.2
      omega

theorem mergeHyphLoop_chars (l : List (List Char)) :
    (∀ out ∈ mergeHyphLoop l, ∀ c ∈ out,
      (∃ q ∈ l, c ∈ q) ∨ c ∈ insertedOk) ∧
    (mergeHyphLoop l).length ≤ l.length := by
  rcases l with _ | ⟨p, rest⟩
  · exact ⟨by simp [mergeHyphLoop], by simp [mergeHyphLoop]⟩
  · constructor
    · intro out hout c hc
      rcases (mergeHyphGo_chars p rest).1 out hout c hc with (h | ⟨r, hr, hcr⟩) | h
      · exact Or.inl ⟨p, by simp, h⟩
      · exact Or.inl ⟨r, by simp [hr], hcr⟩
      · exact Or.inr h
    · show (mergeHyphGo p rest).length ≤ (p :: rest).length
      have := (mergeHyphGo_chars p rest).2
      simp only [List.length_cons]
      omega

theorem merge_hyph_chars (s : String) :
    CharsWithin insertedOk (merge_paragraphs_split_by_hyphen s).data s.data := by
  intro c hc
  unfold merge_paragraphs_split_by_hyphen at hc
  rcases mem_intercalate_sep _ _ c hc with ⟨part, hp, hcp⟩ | ⟨hsep, hlen⟩
  · rcases (mergeHyphLoop_chars (paraClean s.data)).1 part hp c hcp with ⟨q, hq, hcq⟩ | h
    · exact Or.inl (paraClean_subset s.data q hq c hcq)
    · exact Or.inr h
  · simp only [List.mem_cons, List.not_mem_nil, or_false] at hsep
    have hn : c = '\n' := by rcases hsep with h | h <;> exact h
    subst hn
    have h2 : 2 ≤ (paraClean s.data).length :=
      le_trans hlen (mergeHyphLoop_chars (paraClean s.data)).2
    exact Or.inl (splitOnNN_two_newline s.data (le_trans h2 (paraClean_len s.data)))

end OcrClean

namespace OcrClean

/-! Chaining the enhanced-stage character bounds. -/

theorem CharsWithin.scanStep {A : List Char} {m : RMatcher} (hm : MatcherWithin A m)
    {x y : List Char} (h : CharsWithin A x y) : CharsWithin A (subScan m x) y :=
  (subScan_chars hm x).trans h

theorem CharsWithin.pfjStep {A : List Char} {x y : List Char}
    (h : CharsWithin A x y) : CharsWithin A (paraFilterJoin x) y :=
  CharsWithin.trans (fun c hc => Or.inl (paraFilterJoin_subset x c hc)) h

theorem CharsWithin.pyStripStep {A : List Char} {x y : List Char}
    (h : CharsWithin A x y) : CharsWithin A (pyStrip x) y :=
  CharsWithin.trans (fun c hc => Or.inl (pyStrip_subset x c hc)) h

theorem enhancedList_chars (z : List Char → Bool) (cs : List Char) :
    CharsWithin insertedOk (enhancedList z cs)
      (normalizeUnicodeList (normalizeEmDashList cs)) := by
  rw [enhancedList]
  split
  case isTrue h =>
    intro c hc
    rw [List.isEmpty_iff] at h
    subst h
    simp at hc
  case isFalse h =>
    refine CharsWithin.pyStripStep ?_
    refine CharsWithin.scanStep mSentSpace_within ?_
    refine CharsWithin.scanStep mNl3_within ?_
    refine CharsWithin.scanStep mCurlyApos_within ?_
    refine CharsWithin.scanStep mQuoteClass_within ?_
    refine CharsWithin.scanStep mColonNum_within ?_
    refine CharsWithin.scanStep mDotSpNum_within ?_
    refine CharsWithin.scanStep mCommaNum_within ?_
    refine CharsWithin.scanStep mQuoteNum_within ?_
    refine CharsWithin.scanStep mDotNumCap_within ?_
    refine CharsWithin.scanStep mDotStar_within ?_
    refine CharsWithin.scanStep mDotAlnum_within ?_
    refine CharsWithin.scanStep mPgFoot_within ?_
    refine CharsWithin.scanStep mTrailBlock_within ?_
    refine CharsWithin.scanStep mNumWordLine_within ?_
    refine CharsWithin.scanStep mDigitAfterLower_within ?_
    refine CharsWithin.scanStep mPageLine_within ?_
    refine CharsWithin.scanStep mNumLetterLine_within ?_
    refine CharsWithin.scanStep mTime_within ?_
    refine CharsWithin.pfjStep ?_
    refine CharsWithin.scanStep mBracketNum_within ?_
    refine CharsWithin.scanStep mAsteriskLine_within ?_
    refine CharsWithin.scanStep mRomanLine_within ?_
    refine CharsWithin.scanStep mSpacedHyphen_within ?_
    refine CharsWithin.scanStep (mFixHyph_within z) ?_
    refine CharsWithin.scanStep (mFixHyph_within z) ?_
    refine CharsWithin.scanStep (mFixHyph_within z) ?_
    exact CharsWithin.refl insertedOk (normalizeUnicodeList (normalizeEmDashList cs))

/-! Character provenance through `merge_broken_words`. -/

theorem pySplitWsGo_subset :
    ∀ (cs acc : List Char), ∀ t ∈ pySplitWsGo acc cs, ∀ c ∈ t, c ∈ acc ∨ c ∈ cs := by
  intro cs
  induction cs with
  | nil =>
    intro acc t ht c hc
    rw [pySplitWsGo] at ht
    split at ht
    · simp at ht
    · simp only [List.mem_singleton] at ht
      subst ht
      exact Or.inl (List.mem_reverse.mp hc)
  | cons c0 t0 ih =>
    intro acc t ht c hc
    rw [pySplitWsGo] at ht
    split at ht
    · split at ht
      · rcases ih [] t ht c hc with h | h
        · simp at h
        · exact Or.inr (by simp [h])
      · rcases List.mem_cons.mp ht with rfl | ht
        · exact Or.inl (List.mem_reverse.mp hc)
        · rcases ih [] t ht c hc with h | h
          · simp at h
          · exact Or.inr (by simp [h])
    · rcases ih (c0 :: acc) t ht c hc with h | h
      · rcases List.mem_cons.mp h with rfl | h
        · exact Or.inr (by simp)
        · exact Or.inl h
      · exact Or.inr (by simp [h])

theorem pySplitWs_subset (cs : List Char) :
    ∀ t ∈ pySplitWs cs, ∀ c ∈ t, c ∈ cs := by
  intro t ht c hc
  rcases pySplitWsGo_subset cs [] t ht c hc with h | h
  · simp at h
  · exact h

theorem hyphTail_sub (cur letters : List Char) (g0 : Nat)
    (h : hyphTail cur = some (letters, g0)) : ∀ c ∈ letters, c ∈ cur := by
  intro c hc
  unfold hyphTail at h
  dsimp only at h
  split at h
  case h_2 => simp at h
  case h_1 r2 heq =>
    split at h
    case isTrue => simp at h
    case isFalse =>
      simp only [Option.some.injEq, Prod.mk.injEq] at h
      obtain ⟨hl, _⟩ := h
      rw [← hl] at hc
      have h1 : c ∈ r2.takeWhile isAsciiAlpha := List.mem_reverse.mp hc
      have h2 : c ∈ r2 := (List.takeWhile_sublist _).subset h1
      have h3 : c ∈ cur.reverse :=
        List.mem_of_mem_drop (l := cur.reverse) (by rw [heq]; simp [h2])
      exact List.mem_reverse.mp h3

theorem innerMBF_chars (fname : String) :
    ∀ (fuel : Nat) (cur : List Char) (i : Nat) (rest : List (List Char)),
      (∀ c ∈ (innerMBF fname fuel cur i rest).1,
        c ∈ cur ∨ (∃ q ∈ rest, c ∈ q) ∨ c ∈ insertedOk) ∧
      (∀ q ∈ (innerMBF fname fuel cur i rest).2.2.1, q ∈ rest) := by
  intro fuel
  induction fuel with
  | zero =>
    intro cur i rest
    exact ⟨fun c hc => Or.inl (by simpa [innerMBF] using hc),
           fun q hq => by simpa [innerMBF] using hq⟩
  | succ fuel ih =>
    intro cur i rest
    constructor
    · intro c hc
      rw [innerMBF] at hc
      split at hc
      · exact Or.inl hc
      · dsimp only at hc
        split at hc
        · exact Or.inl hc
        · split at hc
          · exact Or.inl hc
          · split at hc
            · exact Or.inl hc
            · rename_i o1 letters g0 hht s2 next0 rest2 hdrop hne s3 t0 trest hsplit
              dsimp only at hc
              have hnext0 : next0 ∈ rest :=
                List.mem_of_mem_drop (l := rest) (by rw [hdrop]; simp)
              have ht0chars : ∀ d ∈ t0, d ∈ next0 := by
                intro d hd
                have ht0 : t0 ∈ pySplitWs (pyStrip next0) := by
                  rw [hsplit]; simp
                exact pyStrip_subset _ d (pySplitWs_subset _ t0 ht0 d hd)
              rcases (ih _ _ _).1 c hc with h | ⟨q, hq, hcq⟩ | h
              · rcases List.mem_append.mp h with h | h
                · rcases List.mem_append.mp h with h | h
                  · rcases List.mem_append.mp h with h | h
                    · exact Or.inl (List.take_subset _ _ h)
                    · exact Or.inl (hyphTail_sub cur letters g0 hht c h)
                  · exact Or.inr (Or.inl ⟨next0, hnext0, ht0chars c h⟩)
                · rcases List.mem_cons.mp h with rfl | h
                  · exact Or.inr (Or.inr (by decide))
                  · rcases mem_intercalate_sep _ _ c h with ⟨part, hpart, hcp⟩ | ⟨hsep, _⟩
                    · have hp : part ∈ pySplitWs (pyStrip next0) := by
                        rw [hsplit]; simp [hpart]
                      exact Or.inr (Or.inl ⟨next0, hnext0,
                        pyStrip_subset _ c (pySplitWs_subset _ part hp c hcp)⟩)
                    · simp only [List.mem_singleton] at hsep
                      subst hsep
                      exact Or.inr (Or.inr (by decide))
              · have hq2 : q ∈ rest :=
                  List.mem_of_mem_drop (l := rest) (by rw [hdrop]; simp [hq])
                exact Or.inr (Or.inl ⟨q, hq2, hcq⟩)
              · exact Or.inr (Or.inr h)
    · intro q hq
      rw [innerMBF] at hq
      split at hq
      · exact hq
      · dsimp only at hq
        split at hq
        · exact hq
        · split at hq
          · exact hq
          · split at hq
            · exact hq
            · rename_i o1 letters g0 hht s2 next0 rest2 hdrop hne s3 t0 trest hsplit
              dsimp only at hq
              have hq2 : q ∈ rest2 := (ih _ _ _).2 q hq
              exact List.mem_of_mem_drop (l := rest) (by rw [hdrop]; simp [hq2])

theorem mergeBrokenGo_chars (fname : String) :
    ∀ (fuel i : Nat) (ps : List (List Char)),
      ∀ out ∈ (mergeBrokenGo fname fuel i ps).1, ∀ c ∈ out,
        (∃ p ∈ ps, c ∈ p) ∨ c ∈ insertedOk := by
  intro fuel
  induction fuel with
  | zero =>
    intro i ps out hout c hc
    exact Or.inl ⟨out, by simpa [mergeBrokenGo] using hout, hc⟩
  | succ fuel ih =>
    intro i ps out hout c hc
    rcases ps with _ | ⟨p, rest⟩
    · simp [mergeBrokenGo] at hout
    · rw [mergeBrokenGo] at hout
      dsimp only at hout
      rcases List.mem_cons.mp hout with rfl | hout
      · rcases (innerMBF_chars fname _ _ _ _).1 c hc with h | ⟨q, hq, hcq⟩ | h
        · exact Or.inl ⟨p, by simp, pyRstrip_subset _ c h⟩
        · exact Or.inl ⟨q, by simp [hq], hcq⟩
        · exact Or.inr h
      · rcases ih _ _ out hout c hc with ⟨q, hq, hcq⟩ | h
        · have hq2 : q ∈ rest := (innerMBF_chars fname _ _ _ _).2 q hq
          exact Or.inl ⟨q, by simp [hq2], hcq⟩
        · exact Or.inr h

end OcrClean

namespace OcrClean

theorem merge_broken_words_chars (fname : String) (ps : List String) :
    ∀ out ∈ (merge_broken_words fname ps).1, ∀ c ∈ out.data,
      (∃ p ∈ ps, c ∈ p.data) ∨ c ∈ insertedOk := by
  intro out hout c hc
  unfold merge_broken_words at hout
  dsimp only at hout
  rcases List.mem_map.mp hout with ⟨ol, hol, rfl⟩
  rcases mergeBrokenGo_chars fname _ _ _ ol hol c hc with ⟨p, hp, hcp⟩ | h
  · rcases List.mem_map.mp hp with ⟨pstr, hps, rfl⟩
    exact Or.inl ⟨pstr, hps, hcp⟩
  · exact Or.inr h

/-- C5, amended behaviour: for every input text, the English cleaning
pipeline never inserts a character absent from the normalized input
(`normalize_unicode_and_spaces` after `normalize_em_dashes`), except the
em-dash substitution character, merge-joining single spaces, the literal
period used to collapse numeric-suffix noise, the colon introduced by the
clock-time rewrite, and the straight apostrophe introduced by curly-quote
standardization — the allowed set `insertedOk`. -/
theorem pipeline_inserts_only_allowed (z : List Char → Bool) (fname : String)
    (s : String) :
    CharsWithin insertedOk (parasChars (englishCleanParas z fname s).1)
      (normalize_unicode_and_spaces (normalize_em_dashes s)).data := by
  intro c hc
  have hparas : ∀ pl ∈ (splitOnNN
        (mergeStageOfProcess (enhanced_ocr_preclean z s)).1.data).filter
        (fun p => !(pyStrip p).isEmpty), ∀ d ∈ pl,
        d ∈ (normalize_unicode_and_spaces (normalize_em_dashes s)).data ∨
          d ∈ insertedOk := by
    intro pl hpl d hd
    rcases List.mem_filter.mp hpl with ⟨hpl, _⟩
    have hct3 := splitOnNN_mem _ pl hpl d hd
    rcases merge_hyph_chars (merge_soft_split_paragraphs_text
        (enhanced_ocr_preclean z s)) d hct3 with h | h
    · rcases merge_soft_chars (enhanced_ocr_preclean z s) d h with h | h
      · exact enhancedList_chars z s.data d h
      · exact Or.inr h
    · exact Or.inr h
  have hc2 : c ∈ ((merge_broken_words fname
      (((splitOnNN (mergeStageOfProcess (enhanced_ocr_preclean z s)).1.data).filter
        fun p => !(pyStrip p).isEmpty).map fun l => ⟨l⟩)).1.map String.data).flatten := hc
  rcases List.mem_flatten.mp hc2 with ⟨l, hl, hcl⟩
  rcases List.mem_map.mp hl with ⟨out, hout, rfl⟩
  rcases merge_broken_words_chars fname _ out hout c hcl with ⟨p, hp, hcp⟩ | h
  · rcases List.mem_map.mp hp with ⟨pl, hpl, rfl⟩
    exact hparas pl hpl c hcp
  · exact Or.inr h

end OcrClean

namespace OcrClean

/-! ## Idempotence machinery: identity scans and whitespace structure -/

/-- The look-behind character after consuming prefix `a`, starting from `p`. -/
def PrevOf (p : Option Char) (a : List Char) : Option Char :=
  match a.getLast? with
  | some c => some c
  | none => p

theorem PrevOf_append (p : Option Char) (x a : List Char) :
    PrevOf p (x ++ a) = PrevOf (PrevOf p x) a := by
  rcases List.eq_nil_or_concat a with rfl | ⟨a2, c, rfl⟩
  · simp [PrevOf]
  · unfold PrevOf
    simp only [List.concat_eq_append, ← List.append_assoc]
    rw [List.getLast?_concat, List.getLast?_concat]

theorem PrevOf_cons (p : Option Char) (c : Char) (a : List Char) :
    PrevOf p (c :: a) = PrevOf (some c) a := by
  have h := PrevOf_append p [c] a
  simpa [PrevOf] using h

theorem newPrevAfter_eq (p : Option Char) (cs : List Char) (k : Nat) :
    newPrevAfter p cs k = PrevOf p (cs.take k) := rfl

theorem subScanF_take_id (m : RMatcher) :
    ∀ (fuel : Nat) (p : Option Char) (cs : List Char),
      (∀ a b repl k, a ++ b = cs →
        m (PrevOf p a) b = some (repl, k) → repl = List.take k b) →
      subScanF m fuel p cs = cs := by
  intro fuel
  induction fuel with
  | zero => intro p cs _; rfl
  | succ fuel ih =>
    intro p cs h
    rcases cs with _ | ⟨c, rest⟩
    · rfl
    · rw [subScanF]
      rcases hm : m p (c :: rest) with _ | ⟨repl, k⟩
      · have hrec : subScanF m fuel (some c) rest = rest := by
          apply ih
          intro a b repl k hab hmm
          refine h (c :: a) b repl k (by rw [← hab, List.cons_append]) ?_
          rw [PrevOf_cons]
          exact hmm
        dsimp only
        rw [hrec]
      · have hrepl : repl = List.take k (c :: rest) := by
          refine h [] (c :: rest) repl k rfl ?_
          simpa [PrevOf] using hm
        have hrec : subScanF m fuel (newPrevAfter p (c :: rest) k)
            ((c :: rest).drop k) = (c :: rest).drop k := by
          apply ih
          intro a b repl2 k2 hab hmm
          refine h ((c :: rest).take k ++ a) b repl2 k2 ?_ ?_
          · rw [List.append_assoc, hab, List.take_append_drop]
          · rw [PrevOf_append, ← newPrevAfter_eq]
            exact hmm
        dsimp only
        rw [hrec, hrepl, List.take_append_drop]

theorem subScan_take_id (m : RMatcher) (cs : List Char)
    (h : ∀ a b repl k, a ++ b = cs →
      m (PrevOf none a) b = some (repl, k) → repl = List.take k b) :
    subScan m cs = cs :=
  subScanF_take_id m (cs.length + 1) none cs h

/-! Small facts about `takeWhile`, `dropWhile` and the strip helpers. -/

theorem dropWhile_head_false (P : Char → Bool) :
    ∀ (l : List Char) (d : Char), (l.dropWhile P).head? = some d → P d = false := by
  intro l
  induction l with
  | nil => intro d h; simp at h
  | cons c t ih =>
    intro d h
    rw [List.dropWhile_cons] at h
    split at h
    · exact ih d h
    · simp only [List.head?_cons, Option.some.injEq] at h
      subst h
      simp_all

theorem dropWhile_eq_self_of_head (P : Char → Bool) (l : List Char)
    (h : ∀ d, l.head? = some d → P d = false) : l.dropWhile P = l := by
  rcases l with _ | ⟨c, t⟩
  · rfl
  · rw [List.dropWhile_cons, if_neg]
    simp [h c rfl]

theorem takeWhile_length_drop (P : Char → Bool) :
    ∀ (l : List Char), l.drop (l.takeWhile P).length = l.dropWhile P := by
  intro l
  induction l with
  | nil => rfl
  | cons c t ih =>
    rw [List.takeWhile_cons, List.dropWhile_cons]
    split
    · simpa using ih
    · simp

theorem getLast?_append_right (a b : List Char) (h : b ≠ []) :
    (a ++ b).getLast? = b.getLast? := by
  rcases List.eq_nil_or_concat b with rfl | ⟨b2, c, rfl⟩
  · exact absurd rfl h
  · simp only [List.concat_eq_append, ← List.append_assoc]
    rw [List.getLast?_concat, List.getLast?_concat]

theorem getLast?_dropWhile (P : Char → Bool) (l : List Char)
    (h : l.dropWhile P ≠ []) : (l.dropWhile P).getLast? = l.getLast? := by
  conv_rhs => rw [← List.takeWhile_append_dropWhile (p := P) (l := l)]
  rw [getLast?_append_right _ _ h]

theorem pyRstrip_eq_self_of_last (l : List Char)
    (h : ∀ d, l.getLast? = some d → isPySpace d = false) : pyRstrip l = l := by
  unfold pyRstrip
  rw [dropWhile_eq_self_of_head, List.reverse_reverse]
  intro d hd
  rw [List.head?_reverse] at hd
  exact h d hd

theorem pyStrip_eq_rstrip_dropWhile (l : List Char) :
    pyStrip l = pyRstrip (l.dropWhile isPySpace) := rfl

theorem pyRstrip_last_false (l : List Char) (d : Char)
    (h : (pyRstrip l).getLast? = some d) : isPySpace d = false := by
  unfold pyRstrip at h
  rw [List.getLast?_reverse] at h
  exact dropWhile_head_false isPySpace _ d h

theorem pyStrip_head_false (l : List Char) (d : Char)
    (h : (pyStrip l).head? = some d) : isPySpace d = false := by
  rw [pyStrip_eq_rstrip_dropWhile] at h
  unfold pyRstrip at h
  rcases hh : ((l.dropWhile isPySpace).reverse.dropWhile isPySpace) with _ | ⟨c, t⟩
  · rw [hh] at h; simp at h
  · have hne : (l.dropWhile isPySpace).reverse.dropWhile isPySpace ≠ [] := by
      rw [hh]; simp
    have h2 : ((l.dropWhile isPySpace).reverse.dropWhile isPySpace).reverse.head? =
        ((l.dropWhile isPySpace).reverse.dropWhile isPySpace).getLast? := by
      rw [List.head?_reverse]
    rw [h2] at h
    rw [getLast?_dropWhile _ _ hne, List.getLast?_reverse] at h
    exact dropWhile_head_false isPySpace l d h

theorem pyStrip_last_false (l : List Char) (d : Char)
    (h : (pyStrip l).getLast? = some d) : isPySpace d = false := by
  rw [pyStrip_eq_rstrip_dropWhile] at h
  exact pyRstrip_last_false _ d h

theorem pyStrip_eq_self (l : List Char)
    (hh : ∀ d, l.head? = some d → isPySpace d = false)
    (hl : ∀ d, l.getLast? = some d → isPySpace d = false) : pyStrip l = l := by
  rw [pyStrip_eq_rstrip_dropWhile, dropWhile_eq_self_of_head _ _ hh,
    pyRstrip_eq_self_of_last _ hl]

theorem pyStrip_idem (l : List Char) : pyStrip (pyStrip l) = pyStrip l :=
  pyStrip_eq_self _ (pyStrip_head_false l) (pyStrip_last_false l)

theorem pyStrip_infix (l : List Char) : ∃ a b, l = a ++ pyStrip l ++ b := by
  refine ⟨l.takeWhile isPySpace,
    ((l.dropWhile isPySpace).reverse.takeWhile isPySpace).reverse, ?_⟩
  have h1 : pyStrip l ++ ((l.dropWhile isPySpace).reverse.takeWhile isPySpace).reverse
      = l.dropWhile isPySpace := by
    unfold pyStrip
    rw [← List.reverse_append, List.takeWhile_append_dropWhile, List.reverse_reverse]
  rw [List.append_assoc, h1, List.takeWhile_append_dropWhile]

end OcrClean

namespace OcrClean

/-! Generic structure of the whitespace-run collapsing scans (`mHwsRun`,
`mWsRun`): a run of `P`-characters is replaced by one space. -/

/-- No two adjacent characters of class `P`. -/
def NoAdj (P : Char → Bool) : List Char → Prop
  | c1 :: c2 :: t => ¬(P c1 = true ∧ P c2 = true) ∧ NoAdj P (c2 :: t)
  | _ => True

theorem noAdj_cons (P : Char → Bool) (c : Char) (l : List Char)
    (hl : NoAdj P l) (hc : ∀ d, l.head? = some d → ¬(P c = true ∧ P d = true)) :
    NoAdj P (c :: l) := by
  rcases l with _ | ⟨d, t⟩
  · trivial
  · exact ⟨hc d rfl, hl⟩

theorem NoAdj_tl (P : Char → Bool) (c : Char) (l : List Char)
    (h : NoAdj P (c :: l)) : NoAdj P l := by
  rcases l with _ | ⟨d, t⟩
  · trivial
  · exact h.2

theorem NoAdj_suf (P : Char → Bool) :
    ∀ (a b : List Char), NoAdj P (a ++ b) → NoAdj P b := by
  intro a
  induction a with
  | nil => intro b h; exact h
  | cons c t ih => intro b h; exact ih b (NoAdj_tl P c (t ++ b) h)

theorem NoAdj_pre (P : Char → Bool) :
    ∀ (a b : List Char), NoAdj P (a ++ b) → NoAdj P a := by
  intro a
  induction a with
  | nil => intro b _; trivial
  | cons c t ih =>
    intro b h
    rcases t with _ | ⟨d, t2⟩
    · trivial
    · exact ⟨h.1, ih b h.2⟩

theorem NoAdj_inf (P : Char → Bool) (a x b : List Char)
    (h : NoAdj P (a ++ x ++ b)) : NoAdj P x :=
  NoAdj_pre P x b (NoAdj_suf P a (x ++ b) (by rwa [← List.append_assoc]))

/-- The run-collapse matcher shape shared by `mHwsRun` and `mWsRun`. -/
def RunCollapse (P : Char → Bool) (m : RMatcher) : Prop :=
  ∀ p cs, m p cs =
    if (cs.takeWhile P).isEmpty then none
    else some ([' '], (cs.takeWhile P).length)

theorem mHwsRun_runCollapse : RunCollapse isHws mHwsRun := fun _ _ => rfl

theorem mWsRun_runCollapse : RunCollapse isPySpace mWsRun := fun _ _ => rfl

theorem mem_of_getLast?_eq (l : List Char) (d : Char) (h : l.getLast? = some d) :
    d ∈ l := by
  rcases List.eq_nil_or_concat l with rfl | ⟨l2, c, rfl⟩
  · simp at h
  · simp only [List.concat_eq_append] at h ⊢
    rw [List.getLast?_concat] at h
    simp only [Option.some.injEq] at h
    simp [h]

theorem runScan_space_chars {P : Char → Bool} {m : RMatcher}
    (hm : RunCollapse P m) :
    ∀ (fuel : Nat) (p : Option Char) (cs : List Char), cs.length < fuel →
      ∀ c ∈ subScanF m fuel p cs, P c = true → c = ' ' := by
  intro fuel
  induction fuel with
  | zero => intro p cs h; omega
  | succ fuel ih =>
    intro p cs hlen c hc hP
    rcases cs with _ | ⟨c0, rest⟩
    · simp [subScanF] at hc
    · rw [subScanF, hm] at hc
      by_cases h0 : P c0 = true
      · rw [if_neg (by simp [List.takeWhile_cons, h0])] at hc
        dsimp only at hc
        rcases List.mem_append.mp hc with hc | hc
        · simpa using hc
        · refine ih _ _ ?_ c hc hP
          have hk : 1 ≤ ((c0 :: rest).takeWhile P).length := by
            simp [List.takeWhile_cons, h0]
          rw [List.length_drop]
          simp only [List.length_cons] at hlen ⊢
          omega
      · rw [if_pos (by simp [List.takeWhile_cons, h0])] at hc
        dsimp only at hc
        rcases List.mem_cons.mp hc with rfl | hc
        · exact absurd hP (by simp [h0])
        · refine ih _ _ ?_ c hc hP
          simp only [List.length_cons] at hlen
          omega

theorem runScan_head {P : Char → Bool} {m : RMatcher} (hm : RunCollapse P m)
    (fuel : Nat) (p : Option Char) (cs : List Char) (hf : 0 < fuel) :
    (subScanF m fuel p cs).head? =
      cs.head?.map (fun c => if P c then ' ' else c) := by
  rcases fuel with _ | fuel
  · omega
  · rcases cs with _ | ⟨c0, rest⟩
    · rfl
    · rw [subScanF, hm]
      by_cases h0 : P c0 = true
      · rw [if_neg (by simp [List.takeWhile_cons, h0])]
        simp [h0]
      · rw [if_pos (by simp [List.takeWhile_cons, h0])]
        simp [h0]

theorem runScan_noAdj {P : Char → Bool} {m : RMatcher} (hm : RunCollapse P m) :
    ∀ (fuel : Nat) (p : Option Char) (cs : List Char), cs.length < fuel →
      NoAdj P (subScanF m fuel p cs) := by
  intro fuel
  induction fuel with
  | zero => intro p cs h; omega
  | succ fuel ih =>
    intro p cs hlen
    rcases cs with _ | ⟨c0, rest⟩
    · simp [subScanF]; trivial
    · rw [subScanF, hm]
      by_cases h0 : P c0 = true
      · rw [if_neg (by simp [List.takeWhile_cons, h0])]
        dsimp only
        show NoAdj P (' ' :: subScanF m fuel
          (newPrevAfter p (c0 :: rest) ((c0 :: rest).takeWhile P).length)
          ((c0 :: rest).drop ((c0 :: rest).takeWhile P).length))
        have hk : 1 ≤ ((c0 :: rest).takeWhile P).length := by
          simp [List.takeWhile_cons, h0]
        have hlen2 : ((c0 :: rest).drop ((c0 :: rest).takeWhile P).length).length < fuel := by
          rw [List.length_drop]
          simp only [List.length_cons] at hlen ⊢
          omega
        refine noAdj_cons P ' ' _ (ih _ _ hlen2) ?_
        intro d hd hPd
        rw [runScan_head hm _ _ _ (by omega)] at hd
        rw [takeWhile_length_drop] at hd
        rcases hdw : ((c0 :: rest).dropWhile P).head? with _ | e
        · rw [hdw] at hd; simp at hd
        · have hd2 : (if P e then ' ' else e) = d := by
            rw [hdw] at hd; simpa using hd
          have hPe := dropWhile_head_false P _ e hdw
          rw [if_neg (by simp [hPe])] at hd2
          subst hd2
          simp [hPe] at hPd
      · rw [if_pos (by simp [List.takeWhile_cons, h0])]
        dsimp only
        have hlen2 : rest.length < fuel := by
          simp only [List.length_cons] at hlen; omega
        refine noAdj_cons P c0 _ (ih _ _ hlen2) ?_
        intro d hd hPd
        exact absurd hPd.1 (by simp [h0])

theorem runScan_nonempty {P : Char → Bool} {m : RMatcher} (hm : RunCollapse P m)
    (fuel : Nat) (p : Option Char) (cs : List Char) (hf : 0 < fuel)
    (hcs : cs ≠ []) : subScanF m fuel p cs ≠ [] := by
  intro hout
  have := runScan_head hm fuel p cs hf
  rw [hout] at this
  rcases cs with _ | ⟨c0, rest⟩
  · exact hcs rfl
  · simp at this

theorem getLast?_cons_of_ne_nil (c : Char) (l : List Char) (h : l ≠ []) :
    (c :: l).getLast? = l.getLast? :=
  getLast?_append_right [c] l h

theorem runScan_id {P : Char → Bool} {m : RMatcher} (hm : RunCollapse P m)
    (cs : List Char) (hsp : ∀ c ∈ cs, P c = true → c = ' ')
    (hadj : NoAdj P cs) : subScan m cs = cs := by
  apply subScan_take_id
  intro a b repl k hab hmm
  rw [hm] at hmm
  split at hmm
  · simp at hmm
  case isFalse hne =>
    simp only [Option.some.injEq, Prod.mk.injEq] at hmm
    obtain ⟨hrepl, hk⟩ := hmm
    rcases hb : b.takeWhile P with _ | ⟨d, rest⟩
    · rw [hb] at hne; simp at hne
    · have hPd : P d = true := List.mem_takeWhile_imp (l := b) (by rw [hb]; simp)
      have hbeq : b = (d :: rest) ++ b.dropWhile P := by
        rw [← hb, List.takeWhile_append_dropWhile]
      rcases rest with _ | ⟨e, rest2⟩
      · have hk1 : k = 1 := by rw [← hk, hb]; rfl
        have hd : d = ' ' := hsp d (by rw [← hab, hbeq]; simp) hPd
        rw [← hrepl, hk1, hbeq]
        simp [hd]
      · exfalso
        have hPe : P e = true := List.mem_takeWhile_imp (l := b) (by rw [hb]; simp)
        have hadjb : NoAdj P b := NoAdj_suf P a b (by rw [hab]; exact hadj)
        rw [hbeq] at hadjb
        simp only [List.cons_append] at hadjb
        exact hadjb.1 ⟨hPd, hPe⟩

theorem runScan_getLast {P : Char → Bool} {m : RMatcher} (hm : RunCollapse P m) :
    ∀ (fuel : Nat) (p : Option Char) (cs : List Char), cs.length < fuel →
      (∀ d, cs.getLast? = some d → P d = false) →
      (subScanF m fuel p cs).getLast? = cs.getLast? := by
  intro fuel
  induction fuel with
  | zero => intro p cs h; omega
  | succ fuel ih =>
    intro p cs hlen hlast
    rcases cs with _ | ⟨c0, rest⟩
    · rfl
    · rw [subScanF, hm]
      by_cases h0 : P c0 = true
      · rw [if_neg (by simp [List.takeWhile_cons, h0])]
        dsimp only
        rw [takeWhile_length_drop]
        rcases hdw : (c0 :: rest).dropWhile P with _ | ⟨e, dw2⟩
        · exfalso
          rcases hgl : (c0 :: rest).getLast? with _ | d
          · simp [List.getLast?_eq_none_iff] at hgl
          · have hPdf := hlast d hgl
            have hd : d ∈ (c0 :: rest).takeWhile P := by
              have hmem : d ∈ (c0 :: rest) := mem_of_getLast?_eq _ d hgl
              have hself : (c0 :: rest) = (c0 :: rest).takeWhile P := by
                conv_lhs => rw [← List.takeWhile_append_dropWhile (p := P)
                  (l := c0 :: rest)]
                rw [hdw, List.append_nil]
              rwa [hself] at hmem
            have := List.mem_takeWhile_imp hd
            simp [hPdf] at this
        · have hdwne : (c0 :: rest).dropWhile P ≠ [] := by rw [hdw]; simp
          have h1 : ((c0 :: rest).takeWhile P).length +
              ((c0 :: rest).dropWhile P).length = (c0 :: rest).length := by
            rw [← List.length_append, List.takeWhile_append_dropWhile]
          have hk1 : 1 ≤ ((c0 :: rest).takeWhile P).length := by
            simp [List.takeWhile_cons, h0]
          have hlen2 : (e :: dw2).length < fuel := by
            rw [hdw] at h1
            simp only [List.length_cons] at h1 hlen ⊢
            omega
          have hne2 : subScanF m fuel
              (newPrevAfter p (c0 :: rest) ((c0 :: rest).takeWhile P).length)
              (e :: dw2) ≠ [] :=
            runScan_nonempty hm fuel _ _ (by omega) (by simp)
          show (' ' :: subScanF m fuel
            (newPrevAfter p (c0 :: rest) ((c0 :: rest).takeWhile P).length)
            (e :: dw2)).getLast? = (c0 :: rest).getLast?
          rw [getLast?_cons_of_ne_nil _ _ hne2]
          have hih := ih (newPrevAfter p (c0 :: rest)
              ((c0 :: rest).takeWhile P).length) (e :: dw2) hlen2
            (fun d hd => hlast d
              (by rw [← getLast?_dropWhile P _ hdwne, hdw]; exact hd))
          rw [hih, ← hdw, getLast?_dropWhile P _ hdwne]
      · rw [if_pos (by simp [List.takeWhile_cons, h0])]
        dsimp only
        rcases rest with _ | ⟨c1, rest2⟩
        · have : subScanF m fuel (some c0) [] = [] := by
            rcases fuel with _ | fuel <;> rfl
          rw [this]
        · have hlen2 : (c1 :: rest2).length < fuel := by
            simp only [List.length_cons] at hlen ⊢; omega
          have hne2 : subScanF m fuel (some c0) (c1 :: rest2) ≠ [] :=
            runScan_nonempty hm fuel (some c0) _ (by omega) (by simp)
          rw [getLast?_cons_of_ne_nil c0 _ hne2,
            getLast?_cons_of_ne_nil c0 (c1 :: rest2) (by simp)]
          refine ih (some c0) _ hlen2 ?_
          intro d hd
          refine hlast d ?_
          rw [getLast?_cons_of_ne_nil c0 (c1 :: rest2) (by simp)]
          exact hd

end OcrClean

namespace OcrClean

/-! Structure of the newline-collapsing scan `mNl3`. -/

/-- No three consecutive newlines. -/
def NoNl3 : List Char → Prop
  | c1 :: c2 :: c3 :: t =>
      ¬(c1 = '\n' ∧ c2 = '\n' ∧ c3 = '\n') ∧ NoNl3 (c2 :: c3 :: t)
  | _ => True

/-- Length of the leading newline run. -/
def leadNl (l : List Char) : Nat := (l.takeWhile (fun c => c = '\n')).length

theorem leadNl_cons (c : Char) (l : List Char) :
    leadNl (c :: l) = if c = '\n' then leadNl l + 1 else 0 := by
  unfold leadNl
  rw [List.takeWhile_cons]
  by_cases h : c = '\n'
  · simp [h]
  · simp [h]

theorem leadNl_eq_zero (l : List Char)
    (h : ∀ d, l.head? = some d → d ≠ '\n') : leadNl l = 0 := by
  rcases l with _ | ⟨c, t⟩
  · rfl
  · rw [leadNl_cons, if_neg (h c rfl)]

theorem NoNl3_tl (c : Char) (l : List Char) (h : NoNl3 (c :: l)) : NoNl3 l := by
  rcases l with _ | ⟨c2, t⟩
  · trivial
  · rcases t with _ | ⟨c3, t2⟩
    · trivial
    · exact h.2

theorem NoNl3_suf : ∀ (a b : List Char), NoNl3 (a ++ b) → NoNl3 b := by
  intro a
  induction a with
  | nil => intro b h; exact h
  | cons c t ih => intro b h; exact ih b (NoNl3_tl c (t ++ b) h)

theorem NoNl3_pre : ∀ (a b : List Char), NoNl3 (a ++ b) → NoNl3 a := by
  intro a
  induction a with
  | nil => intro b _; trivial
  | cons c t ih =>
    intro b h
    rcases t with _ | ⟨c2, t2⟩
    · trivial
    · rcases t2 with _ | ⟨c3, t3⟩
      · trivial
      · exact ⟨h.1, ih b h.2⟩

theorem NoNl3_inf (a x b : List Char) (h : NoNl3 (a ++ x ++ b)) : NoNl3 x :=
  NoNl3_pre x b (NoNl3_suf a (x ++ b) (by rwa [← List.append_assoc]))

theorem nonl3_cons (c : Char) (l : List Char) (hl : NoNl3 l)
    (h : c ≠ '\n' ∨ leadNl l ≤ 1) : NoNl3 (c :: l) := by
  rcases l with _ | ⟨d1, t⟩
  · trivial
  · rcases t with _ | ⟨d2, t2⟩
    · trivial
    · refine ⟨?_, hl⟩
      rintro ⟨rfl, rfl, rfl⟩
      rcases h with h | h
      · exact h rfl
      · rw [leadNl_cons, if_pos rfl, leadNl_cons, if_pos rfl] at h
        omega

theorem nl3_some_shape (p : Option Char) (b : List Char) (repl : List Char) (k : Nat)
    (h : mNl3 p b = some (repl, k)) :
    repl = ['\n', '\n'] ∧ k = leadNl b ∧ 3 ≤ leadNl b := by
  unfold mNl3 at h
  dsimp only at h
  split at h
  · simp at h
  case isFalse hge =>
    simp only [Option.some.injEq, Prod.mk.injEq] at h
    exact ⟨h.1.symm, h.2.symm, by unfold leadNl; omega⟩

theorem leadNl_three (b : List Char) (h3 : 3 ≤ leadNl b) :
    ∃ t, b = '\n' :: '\n' :: '\n' :: t := by
  rcases b with _ | ⟨c1, b1⟩
  · exfalso; simp [leadNl] at h3
  · rw [leadNl_cons] at h3
    by_cases h1 : c1 = '\n'
    case neg => rw [if_neg h1] at h3; omega
    rw [if_pos h1] at h3
    subst h1
    rcases b1 with _ | ⟨c2, b2⟩
    · exfalso; simp [leadNl] at h3
    · rw [leadNl_cons] at h3
      by_cases h2 : c2 = '\n'
      case neg => rw [if_neg h2] at h3; omega
      rw [if_pos h2] at h3
      subst h2
      rcases b2 with _ | ⟨c3, b3⟩
      · exfalso; simp [leadNl] at h3
      · by_cases hc3 : c3 = '\n'
        · subst hc3
          exact ⟨b3, rfl⟩
        · rw [leadNl_cons, if_neg hc3] at h3
          omega

theorem nl3_nomatch (p : Option Char) (b : List Char) (hb : NoNl3 b) :
    mNl3 p b = none := by
  rcases hmm : mNl3 p b with _ | ⟨repl, k⟩
  · rfl
  · exfalso
    obtain ⟨-, -, h3⟩ := nl3_some_shape p b repl k hmm
    obtain ⟨t, rfl⟩ := leadNl_three b h3
    exact hb.1 ⟨rfl, rfl, rfl⟩

theorem nl3Scan_id (cs : List Char) (h : NoNl3 cs) : subScan mNl3 cs = cs := by
  apply subScan_take_id
  intro a b repl k hab hmm
  rw [nl3_nomatch _ b (NoNl3_suf a b (by rw [hab]; exact h))] at hmm
  simp at hmm

theorem nl3Scan_head (fuel : Nat) (p : Option Char) (cs : List Char)
    (hf : 0 < fuel) : (subScanF mNl3 fuel p cs).head? = cs.head? := by
  rcases fuel with _ | fuel
  · omega
  · rcases cs with _ | ⟨c, rest⟩
    · rfl
    · rw [subScanF]
      rcases hmm : mNl3 p (c :: rest) with _ | ⟨repl, k⟩
      · rfl
      · obtain ⟨hrepl, -, h3⟩ := nl3_some_shape p _ repl k hmm
        have hc : c = '\n' := by
          by_contra hc
          rw [leadNl_cons, if_neg hc] at h3
          omega
        subst hrepl
        subst hc
        dsimp only
        simp

theorem nl3Scan_good :
    ∀ (fuel : Nat) (p : Option Char) (cs : List Char), cs.length < fuel →
      NoNl3 (subScanF mNl3 fuel p cs) ∧
      leadNl (subScanF mNl3 fuel p cs) ≤ leadNl cs ∧
      leadNl (subScanF mNl3 fuel p cs) ≤ 2 := by
  intro fuel
  induction fuel with
  | zero => intro p cs h; omega
  | succ fuel ih =>
    intro p cs hlen
    rcases cs with _ | ⟨c, rest⟩
    · have h0 : subScanF mNl3 (fuel + 1) p ([] : List Char) = [] := rfl
      exact ⟨by rw [h0]; trivial, by rw [h0], by rw [h0]; simp [leadNl]⟩
    · rw [subScanF]
      rcases hmm : mNl3 p (c :: rest) with _ | ⟨repl, k⟩
      · dsimp only
        have hlen2 : rest.length < fuel := by
          simp only [List.length_cons] at hlen; omega
        obtain ⟨hn3, hle, h2⟩ := ih (some c) rest hlen2
        have hsmall : leadNl (c :: rest) < 3 := by
          unfold mNl3 at hmm
          dsimp only at hmm
          split at hmm
          · unfold leadNl; omega
          · simp at hmm
        by_cases hc : c = '\n'
        · subst hc
          rw [leadNl_cons, if_pos rfl] at hsmall
          have hout : leadNl ('\n' :: subScanF mNl3 fuel (some '\n') rest) =
              leadNl (subScanF mNl3 fuel (some '\n') rest) + 1 := by
            rw [leadNl_cons, if_pos rfl]
          have hin : leadNl ('\n' :: rest) = leadNl rest + 1 := by
            rw [leadNl_cons, if_pos rfl]
          exact ⟨nonl3_cons _ _ hn3 (Or.inr (by omega)),
            by rw [hout, hin]; omega, by rw [hout]; omega⟩
        · have hout : leadNl (c :: subScanF mNl3 fuel (some c) rest) = 0 := by
            rw [leadNl_cons, if_neg hc]
          exact ⟨nonl3_cons _ _ hn3 (Or.inl hc),
            by rw [hout]; omega, by rw [hout]; omega⟩
      · obtain ⟨hrepl, hk, h3⟩ := nl3_some_shape p _ repl k hmm
        subst hrepl
        dsimp only
        have hkle : k ≤ (c :: rest).length := by
          rw [hk]
          unfold leadNl
          exact (List.takeWhile_sublist _).length_le
        have hk1 : 1 ≤ k := by omega
        have hlen2 : ((c :: rest).drop k).length < fuel := by
          rw [List.length_drop]
          simp only [List.length_cons] at hlen ⊢
          omega
        obtain ⟨hn3, -, -⟩ := ih (newPrevAfter p (c :: rest) k) _ hlen2
        have hz : leadNl (subScanF mNl3 fuel (newPrevAfter p (c :: rest) k)
            ((c :: rest).drop k)) = 0 := by
          apply leadNl_eq_zero
          intro d hd hdn
          rw [nl3Scan_head fuel _ _ (by omega)] at hd
          rw [hk] at hd
          unfold leadNl at hd
          rw [takeWhile_length_drop] at hd
          have := dropWhile_head_false _ _ d hd
          simp [hdn] at this
        show NoNl3 ('\n' :: '\n' :: subScanF mNl3 fuel
            (newPrevAfter p (c :: rest) k) ((c :: rest).drop k)) ∧ _ ∧ _
        have hstep1 : NoNl3 ('\n' :: subScanF mNl3 fuel
            (newPrevAfter p (c :: rest) k) ((c :: rest).drop k)) :=
          nonl3_cons _ _ hn3 (Or.inr (by omega))
        have hlead1 : leadNl ('\n' :: subScanF mNl3 fuel
            (newPrevAfter p (c :: rest) k) ((c :: rest).drop k)) = 1 := by
          rw [leadNl_cons, if_pos rfl, hz]
        have hout2 : leadNl ('\n' :: '\n' :: subScanF mNl3 fuel
            (newPrevAfter p (c :: rest) k) ((c :: rest).drop k)) = 2 := by
          rw [leadNl_cons, if_pos rfl, hlead1]
        simp only [List.cons_append, List.nil_append]
        refine ⟨nonl3_cons _ _ hstep1 (Or.inr (by omega)), ?_, ?_⟩
        · rw [hout2]; omega
        · rw [hout2]

theorem nl3Scan_noAdj {P : Char → Bool} (hP : P '\n' = false) :
    ∀ (fuel : Nat) (p : Option Char) (cs : List Char), cs.length < fuel →
      NoAdj P cs → NoAdj P (subScanF mNl3 fuel p cs) := by
  intro fuel
  induction fuel with
  | zero => intro p cs h; omega
  | succ fuel ih =>
    intro p cs hlen hadj
    rcases cs with _ | ⟨c, rest⟩
    · trivial
    · rw [subScanF]
      rcases hmm : mNl3 p (c :: rest) with _ | ⟨repl, k⟩
      · dsimp only
        have hlen2 : rest.length < fuel := by
          simp only [List.length_cons] at hlen; omega
        refine noAdj_cons P c _ (ih _ _ hlen2 (NoAdj_tl P c rest hadj)) ?_
        intro d hd hPd
        rw [nl3Scan_head fuel _ _ (by omega)] at hd
        rcases rest with _ | ⟨e, rest2⟩
        · simp at hd
        · simp only [List.head?_cons, Option.some.injEq] at hd
          subst hd
          exact hadj.1 hPd
      · obtain ⟨hrepl, hk, -⟩ := nl3_some_shape p _ repl k hmm
        subst hrepl
        dsimp only
        have hkle : k ≤ (c :: rest).length := by
          rw [hk]
          unfold leadNl
          exact (List.takeWhile_sublist _).length_le
        have hlen2 : ((c :: rest).drop k).length < fuel := by
          rw [List.length_drop]
          simp only [List.length_cons] at hlen ⊢
          have : 1 ≤ k := by
            have := nl3_some_shape p _ _ _ hmm
            omega
          omega
        have hadj2 : NoAdj P ((c :: rest).drop k) := by
          have : (c :: rest) = (c :: rest).take k ++ (c :: rest).drop k :=
            (List.take_append_drop k _).symm
          exact NoAdj_suf P _ _ (this ▸ hadj)
        have hrec := ih (newPrevAfter p (c :: rest) k) _ hlen2 hadj2
        show NoAdj P ('\n' :: '\n' :: subScanF mNl3 fuel
          (newPrevAfter p (c :: rest) k) ((c :: rest).drop k))
        refine noAdj_cons P '\n' _ (noAdj_cons P '\n' _ hrec ?_) ?_
        · intro d hd hPd
          simp [hP] at hPd
        · intro d hd hPd
          simp [hP] at hPd

end OcrClean

namespace OcrClean

/-! Character-level facts feeding the unicode-normalizer idempotence. -/

theorem mHwsRun_withinNlSp : MatcherWithin ['\n', ' '] mHwsRun := by
  intro p cs repl k h
  unfold mHwsRun at h
  dsimp only at h
  split at h
  · simp at h
  · simp only [Option.some.injEq, Prod.mk.injEq] at h
    obtain ⟨hrepl, -⟩ := h
    intro c hc
    rw [← hrepl] at hc
    simp only [List.mem_singleton] at hc
    subst hc
    right
    decide

theorem mNl3_withinNlSp : MatcherWithin ['\n', ' '] mNl3 := by
  intro p cs repl k h
  obtain ⟨hrepl, -, -⟩ := nl3_some_shape p cs repl k h
  intro c hc
  rw [hrepl] at hc
  simp only [List.mem_cons, List.not_mem_nil, or_false] at hc
  right
  rcases hc with rfl | rfl <;> decide

theorem replaceCRLF_chars (l : List Char) :
    ∀ c ∈ replaceCRLF l, c ∈ l ∨ c = '\n' := by
  induction l using replaceCRLF.induct with
  | case1 t ih =>
    intro c hc
    rw [replaceCRLF] at hc
    rcases List.mem_cons.mp hc with rfl | hc
    · exact Or.inr rfl
    · rcases ih c hc with h | h
      · exact Or.inl (by simp [h])
      · exact Or.inr h
  | case2 c0 t hg ih =>
    intro c hc
    rw [replaceCRLF.eq_2 c0 t hg] at hc
    rcases List.mem_cons.mp hc with rfl | hc
    · exact Or.inl (by simp)
    · rcases ih c hc with h | h
      · exact Or.inl (by simp [h])
      · exact Or.inr h
  | case3 =>
    intro c hc
    simp [replaceCRLF] at hc

theorem replaceCRLF_id (l : List Char) (h : ∀ c ∈ l, c ≠ '\r') :
    replaceCRLF l = l := by
  induction l using replaceCRLF.induct with
  | case1 t ih => exact absurd rfl (h '\r' (by simp))
  | case2 c0 t hg ih =>
    rw [replaceCRLF.eq_2 c0 t hg, ih (fun c hc => h c (by simp [hc]))]
  | case3 => rfl

theorem nbspToSpace_idem (c : Char) :
    nbspToSpace (nbspToSpace c) = nbspToSpace c := by
  unfold nbspToSpace
  split
  · simp
  · rfl

theorem crToNl_ne_cr (c : Char) : crToNl c ≠ '\r' := by
  unfold crToNl
  split
  · decide
  case isFalse h => exact h

theorem crToNl_id (c : Char) (h : c ≠ '\r') : crToNl c = c := by
  unfold crToNl
  rw [if_neg h]

theorem normList_chars (x : List Char) :
    ∀ c ∈ normalizeUnicodeList x,
      nbspToSpace c = c ∧ isZeroWidth c = false ∧ c ≠ '\r' := by
  intro c hc
  unfold normalizeUnicodeList at hc
  have h1 := pyStrip_subset _ c hc
  rcases subScan_chars mNl3_withinNlSp _ c h1 with h2 | h2
  · rcases subScan_chars mHwsRun_withinNlSp _ c h2 with h3 | h3
    · rcases List.mem_map.mp h3 with ⟨d, hd, rfl⟩
      by_cases hdr : d = '\r'
      · subst hdr
        refine ⟨by decide, by decide, by decide⟩
      · rw [crToNl_id d hdr]
        rcases replaceCRLF_chars _ d hd with h4 | h4
        · rcases List.mem_filter.mp h4 with ⟨h5, h6⟩
          rcases List.mem_map.mp h5 with ⟨e, -, rfl⟩
          exact ⟨nbspToSpace_idem e, by simpa using h6, hdr⟩
        · subst h4
          exact ⟨by decide, by decide, by decide⟩
    · simp only [List.mem_cons, List.not_mem_nil, or_false] at h3
      rcases h3 with rfl | rfl
      · exact ⟨by decide, by decide, by decide⟩
      · exact ⟨by decide, by decide, by decide⟩
  · simp only [List.mem_cons, List.not_mem_nil, or_false] at h2
    rcases h2 with rfl | rfl
    · exact ⟨by decide, by decide, by decide⟩
    · exact ⟨by decide, by decide, by decide⟩

theorem normList_hws (x : List Char) :
    ∀ c ∈ normalizeUnicodeList x, isHws c = true → c = ' ' := by
  intro c hc hhws
  unfold normalizeUnicodeList at hc
  have h1 := pyStrip_subset _ c hc
  rcases subScan_chars mNl3_withinNlSp _ c h1 with h2 | h2
  · exact runScan_space_chars mHwsRun_runCollapse _ none _ (by omega) c h2 hhws
  · simp only [List.mem_cons, List.not_mem_nil, or_false] at h2
    rcases h2 with rfl | rfl
    · exact absurd hhws (by decide)
    · rfl

theorem normList_noAdjHws (x : List Char) :
    NoAdj isHws (normalizeUnicodeList x) := by
  unfold normalizeUnicodeList
  obtain ⟨a, b, heq⟩ := pyStrip_infix (subScan mNl3 (subScan mHwsRun
    ((replaceCRLF ((x.map nbspToSpace).filter
      (fun c => !isZeroWidth c))).map crToNl)))
  refine NoAdj_inf isHws a _ b ?_
  rw [← heq]
  exact nl3Scan_noAdj (by decide) _ none _ (by omega)
    (runScan_noAdj mHwsRun_runCollapse _ none _ (by omega))

theorem normList_noNl3 (x : List Char) :
    NoNl3 (normalizeUnicodeList x) := by
  unfold normalizeUnicodeList
  obtain ⟨a, b, heq⟩ := pyStrip_infix (subScan mNl3 (subScan mHwsRun
    ((replaceCRLF ((x.map nbspToSpace).filter
      (fun c => !isZeroWidth c))).map crToNl)))
  refine NoNl3_inf a _ b ?_
  rw [← heq]
  exact (nl3Scan_good _ none _ (by omega)).1

theorem normalizeUnicodeList_idem (x : List Char) :
    normalizeUnicodeList (normalizeUnicodeList x) = normalizeUnicodeList x := by
  have hchars := normList_chars x
  have h1 : (normalizeUnicodeList x).map nbspToSpace = normalizeUnicodeList x := by
    rw [List.map_congr_left (g := id) (fun c hc => (hchars c hc).1), List.map_id]
  have h2 : (normalizeUnicodeList x).filter (fun c => !isZeroWidth c) =
      normalizeUnicodeList x :=
    List.filter_eq_self.mpr (fun c hc => by simp [(hchars c hc).2.1])
  have h3 : replaceCRLF (normalizeUnicodeList x) = normalizeUnicodeList x :=
    replaceCRLF_id _ (fun c hc => (hchars c hc).2.2)
  have h4 : (normalizeUnicodeList x).map crToNl = normalizeUnicodeList x := by
    rw [List.map_congr_left (g := id)
      (fun c hc => crToNl_id c (hchars c hc).2.2), List.map_id]
  have h5 : subScan mHwsRun (normalizeUnicodeList x) = normalizeUnicodeList x :=
    runScan_id mHwsRun_runCollapse _ (normList_hws x) (normList_noAdjHws x)
  have h6 : subScan mNl3 (normalizeUnicodeList x) = normalizeUnicodeList x :=
    nl3Scan_id _ (normList_noNl3 x)
  have h7 : pyStrip (normalizeUnicodeList x) = normalizeUnicodeList x := by
    conv_lhs => rw [show normalizeUnicodeList x = pyStrip (subScan mNl3
      (subScan mHwsRun ((replaceCRLF ((x.map nbspToSpace).filter
        (fun c => !isZeroWidth c))).map crToNl))) from rfl]
    rw [pyStrip_idem]
    rfl
  conv_lhs => rw [normalizeUnicodeList]
  rw [h1, h2, h3, h4, h5, h6, h7]

theorem normalize_unicode_and_spaces_idem (s : String) :
    normalize_unicode_and_spaces (normalize_unicode_and_spaces s) =
      normalize_unicode_and_spaces s :=
  congrArg (fun l => (⟨l⟩ : String)) (normalizeUnicodeList_idem s.data)

end OcrClean

namespace OcrClean

/-! Facts about `collapseWsStrip` and stripped paragraphs, feeding the
merge-pass idempotence. -/

theorem head?_pyRstrip (l : List Char) (c : Char) (hc : l.head? = some c)
    (hP : isPySpace c = false) : (pyRstrip l).head? = some c := by
  rcases l with _ | ⟨c0, t⟩
  · simp at hc
  · simp only [List.head?_cons, Option.some.injEq] at hc
    subst hc
    unfold pyRstrip
    rw [List.reverse_cons, List.dropWhile_append]
    split
    · rw [List.dropWhile_cons, if_neg (by simp [hP])]
      rfl
    case isFalse h =>
      rw [List.reverse_append]
      rcases hdw : (t.reverse.dropWhile isPySpace) with _ | ⟨e, t2⟩
      · rw [hdw] at h; simp at h
      · simp

theorem head?_pyStrip (l : List Char) (c : Char) (hc : l.head? = some c)
    (hP : isPySpace c = false) : (pyStrip l).head? = some c := by
  have hcond : ∀ d, l.head? = some d → isPySpace d = false := by
    intro d hd
    rw [hc] at hd
    simp only [Option.some.injEq] at hd
    rw [← hd]
    exact hP
  rw [pyStrip_eq_rstrip_dropWhile, dropWhile_eq_self_of_head isPySpace l hcond]
  exact head?_pyRstrip l c hc hP

theorem all_spaces_of_dropWhile_nil (l : List Char)
    (h : l.dropWhile isPySpace = []) : ∀ c ∈ l, isPySpace c = true := by
  intro c hc
  have hself : l = l.takeWhile isPySpace := by
    conv_lhs => rw [← List.takeWhile_append_dropWhile (p := isPySpace) (l := l)]
    rw [h, List.append_nil]
  exact List.mem_takeWhile_imp (hself ▸ hc)

theorem getLast?_pyStrip (l : List Char) (c : Char) (hc : l.getLast? = some c)
    (hP : isPySpace c = false) : (pyStrip l).getLast? = some c := by
  rw [pyStrip_eq_rstrip_dropWhile]
  have hdwne : l.dropWhile isPySpace ≠ [] := by
    intro hdw
    have := all_spaces_of_dropWhile_nil l hdw c (mem_of_getLast?_eq l c hc)
    simp [hP] at this
  have hlast : (l.dropWhile isPySpace).getLast? = some c := by
    rw [getLast?_dropWhile _ _ hdwne]; exact hc
  rw [pyRstrip_eq_self_of_last _ (fun d hd => by
    rw [hlast] at hd
    simp only [Option.some.injEq] at hd
    rw [← hd]; exact hP)]
  exact hlast

theorem subScan_eq_subScanF (m : RMatcher) (cs : List Char) :
    subScan m cs = subScanF m (cs.length + 1) none cs := rfl

theorem collapseWsStrip_space_chars (x : List Char) :
    ∀ c ∈ collapseWsStrip x, isPySpace c = true → c = ' ' := by
  intro c hc hP
  unfold collapseWsStrip at hc
  have h1 := pyStrip_subset _ c hc
  exact runScan_space_chars mWsRun_runCollapse _ none x (by omega) c h1 hP

theorem collapseWsStrip_noAdj (x : List Char) :
    NoAdj isPySpace (collapseWsStrip x) := by
  unfold collapseWsStrip
  obtain ⟨a, b, heq⟩ := pyStrip_infix (subScan mWsRun x)
  refine NoAdj_inf isPySpace a _ b ?_
  rw [← heq]
  exact runScan_noAdj mWsRun_runCollapse _ none x (by omega)

theorem collapseWsStrip_idem (x : List Char) :
    collapseWsStrip (collapseWsStrip x) = collapseWsStrip x := by
  have h5 : subScan mWsRun (collapseWsStrip x) = collapseWsStrip x :=
    runScan_id mWsRun_runCollapse _ (collapseWsStrip_space_chars x)
      (collapseWsStrip_noAdj x)
  show pyStrip (subScan mWsRun (collapseWsStrip x)) = collapseWsStrip x
  rw [h5]
  show pyStrip (pyStrip (subScan mWsRun x)) = collapseWsStrip x
  rw [pyStrip_idem]
  rfl

theorem collapseWsStrip_no_nl (x : List Char) :
    ∀ c ∈ collapseWsStrip x, c ≠ '\n' := by
  intro c hc hn
  subst hn
  have := collapseWsStrip_space_chars x '\n' hc (by decide)
  simp at this

theorem collapseWsStrip_head (x : List Char) (c : Char) (hc : x.head? = some c)
    (hP : isPySpace c = false) : (collapseWsStrip x).head? = some c := by
  unfold collapseWsStrip
  refine head?_pyStrip _ c ?_ hP
  rw [subScan_eq_subScanF, runScan_head mWsRun_runCollapse _ none x (by omega), hc]
  simp [hP]

theorem collapseWsStrip_getLast (x : List Char) (c : Char)
    (hc : x.getLast? = some c) (hP : isPySpace c = false) :
    (collapseWsStrip x).getLast? = some c := by
  unfold collapseWsStrip
  refine getLast?_pyStrip _ c ?_ hP
  have hcond : ∀ d, x.getLast? = some d → isPySpace d = false := by
    intro d hd
    rw [hc] at hd
    simp only [Option.some.injEq] at hd
    rw [← hd]
    exact hP
  rw [subScan_eq_subScanF, runScan_getLast mWsRun_runCollapse _ none x (by omega)
    hcond]
  exact hc

theorem collapseWsStrip_ne_nil (x : List Char) (c : Char) (hc : x.head? = some c)
    (hP : isPySpace c = false) : collapseWsStrip x ≠ [] := by
  intro h
  have := collapseWsStrip_head x c hc hP
  rw [h] at this
  simp at this

theorem pyStrip_collapseWsStrip (x : List Char) :
    pyStrip (collapseWsStrip x) = collapseWsStrip x := by
  show pyStrip (pyStrip (subScan mWsRun x)) = collapseWsStrip x
  rw [pyStrip_idem]
  rfl

/-- A stripped, nonempty paragraph. -/
def StrNE (p : List Char) : Prop := pyStrip p = p ∧ p ≠ []

theorem StrNE.head_false {p : List Char} (h : StrNE p) :
    ∀ d, p.head? = some d → isPySpace d = false := by
  intro d hd
  refine pyStrip_head_false p d ?_
  rw [h.1]; exact hd

theorem StrNE.last_false {p : List Char} (h : StrNE p) :
    ∀ d, p.getLast? = some d → isPySpace d = false := by
  intro d hd
  refine pyStrip_last_false p d ?_
  rw [h.1]; exact hd

theorem StrNE.head_some {p : List Char} (h : StrNE p) :
    ∃ c, p.head? = some c ∧ isPySpace c = false := by
  rcases hp : p.head? with _ | c
  · rcases p with _ | ⟨c0, t⟩
    · exact absurd rfl h.2
    · simp at hp
  · exact ⟨c, rfl, h.head_false c hp⟩

theorem StrNE.last_some {p : List Char} (h : StrNE p) :
    ∃ c, p.getLast? = some c ∧ isPySpace c = false := by
  rcases hp : p.getLast? with _ | c
  · rw [List.getLast?_eq_none_iff] at hp
    exact absurd hp h.2
  · exact ⟨c, rfl, h.last_false c hp⟩

theorem StrNE_collapseWsStrip {x : List Char} (hx : StrNE x) :
    StrNE (collapseWsStrip x) := by
  obtain ⟨c, hc, hP⟩ := hx.head_some
  exact ⟨pyStrip_collapseWsStrip x, collapseWsStrip_ne_nil x c hc hP⟩

theorem paraClean_StrNE (cs : List Char) : ∀ p ∈ paraClean cs, StrNE p := by
  intro p hp
  unfold paraClean at hp
  rcases List.mem_filter.mp hp with ⟨hp1, hp2⟩
  rcases List.mem_map.mp hp1 with ⟨part, -, rfl⟩
  exact ⟨pyStrip_idem part, by simpa using hp2⟩

end OcrClean

namespace OcrClean

/-! `"\n\n".join` / `split("\n\n")` round trip for newline-free parts. -/

theorem splitOnNN_ne_nil : ∀ (cs : List Char), splitOnNN cs ≠ [] := by
  intro cs
  induction cs using splitOnNN.induct with
  | case1 => simp [splitOnNN]
  | case2 c => simp [splitOnNN]
  | case3 c1 c2 t h ih =>
    rw [splitOnNN, if_pos h]
    simp
  | case4 c1 c2 t h hd tl heq ih =>
    rw [splitOnNN, if_neg h, heq]
    simp
  | case5 c1 c2 t h heq ih =>
    rw [splitOnNN, if_neg h, heq]
    simp

theorem splitOnNN_no_nl : ∀ (p : List Char), '\n' ∉ p → splitOnNN p = [p] := by
  intro p
  induction p using splitOnNN.induct with
  | case1 => intro h; rfl
  | case2 c => intro h; rfl
  | case3 c1 c2 t h ih =>
    intro hnl
    exact absurd (by simp [h.1]) hnl
  | case4 c1 c2 t h hd tl heq ih =>
    intro hnl
    rw [splitOnNN, if_neg h, heq]
    have h2 : splitOnNN (c2 :: t) = [c2 :: t] := ih (by simp at hnl; simp [hnl])
    rw [h2] at heq
    simp only [List.cons.injEq] at heq
    rw [heq.1, heq.2]
  | case5 c1 c2 t h heq ih =>
    intro hnl
    exact absurd heq (splitOnNN_ne_nil (c2 :: t))

theorem splitOnNN_append_nn : ∀ (p t : List Char), '\n' ∉ p →
    splitOnNN (p ++ '\n' :: '\n' :: t) = p :: splitOnNN t := by
  intro p
  induction p with
  | nil =>
    intro t hnl
    show splitOnNN ('\n' :: '\n' :: t) = [] :: splitOnNN t
    rw [splitOnNN.eq_def]
    try dsimp only
    rw [if_pos ⟨rfl, rfl⟩]
  | cons c p2 ih =>
    intro t hnl
    have hc : c ≠ '\n' := by simp at hnl; exact fun h => hnl.1 h.symm
    have hrec : splitOnNN (p2 ++ '\n' :: '\n' :: t) = p2 :: splitOnNN t :=
      ih t (by simp at hnl; intro h; exact hnl.2 h)
    rcases p2 with _ | ⟨d, p3⟩
    · show splitOnNN (c :: '\n' :: '\n' :: t) = [c] :: splitOnNN t
      rw [splitOnNN.eq_def]
      try dsimp only
      rw [if_neg (by simp [hc])]
      simp only [List.nil_append] at hrec
      rw [hrec]
    · show splitOnNN (c :: d :: (p3 ++ '\n' :: '\n' :: t)) = (c :: d :: p3) :: splitOnNN t
      rw [splitOnNN.eq_def]
      try dsimp only
      rw [if_neg (by simp [hc])]
      simp only [List.cons_append] at hrec
      rw [hrec]

theorem splitOnNN_intercalate (parts : List (List Char)) (hne : parts ≠ [])
    (hnl : ∀ p ∈ parts, '\n' ∉ p) :
    splitOnNN (List.intercalate ['\n', '\n'] parts) = parts := by
  induction parts with
  | nil => exact absurd rfl hne
  | cons p rest ih =>
    rcases rest with _ | ⟨q, rest2⟩
    · show splitOnNN (List.intercalate ['\n', '\n'] [p]) = [p]
      rw [show List.intercalate ['\n', '\n'] [p] = p by
        simp [List.intercalate]]
      exact splitOnNN_no_nl p (hnl p (by simp))
    · have hstep : List.intercalate ['\n', '\n'] (p :: q :: rest2) =
          p ++ '\n' :: '\n' :: List.intercalate ['\n', '\n'] (q :: rest2) := by
        simp [List.intercalate, List.intersperse]
      rw [hstep, splitOnNN_append_nn p _ (hnl p (by simp)),
        ih (by simp) (fun r hr => hnl r (by simp [hr]))]

theorem paraClean_intercalate (parts : List (List Char)) (hne : parts ≠ [])
    (hgood : ∀ p ∈ parts, StrNE p ∧ ∀ c ∈ p, c ≠ '\n') :
    paraClean (List.intercalate ['\n', '\n'] parts) = parts := by
  unfold paraClean
  rw [splitOnNN_intercalate parts hne
    (fun p hp c => (hgood p hp).2 '\n' c rfl)]
  have hmap : parts.map pyStrip = parts := by
    rw [List.map_congr_left (g := id) (fun p hp => (hgood p hp).1.1), List.map_id]
  rw [hmap]
  refine List.filter_eq_self.mpr ?_
  intro p hp
  simp [(hgood p hp).1.2]

end OcrClean

namespace OcrClean

/-! Idempotence of the soft-split paragraph merge. -/

theorem head?_append_left (p x : List Char) (hp : p ≠ []) :
    (p ++ x).head? = p.head? := by
  rcases p with _ | ⟨c, t⟩
  · exact absurd rfl hp
  · rfl

theorem mergeSoftGo_establish :
    ∀ (rest : List (List Char)) (p : List Char), StrNE p →
      (∀ q ∈ rest, StrNE q) →
      (∀ o ∈ mergeSoftGo p rest,
        collapseWsStrip o = o ∧ StrNE o ∧ ∀ c ∈ o, c ≠ '\n') ∧
      List.Chain' (fun a b => softCond a b = false) (mergeSoftGo p rest) ∧
      (∃ h t, mergeSoftGo p rest = h :: t ∧ h.head? = p.head?) := by
  intro rest
  induction rest with
  | nil =>
    intro p hp hrest
    obtain ⟨c, hc, hP⟩ := hp.head_some
    refine ⟨?_, by simp [mergeSoftGo], ?_⟩
    · intro o ho
      simp only [mergeSoftGo, List.mem_singleton] at ho
      subst ho
      exact ⟨collapseWsStrip_idem p, StrNE_collapseWsStrip hp,
        collapseWsStrip_no_nl p⟩
    · exact ⟨collapseWsStrip p, [], rfl,
        by rw [collapseWsStrip_head p c hc hP, hc]⟩
  | cons q rest ih =>
    intro p hp hrest
    have hq : StrNE q := hrest q (by simp)
    rw [mergeSoftGo]
    split
    case isTrue hcond =>
      rw [hq.1]
      have hp2 : StrNE (p ++ ' ' :: q) := by
        obtain ⟨c, hc, hcP⟩ := hp.head_some
        obtain ⟨d, hd, hdP⟩ := hq.last_some
        refine ⟨pyStrip_eq_self _ ?_ ?_, by simp⟩
        · intro e he
          rw [head?_append_left p _ hp.2, hc] at he
          simp only [Option.some.injEq] at he
          rw [← he]
          exact hcP
        · intro e he
          rw [getLast?_append_right p (' ' :: q) (by simp),
            getLast?_cons_of_ne_nil ' ' q hq.2, hd] at he
          simp only [Option.some.injEq] at he
          rw [← he]
          exact hdP
      obtain ⟨hall, hch, h1, t1, heq1, hhead1⟩ :=
        ih (p ++ ' ' :: q) hp2 (fun r hr => hrest r (by simp [hr]))
      refine ⟨hall, hch, h1, t1, heq1, ?_⟩
      rw [hhead1, head?_append_left p _ hp.2]
    case isFalse hcond =>
      obtain ⟨hall, hch, h1, t1, heq1, hhead1⟩ :=
        ih q hq (fun r hr => hrest r (by simp [hr]))
      obtain ⟨c, hc, hP⟩ := hp.head_some
      refine ⟨?_, ?_, collapseWsStrip p, mergeSoftGo q rest, rfl,
        by rw [collapseWsStrip_head p c hc hP, hc]⟩
      · intro o ho
        rcases List.mem_cons.mp ho with rfl | ho
        · exact ⟨collapseWsStrip_idem p, StrNE_collapseWsStrip hp,
            collapseWsStrip_no_nl p⟩
        · exact hall o ho
      · rw [List.chain'_cons']
        refine ⟨?_, hch⟩
        intro y hy
        rw [heq1] at hy
        simp only [List.head?_cons, Option.mem_def, Option.some.injEq] at hy
        subst hy
        have hstrip1 : pyStrip h1 = h1 :=
          (hall h1 (by rw [heq1]; simp)).2.1.1
        have hlastp : (collapseWsStrip p).getLast? = p.getLast? := by
          obtain ⟨d, hd, hdP⟩ := hp.last_some
          rw [collapseWsStrip_getLast p d hd hdP, hd]
        unfold softCond at hcond ⊢
        rw [hlastp, hstrip1, hhead1]
        rw [hq.1] at hcond
        simp only [Bool.not_eq_true] at hcond
        exact hcond

theorem mergeSoftGo_fixpoint :
    ∀ (rest : List (List Char)) (p : List Char),
      (∀ o ∈ p :: rest, collapseWsStrip o = o) →
      List.Chain' (fun a b => softCond a b = false) (p :: rest) →
      mergeSoftGo p rest = p :: rest := by
  intro rest
  induction rest with
  | nil =>
    intro p hcol hch
    simp [mergeSoftGo, hcol p (by simp)]
  | cons q rest ih =>
    intro p hcol hch
    rw [List.chain'_cons'] at hch
    have hfalse : softCond p q = false := hch.1 q (by simp)
    rw [mergeSoftGo, if_neg (by simp [hfalse])]
    rw [hcol p (by simp), ih q (fun o ho => hcol o (by simp [ho])) hch.2]

theorem mergeSoftLoop_establish (l : List (List Char))
    (hl : ∀ p ∈ l, StrNE p) :
    (∀ o ∈ mergeSoftLoop l,
      collapseWsStrip o = o ∧ StrNE o ∧ ∀ c ∈ o, c ≠ '\n') ∧
    List.Chain' (fun a b => softCond a b = false) (mergeSoftLoop l) := by
  rcases l with _ | ⟨p, rest⟩
  · exact ⟨by simp [mergeSoftLoop], by simp [mergeSoftLoop]⟩
  · obtain ⟨hall, hch, -⟩ := mergeSoftGo_establish rest p (hl p (by simp))
      (fun r hr => hl r (by simp [hr]))
    exact ⟨hall, hch⟩

theorem mergeSoft_list_idem (x : List Char) :
    List.intercalate ['\n', '\n'] (mergeSoftLoop (paraClean
      (List.intercalate ['\n', '\n'] (mergeSoftLoop (paraClean x))))) =
    List.intercalate ['\n', '\n'] (mergeSoftLoop (paraClean x)) := by
  obtain ⟨hall, hch⟩ := mergeSoftLoop_establish (paraClean x) (paraClean_StrNE x)
  rcases houts : mergeSoftLoop (paraClean x) with _ | ⟨o1, orest⟩
  · rfl
  · rw [houts] at hall hch
    have hpc : paraClean (List.intercalate ['\n', '\n'] (o1 :: orest)) =
        o1 :: orest := by
      refine paraClean_intercalate _ (by simp) ?_
      intro p hp
      exact ⟨(hall p hp).2.1, fun c hc hn => (hall p hp).2.2 c hc hn⟩
    rw [hpc]
    show List.intercalate ['\n', '\n'] (mergeSoftGo o1 orest) = _
    rw [mergeSoftGo_fixpoint orest o1 (fun o ho => (hall o ho).1) hch]

theorem merge_soft_split_paragraphs_text_idem (s : String) :
    merge_soft_split_paragraphs_text (merge_soft_split_paragraphs_text s) =
      merge_soft_split_paragraphs_text s :=
  congrArg (fun l => (⟨l⟩ : String)) (mergeSoft_list_idem s.data)

end OcrClean

namespace OcrClean

/-! The non-whitespace character sequence, invariant under collapsing. -/

/-- The subsequence of non-whitespace characters. -/
def nw (x : List Char) : List Char := x.filter (fun c => !isPySpace c)

theorem nw_takeWhile_sp (x : List Char) : nw (x.takeWhile isPySpace) = [] := by
  rw [nw, List.filter_eq_nil_iff]
  intro a ha
  simp [List.mem_takeWhile_imp ha]

theorem nw_dropWhile_sp (x : List Char) : nw (x.dropWhile isPySpace) = nw x := by
  conv_rhs => rw [← List.takeWhile_append_dropWhile (p := isPySpace) (l := x)]
  simp only [nw, List.filter_append]
  have h := nw_takeWhile_sp x
  simp only [nw] at h
  rw [h, List.nil_append]

theorem nw_reverse (x : List Char) : nw (x.reverse) = (nw x).reverse := by
  rw [nw, nw, List.filter_reverse]

theorem nw_pyRstrip (x : List Char) : nw (pyRstrip x) = nw x := by
  unfold pyRstrip
  rw [nw_reverse, nw_dropWhile_sp, nw_reverse, List.reverse_reverse]

theorem nw_pyStrip (x : List Char) : nw (pyStrip x) = nw x := by
  rw [pyStrip_eq_rstrip_dropWhile, nw_pyRstrip, nw_dropWhile_sp]

theorem takeWhile_length_take (P : Char → Bool) :
    ∀ (l : List Char), l.take (l.takeWhile P).length = l.takeWhile P := by
  intro l
  induction l with
  | nil => rfl
  | cons c t ih =>
    rw [List.takeWhile_cons]
    split
    · simp only [List.length_cons, List.take_succ_cons]
      rw [ih]
    · simp

theorem wsScan_nw :
    ∀ (fuel : Nat) (p : Option Char) (cs : List Char), cs.length < fuel →
      nw (subScanF mWsRun fuel p cs) = nw cs := by
  intro fuel
  induction fuel with
  | zero => intro p cs h; omega
  | succ fuel ih =>
    intro p cs hlen
    rcases cs with _ | ⟨c0, rest⟩
    · rfl
    · rw [subScanF, mWsRun_runCollapse]
      by_cases h0 : isPySpace c0 = true
      · rw [if_neg (by simp [List.takeWhile_cons, h0])]
        dsimp only
        show nw (' ' :: subScanF mWsRun fuel
          (newPrevAfter p (c0 :: rest) ((c0 :: rest).takeWhile isPySpace).length)
          ((c0 :: rest).drop ((c0 :: rest).takeWhile isPySpace).length)) =
          nw (c0 :: rest)
        have hk : 1 ≤ ((c0 :: rest).takeWhile isPySpace).length := by
          simp [List.takeWhile_cons, h0]
        have hlen2 : ((c0 :: rest).drop
            ((c0 :: rest).takeWhile isPySpace).length).length < fuel := by
          rw [List.length_drop]
          simp only [List.length_cons] at hlen ⊢
          omega
        have hstep : nw (' ' :: subScanF mWsRun fuel
            (newPrevAfter p (c0 :: rest) ((c0 :: rest).takeWhile isPySpace).length)
            ((c0 :: rest).drop ((c0 :: rest).takeWhile isPySpace).length)) =
            nw (subScanF mWsRun fuel
            (newPrevAfter p (c0 :: rest) ((c0 :: rest).takeWhile isPySpace).length)
            ((c0 :: rest).drop ((c0 :: rest).takeWhile isPySpace).length)) := by
          simp only [nw, List.filter_cons]
          rw [if_neg (by decide)]
        rw [hstep, ih _ _ hlen2]
        conv_rhs => rw [← List.take_append_drop
          (((c0 :: rest).takeWhile isPySpace).length) (c0 :: rest)]
        simp only [nw, List.filter_append]
        have h := nw_takeWhile_sp (c0 :: rest)
        simp only [nw] at h
        rw [takeWhile_length_take isPySpace (c0 :: rest), h, List.nil_append]
      · rw [if_pos (by simp [List.takeWhile_cons, h0])]
        dsimp only
        show nw (c0 :: subScanF mWsRun fuel (some c0) rest) = nw (c0 :: rest)
        have hlen2 : rest.length < fuel := by
          simp only [List.length_cons] at hlen; omega
        have hrec := ih (some c0) rest hlen2
        simp only [nw, List.filter_cons] at hrec ⊢
        rw [hrec]

end OcrClean

namespace OcrClean

theorem nw_collapseWsStrip (x : List Char) :
    nw (collapseWsStrip x) = nw x := by
  unfold collapseWsStrip
  rw [nw_pyStrip, subScan_eq_subScanF, wsScan_nw _ none x (by omega)]

theorem pyStrip_cons_space (c : Char) (t : List Char) (h : isPySpace c = true) :
    pyStrip (c :: t) = pyStrip t := by
  rw [pyStrip_eq_rstrip_dropWhile, pyStrip_eq_rstrip_dropWhile,
    List.dropWhile_cons, if_pos h]

theorem dropWhile_all_sp (t : List Char) (h : ∀ c ∈ t, isPySpace c = true) :
    t.dropWhile isPySpace = [] := by
  induction t with
  | nil => rfl
  | cons c t2 ih =>
    rw [List.dropWhile_cons, if_pos (h c (by simp))]
    exact ih (fun d hd => h d (by simp [hd]))

theorem nw_single_dash :
    ∀ (q : List Char), nw q = ['-'] → pyStrip q = ['-'] := by
  intro q
  induction q with
  | nil => intro h; simp [nw] at h
  | cons c t ih =>
    intro h
    by_cases hc : isPySpace c = true
    · have h2 : nw t = ['-'] := by
        rw [nw, List.filter_cons, if_neg (by simp [hc])] at h
        exact h
      rw [pyStrip_cons_space c t hc]
      exact ih h2
    · rw [nw, List.filter_cons, if_pos (by simp [hc])] at h
      simp only [List.cons.injEq] at h
      obtain ⟨rfl, ht⟩ := h
      have htall : ∀ d ∈ t, isPySpace d = true := by
        intro d hd
        by_contra hds
        have : d ∈ List.filter (fun c => !isPySpace c) t := by
          rw [List.mem_filter]
          exact ⟨hd, by simp [hds]⟩
        rw [ht] at this
        simp at this
      rw [pyStrip_eq_rstrip_dropWhile, List.dropWhile_cons, if_neg (by simp [hc])]
      unfold pyRstrip
      rw [List.reverse_cons, List.dropWhile_append,
        dropWhile_all_sp t.reverse (fun d hd => htall d (List.mem_reverse.mp hd))]
      rw [if_pos (by simp)]
      rw [List.dropWhile_cons, if_neg (by simp [hc])]
      simp

theorem nw_ne_nil_of_StrNE {q : List Char} (hq : StrNE q) : nw q ≠ [] := by
  obtain ⟨c, hc, hP⟩ := hq.head_some
  rcases q with _ | ⟨c0, t⟩
  · exact absurd rfl hq.2
  · simp only [List.head?_cons, Option.some.injEq] at hc
    subst hc
    rw [nw, List.filter_cons, if_pos (by simp [hP])]
    simp

theorem getLast?_hyph_append (p next : List Char) (hnext : next ≠ []) :
    (p ++ ' ' :: '-' :: ' ' :: next).getLast? = next.getLast? := by
  rw [getLast?_append_right p _ (by simp),
    getLast?_cons_of_ne_nil ' ' _ (by simp),
    getLast?_cons_of_ne_nil '-' _ (by simp),
    getLast?_cons_of_ne_nil ' ' _ hnext]

theorem nw_hyph_append (p next : List Char) :
    nw (p ++ ' ' :: '-' :: ' ' :: next) = nw p ++ '-' :: nw next := by
  rw [nw, List.filter_append, List.filter_cons, List.filter_cons, List.filter_cons]
  rw [if_neg (by decide), if_pos (by decide), if_neg (by decide)]
  rfl

theorem nw_dash_end (p : List Char) :
    nw (p ++ [' ', '-']) = nw p ++ ['-'] := by
  rw [nw, List.filter_append, List.filter_cons, List.filter_cons]
  rw [if_neg (by decide), if_pos (by decide)]
  rfl

theorem mergeHyphGo_establish :
    ∀ (p : List Char) (rest : List (List Char)), StrNE p →
      (∀ q ∈ rest, StrNE q) →
      (∀ o ∈ mergeHyphGo p rest,
        collapseWsStrip o = o ∧ StrNE o ∧ ∀ c ∈ o, c ≠ '\n') ∧
      List.Chain' (fun a b => ¬(pyStrip b = ['-'])) (mergeHyphGo p rest) ∧
      (∃ h t e, mergeHyphGo p rest = h :: t ∧ nw h = nw p ++ e) := by
  intro p rest
  induction p, rest using mergeHyphGo.induct with
  | case1 p =>
    intro hp hrest
    refine ⟨?_, by rw [mergeHyphGo.eq_1]; simp, ?_⟩
    · intro o ho
      rw [mergeHyphGo.eq_1] at ho
      simp only [List.mem_singleton] at ho
      subst ho
      exact ⟨collapseWsStrip_idem p, StrNE_collapseWsStrip hp,
        collapseWsStrip_no_nl p⟩
    · exact ⟨collapseWsStrip p, [], [], by rw [mergeHyphGo.eq_1],
        by rw [nw_collapseWsStrip, List.append_nil]⟩
  | case2 p q hq next rest2 ih =>
    intro hp hrest
    have hnext : StrNE next := hrest next (by simp)
    have hgo : mergeHyphGo p (q :: next :: rest2) =
        mergeHyphGo (p ++ ' ' :: '-' :: ' ' :: pyStrip next) rest2 := by
      rw [mergeHyphGo.eq_2, if_pos hq]
    have hp2 : StrNE (p ++ ' ' :: '-' :: ' ' :: pyStrip next) := by
      rw [hnext.1]
      obtain ⟨c, hc, hcP⟩ := hp.head_some
      obtain ⟨d, hd, hdP⟩ := hnext.last_some
      refine ⟨pyStrip_eq_self _ ?_ ?_, by simp⟩
      · intro e he
        rw [head?_append_left p _ hp.2, hc] at he
        simp only [Option.some.injEq] at he
        rw [← he]
        exact hcP
      · intro e he
        rw [getLast?_hyph_append p next hnext.2, hd] at he
        simp only [Option.some.injEq] at he
        rw [← he]
        exact hdP
    obtain ⟨hall, hch, h1, t1, e1, heq1, hnw1⟩ :=
      ih hp2 (fun r hr => hrest r (by simp [hr]))
    rw [hgo]
    refine ⟨hall, hch, h1, t1, ('-' :: nw (pyStrip next)) ++ e1, heq1, ?_⟩
    rw [hnw1, nw_hyph_append p (pyStrip next)]
    rw [List.append_assoc]
  | case3 p q hq =>
    intro hp hrest
    have hgo : mergeHyphGo p [q] = [collapseWsStrip (p ++ [' ', '-'])] := by
      rw [mergeHyphGo.eq_3, if_pos hq]
    have hp2 : StrNE (p ++ [' ', '-']) := by
      obtain ⟨c, hc, hcP⟩ := hp.head_some
      refine ⟨pyStrip_eq_self _ ?_ ?_, by simp⟩
      · intro e he
        rw [head?_append_left p _ hp.2, hc] at he
        simp only [Option.some.injEq] at he
        rw [← he]
        exact hcP
      · intro e he
        rw [getLast?_append_right p _ (by simp)] at he
        have hlast2 : ([' ', '-'] : List Char).getLast? = some '-' := rfl
        rw [hlast2] at he
        simp only [Option.some.injEq] at he
        rw [← he]
        decide
    rw [hgo]
    refine ⟨?_, by simp, collapseWsStrip (p ++ [' ', '-']), [], ['-'], rfl, ?_⟩
    · intro o ho
      simp only [List.mem_singleton] at ho
      subst ho
      exact ⟨collapseWsStrip_idem _, StrNE_collapseWsStrip hp2,
        collapseWsStrip_no_nl _⟩
    · rw [nw_collapseWsStrip, nw_dash_end]
  | case4 p q rest hq ih =>
    intro hp hrest
    have hqq : StrNE q := hrest q (by simp)
    obtain ⟨hall, hch, h1, t1, e1, heq1, hnw1⟩ :=
      ih hqq (fun r hr => hrest r (by simp [hr]))
    rw [mergeHyphGo_cons_ne p q rest hq]
    obtain ⟨c, hc, hP⟩ := hp.head_some
    refine ⟨?_, ?_, collapseWsStrip p, mergeHyphGo q rest, [], rfl,
      by rw [nw_collapseWsStrip, List.append_nil]⟩
    · intro o ho
      rcases List.mem_cons.mp ho with rfl | ho
      · exact ⟨collapseWsStrip_idem p, StrNE_collapseWsStrip hp,
          collapseWsStrip_no_nl p⟩
      · exact hall o ho
    · rw [List.chain'_cons']
      refine ⟨?_, hch⟩
      intro y hy
      rw [heq1] at hy
      simp only [List.head?_cons, Option.mem_def, Option.some.injEq] at hy
      subst hy
      intro hbad
      have hstr1 : pyStrip h1 = h1 := (hall h1 (by rw [heq1]; simp)).2.1.1
      rw [hstr1] at hbad
      subst hbad
      have hnwq : nw q ≠ [] := nw_ne_nil_of_StrNE hqq
      have h1 : (['-'] : List Char) = nw q ++ e1 := hnw1
      rcases hq2 : nw q with _ | ⟨a, t2⟩
      · exact hnwq hq2
      · rw [hq2, List.cons_append] at h1
        simp only [List.cons.injEq] at h1
        obtain ⟨rfl, h3⟩ := h1
        obtain ⟨rfl, rfl⟩ := List.append_eq_nil.mp h3.symm
        have hq3 := nw_single_dash q hq2
        exact hq hq3

end OcrClean

namespace OcrClean

theorem mergeHyphGo_fixpoint :
    ∀ (rest : List (List Char)) (p : List Char),
      (∀ o ∈ p :: rest, collapseWsStrip o = o) →
      List.Chain' (fun a b => ¬(pyStrip b = ['-'])) (p :: rest) →
      mergeHyphGo p rest = p :: rest := by
  intro rest
  induction rest with
  | nil =>
    intro p hcol hch
    rw [mergeHyphGo.eq_1, hcol p (by simp)]
  | cons q rest ih =>
    intro p hcol hch
    rw [List.chain'_cons'] at hch
    have hne : ¬(pyStrip q = ['-']) := hch.1 q (by simp)
    rw [mergeHyphGo_cons_ne p q rest hne]
    rw [hcol p (by simp), ih q (fun o ho => hcol o (by simp [ho])) hch.2]

theorem mergeHyphLoop_establish (l : List (List Char))
    (hl : ∀ p ∈ l, StrNE p) :
    (∀ o ∈ mergeHyphLoop l,
      collapseWsStrip o = o ∧ StrNE o ∧ ∀ c ∈ o, c ≠ '\n') ∧
    List.Chain' (fun a b => ¬(pyStrip b = ['-'])) (mergeHyphLoop l) := by
  rcases l with _ | ⟨p, rest⟩
  · exact ⟨by simp [mergeHyphLoop], by simp [mergeHyphLoop]⟩
  · obtain ⟨hall, hch, -⟩ := mergeHyphGo_establish p rest (hl p (by simp))
      (fun r hr => hl r (by simp [hr]))
    exact ⟨hall, hch⟩

theorem mergeHyph_list_idem (x : List Char) :
    List.intercalate ['\n', '\n'] (mergeHyphLoop (paraClean
      (List.intercalate ['\n', '\n'] (mergeHyphLoop (paraClean x))))) =
    List.intercalate ['\n', '\n'] (mergeHyphLoop (paraClean x)) := by
  obtain ⟨hall, hch⟩ := mergeHyphLoop_establish (paraClean x) (paraClean_StrNE x)
  rcases houts : mergeHyphLoop (paraClean x) with _ | ⟨o1, orest⟩
  · rfl
  · rw [houts] at hall hch
    have hpc : paraClean (List.intercalate ['\n', '\n'] (o1 :: orest)) =
        o1 :: orest := by
      refine paraClean_intercalate _ (by simp) ?_
      intro p hp
      exact ⟨(hall p hp).2.1, fun c hc hn => (hall p hp).2.2 c hc hn⟩
    rw [hpc]
    show List.intercalate ['\n', '\n'] (mergeHyphGo o1 orest) = _
    rw [mergeHyphGo_fixpoint orest o1 (fun o ho => (hall o ho).1) hch]

theorem merge_paragraphs_split_by_hyphen_idem (s : String) :
    merge_paragraphs_split_by_hyphen (merge_paragraphs_split_by_hyphen s) =
      merge_paragraphs_split_by_hyphen s :=
  congrArg (fun l => (⟨l⟩ : String)) (mergeHyph_list_idem s.data)

end OcrClean

namespace OcrClean

/-! ## Idempotence of `normalize_em_dashes`

The three dash matchers read only a window of whitespace/dash characters
plus the first character after it; scans pass such windows through
verbatim. -/

/-- Whitespace-or-hyphen: the character class the dash matchers examine. -/
def wsdash (c : Char) : Bool := isPySpace c || isDashChar c

theorem isPySpace_not_alpha (c : Char) (h : isPySpace c = true) :
    isAsciiAlpha c = false := by
  by_contra hne
  rw [Bool.not_eq_false] at hne
  unfold isAsciiAlpha at hne
  unfold isPySpace at h
  simp only [Bool.or_eq_true, Bool.and_eq_true, decide_eq_true_eq] at h hne
  have hz : c ≤ 'z' := by
    rcases hne with ⟨-, h2⟩ | ⟨-, h2⟩
    · exact le_trans h2 (by decide)
    · exact h2
  have ha : 'A' ≤ c := by
    rcases hne with ⟨h1, -⟩ | ⟨h1, -⟩
    · exact h1
    · exact le_trans (by decide) h1
  rcases h with (((((((((((((((((h|h)|h)|h)|h)|h)|h)|h)|h)|h)|h)|h)|h)|h)|h)|h)|h)|h)|h
  all_goals first
    | (subst h; exact absurd ha (by decide))
    | (subst h; exact absurd hz (by decide))
    | (exact absurd (le_trans h.1 hz) (by decide))

theorem wsdash_nonalpha (c : Char) (h : wsdash c = true) :
    isAsciiAlpha c = false := by
  unfold wsdash at h
  simp only [isDashChar, Bool.or_eq_true, decide_eq_true_eq] at h
  rcases h with h | ((h | h) | h)
  · exact isPySpace_not_alpha c h
  · subst h; decide
  · subst h; decide
  · subst h; decide

end OcrClean

namespace OcrClean

theorem takeWhile_append_not (P : Char → Bool) (d : Char) (hd : P d = false) :
    ∀ (w z : List Char), (w ++ d :: z).takeWhile P = w.takeWhile P := by
  intro w
  induction w with
  | nil =>
    intro z
    simp [List.takeWhile_cons, hd]
  | cons a w2 ih =>
    intro z
    rw [List.cons_append, List.takeWhile_cons, List.takeWhile_cons]
    split
    · rw [ih z]
    · rfl

theorem drop_takeWhile_append (P : Char → Bool) (d : Char) (hd : P d = false)
    (w z : List Char) :
    (w ++ d :: z).drop ((w ++ d :: z).takeWhile P).length =
      (w.drop (w.takeWhile P).length) ++ d :: z := by
  rw [takeWhile_append_not P d hd w z]
  have hle : (w.takeWhile P).length ≤ w.length := (List.takeWhile_sublist _).length_le
  rw [List.drop_append_of_le_length hle]

theorem take_all_le_takeWhile (P : Char → Bool) :
    ∀ (k : Nat) (x : List Char), k ≤ x.length → (∀ c ∈ x.take k, P c = true) →
      k ≤ (x.takeWhile P).length := by
  intro k
  induction k with
  | zero => intro x h1 h2; omega
  | succ k ih =>
    intro x h1 h2
    rcases x with _ | ⟨c, t⟩
    · simp at h1
    · have hc : P c = true := h2 c (by simp)
      rw [List.takeWhile_cons, if_pos hc]
      simp only [List.length_cons]
      have := ih t (by simpa using h1) (fun d hd => h2 d (by simp [hd]))
      omega

theorem scanF_nil (m : RMatcher) (fuel : Nat) (p : Option Char) :
    subScanF m fuel p [] = [] := by
  rcases fuel with _ | fuel <;> rfl

theorem scanF_cons_none (m : RMatcher) (fuel : Nat) (p : Option Char)
    (c : Char) (rest : List Char) (h : m p (c :: rest) = none) :
    subScanF m (fuel + 1) p (c :: rest) = c :: subScanF m fuel (some c) rest := by
  rw [subScanF, h]

theorem nonalpha_prefix_walk (m : RMatcher)
    (hm : ∀ p cs, (∀ c, p = some c → isAsciiAlpha c = false) → m p cs = none) :
    ∀ (w : List Char) (fuel : Nat) (p : Option Char) (rest : List Char),
      (w ++ rest).length < fuel →
      (∀ c, p = some c → isAsciiAlpha c = false) →
      (∀ c ∈ w, isAsciiAlpha c = false) →
      subScanF m fuel p (w ++ rest) =
        w ++ subScanF m (fuel - w.length) (PrevOf p w) rest := by
  intro w
  induction w with
  | nil =>
    intro fuel p rest hlen hp hw
    simp [PrevOf]
  | cons c w2 ih =>
    intro fuel p rest hlen hp hw
    rcases fuel with _ | fuel
    · simp at hlen
    · have hc2 : ∀ d, (some c : Option Char) = some d → isAsciiAlpha d = false := by
        intro d hd
        rw [Option.some.injEq] at hd
        rw [← hd]
        exact hw c (by simp)
      rw [List.cons_append,
        scanF_cons_none m fuel p c (w2 ++ rest) (hm p _ hp),
        ih fuel (some c) rest (by simpa using hlen) hc2
          (fun d hd => hw d (by simp [hd]))]
      simp only [List.cons_append, List.length_cons, PrevOf_cons]
      have harith : fuel + 1 - (w2.length + 1) = fuel - w2.length := by omega
      rw [harith]

/-- No match anywhere along `l`, scanning with initial look-behind `p`. -/
def NoM (m : RMatcher) (p : Option Char) (l : List Char) : Prop :=
  ∀ a b, a ++ b = l → m (PrevOf p a) b = none

theorem noM_cons (m : RMatcher) (p : Option Char) (c : Char) (l : List Char)
    (h1 : m p (c :: l) = none) (h2 : NoM m (some c) l) : NoM m p (c :: l) := by
  intro a b hab
  rcases a with _ | ⟨a0, a2⟩
  · simp at hab
    rw [hab]
    simpa [PrevOf] using h1
  · simp only [List.cons_append, List.cons.injEq] at hab
    obtain ⟨rfl, hab⟩ := hab
    rw [PrevOf_cons]
    exact h2 a2 b hab

theorem NoM_hd {m : RMatcher} {p : Option Char} {c : Char} {l : List Char}
    (h : NoM m p (c :: l)) : m p (c :: l) = none := by
  have := h [] (c :: l) rfl
  simpa [PrevOf] using this

theorem NoM_tl {m : RMatcher} {p : Option Char} {c : Char} {l : List Char}
    (h : NoM m p (c :: l)) : NoM m (some c) l := by
  intro a b hab
  have := h (c :: a) b (by rw [List.cons_append, hab])
  rwa [PrevOf_cons] at this

theorem NoM_dr {m : RMatcher} {p : Option Char} {u v : List Char}
    (h : NoM m p (u ++ v)) : NoM m (PrevOf p u) v := by
  intro a b hab
  have := h (u ++ a) b (by rw [List.append_assoc, hab])
  rwa [PrevOf_append] at this

theorem NoM_nil (m : RMatcher) (p : Option Char) (h : m p [] = none) :
    NoM m p [] := by
  intro a b hab
  rcases List.append_eq_nil.mp hab with ⟨rfl, rfl⟩
  simpa [PrevOf] using h

theorem NoM_prev_congr {m : RMatcher} {l : List Char} (p p' : Option Char)
    (hcong : ∀ cs, m p cs = m p' cs) (h : NoM m p l) : NoM m p' l := by
  intro a b hab
  rcases a with _ | ⟨a0, a2⟩
  · have := h [] b hab
    simp only [PrevOf, List.getLast?_nil] at this ⊢
    rw [← hcong b]
    exact this
  · have := h (a0 :: a2) b hab
    rw [PrevOf_cons] at this ⊢
    exact this

/-- Every match along `l` (look-behind `p`) replaces a segment by itself. -/
def CanonM (m : RMatcher) (p : Option Char) (l : List Char) : Prop :=
  ∀ a b repl k, a ++ b = l → m (PrevOf p a) b = some (repl, k) →
    repl = List.take k b

theorem canonM_cons (m : RMatcher) (p : Option Char) (c : Char) (l : List Char)
    (h1 : ∀ repl k, m p (c :: l) = some (repl, k) → repl = List.take k (c :: l))
    (h2 : CanonM m (some c) l) : CanonM m p (c :: l) := by
  intro a b repl k hab hm
  rcases a with _ | ⟨a0, a2⟩
  · simp at hab
    subst hab
    refine h1 repl k ?_
    simpa [PrevOf] using hm
  · simp only [List.cons_append, List.cons.injEq] at hab
    obtain ⟨rfl, hab⟩ := hab
    rw [PrevOf_cons] at hm
    exact h2 a2 b repl k hab hm

theorem CanonM_hd {m : RMatcher} {p : Option Char} {c : Char} {l : List Char}
    (h : CanonM m p (c :: l)) :
    ∀ repl k, m p (c :: l) = some (repl, k) → repl = List.take k (c :: l) := by
  intro repl k hm
  refine h [] (c :: l) repl k rfl ?_
  simpa [PrevOf] using hm

theorem CanonM_tl {m : RMatcher} {p : Option Char} {c : Char} {l : List Char}
    (h : CanonM m p (c :: l)) : CanonM m (some c) l := by
  intro a b repl k hab hm
  refine h (c :: a) b repl k (by rw [List.cons_append, hab]) ?_
  rwa [PrevOf_cons]

theorem CanonM_dr {m : RMatcher} {p : Option Char} {u v : List Char}
    (h : CanonM m p (u ++ v)) : CanonM m (PrevOf p u) v := by
  intro a b repl k hab hm
  refine h (u ++ a) b repl k (by rw [List.append_assoc, hab]) ?_
  rwa [PrevOf_append]

theorem CanonM_nil (m : RMatcher) (p : Option Char) (h : m p [] = none) :
    CanonM m p [] := by
  intro a b repl k hab hm
  rcases List.append_eq_nil.mp hab with ⟨rfl, rfl⟩
  simp only [PrevOf, List.getLast?_nil] at hm
  rw [h] at hm
  simp at hm

theorem CanonM_prev_congr {m : RMatcher} {l : List Char} (p p' : Option Char)
    (hcong : ∀ cs, m p cs = m p' cs) (h : CanonM m p l) : CanonM m p' l := by
  intro a b repl k hab hm
  rcases a with _ | ⟨a0, a2⟩
  · simp only [PrevOf, List.getLast?_nil] at hm ⊢
    rw [← hcong b] at hm
    exact h [] b repl k hab hm
  · rw [PrevOf_cons] at hm
    have := h (a0 :: a2) b repl k hab
    rw [PrevOf_cons] at this
    exact this hm

end OcrClean

namespace OcrClean

/-! Basic facts about the three dash matchers. -/

theorem wsdash_not_space {d : Char} (hd : wsdash d = false) :
    isPySpace d = false := by
  unfold wsdash at hd
  rcases h : isPySpace d
  · rfl
  · rw [h] at hd; simp at hd

theorem wsdash_not_dashc {d : Char} (hd : wsdash d = false) :
    isDashChar d = false := by
  unfold wsdash at hd
  rcases h : isDashChar d
  · rfl
  · rw [h] at hd; simp at hd

theorem wsdash_not_hyph {d : Char} (hd : wsdash d = false) : d ≠ '-' := by
  intro h
  subst h
  have := wsdash_not_dashc hd
  simp [isDashChar] at this

theorem mDash1_nonalpha (p : Option Char) (cs : List Char)
    (hp : ∀ c, p = some c → isAsciiAlpha c = false) : mDash1 p cs = none := by
  rcases p with _ | a
  · rfl
  · unfold mDash1
    dsimp only
    rw [hp a rfl]
    rfl

theorem mDash2_nonalpha (p : Option Char) (cs : List Char)
    (hp : ∀ c, p = some c → isAsciiAlpha c = false) : mDash2 p cs = none := by
  rcases p with _ | a
  · rfl
  · unfold mDash2
    dsimp only
    rw [hp a rfl]
    rfl

theorem mDash3_nonalpha (p : Option Char) (cs : List Char)
    (hp : ∀ c, p = some c → isAsciiAlpha c = false) : mDash3 p cs = none := by
  rcases p with _ | a
  · rfl
  · unfold mDash3
    dsimp only
    rw [hp a rfl]
    rfl

theorem mDash1_head_nd (p : Option Char) (c : Char) (l : List Char)
    (hc : c ≠ '-') : mDash1 p (c :: l) = none := by
  rcases p with _ | a
  · rfl
  · unfold mDash1
    dsimp only
    rcases ha : isAsciiAlpha a
    · rfl
    · have ht : (c :: l).takeWhile (fun c => c = '-') = [] := by
        rw [List.takeWhile_cons, if_neg (by simp [hc])]
      rw [ht]
      simp

theorem mDash2_head_nws (p : Option Char) (c : Char) (l : List Char)
    (hc : isPySpace c = false) : mDash2 p (c :: l) = none := by
  rcases p with _ | a
  · rfl
  · unfold mDash2
    dsimp only
    rcases ha : isAsciiAlpha a
    · rfl
    · have ht : (c :: l).takeWhile isPySpace = [] := by
        rw [List.takeWhile_cons, if_neg (by simp [hc])]
      rw [ht]
      simp

theorem mDash3_head (p : Option Char) (c : Char) (l : List Char)
    (hws : isPySpace c = false) (hc : c ≠ '-') : mDash3 p (c :: l) = none := by
  rcases p with _ | a
  · rfl
  · unfold mDash3
    dsimp only
    rcases ha : isAsciiAlpha a
    · rfl
    · have ht : (c :: l).takeWhile isPySpace = [] := by
        rw [List.takeWhile_cons, if_neg (by simp [hws])]
      rw [ht]
      simp only [List.length_nil, List.drop_zero]
      have ht2 : (c :: l).takeWhile (fun c => c = '-') = [] := by
        rw [List.takeWhile_cons, if_neg (by simp [hc])]
      rw [ht2]
      simp

theorem mDash1_nil (p : Option Char) : mDash1 p [] = none := by
  rcases p with _ | a
  · rfl
  · unfold mDash1
    dsimp only
    rcases ha : isAsciiAlpha a <;> rfl

theorem mDash2_nil (p : Option Char) : mDash2 p [] = none := by
  rcases p with _ | a
  · rfl
  · unfold mDash2
    dsimp only
    rcases ha : isAsciiAlpha a <;> rfl

theorem mDash3_nil (p : Option Char) : mDash3 p [] = none := by
  rcases p with _ | a
  · rfl
  · unfold mDash3
    dsimp only
    rcases ha : isAsciiAlpha a <;> rfl

end OcrClean

namespace OcrClean

/-! The dash matchers read only the leading whitespace/dash window plus one
character: their result does not depend on anything past that. -/

theorem mDash1_window (p : Option Char) (w : List Char) (d : Char)
    (z1 z2 : List Char) (hd : wsdash d = false) :
    mDash1 p (w ++ d :: z1) = mDash1 p (w ++ d :: z2) := by
  rcases p with _ | a
  · rfl
  · unfold mDash1
    dsimp only
    rcases ha : isAsciiAlpha a
    · rfl
    · have hdnd : decide (d = '-') = false := by simp [wsdash_not_hyph hd]
      rw [takeWhile_append_not _ d hdnd w z1, takeWhile_append_not _ d hdnd w z2]
      by_cases hlen : (w.takeWhile (fun c => c = '-')).length < 2
      · rw [if_pos hlen, if_pos hlen]
      · rw [if_neg hlen, if_neg hlen]
        have hle : (w.takeWhile (fun c => c = '-')).length ≤ w.length :=
          (List.takeWhile_sublist _).length_le
        rw [List.drop_append_of_le_length hle, List.drop_append_of_le_length hle]
        rcases hrem : w.drop (w.takeWhile (fun c => c = '-')).length with _ | ⟨e, t⟩
        · rfl
        · rfl

theorem mDash2_after_a (e : Char) (t : List Char) (d : Char)
    (z1 z2 : List Char) (hdws : isPySpace d = false) (K : Nat) :
    (match (e :: t) ++ d :: z1 with
     | dd :: r2 =>
       if (!isDashChar dd) = true then none
       else if (r2.takeWhile isPySpace).isEmpty = true then none
       else match r2.drop (r2.takeWhile isPySpace).length with
         | c :: _ => if isAsciiAlpha c = true then
             some (([' ', '—', ' '] : List Char),
               K + 1 + (r2.takeWhile isPySpace).length) else none
         | [] => none
     | [] => none) =
    (match (e :: t) ++ d :: z2 with
     | dd :: r2 =>
       if (!isDashChar dd) = true then none
       else if (r2.takeWhile isPySpace).isEmpty = true then none
       else match r2.drop (r2.takeWhile isPySpace).length with
         | c :: _ => if isAsciiAlpha c = true then
             some (([' ', '—', ' '] : List Char),
               K + 1 + (r2.takeWhile isPySpace).length) else none
         | [] => none
     | [] => none) := by
  simp only [List.cons_append]
  rcases hde : isDashChar e
  · rfl
  · simp only [Bool.not_true]
    rw [if_neg Bool.false_ne_true, if_neg Bool.false_ne_true]
    rw [takeWhile_append_not _ d hdws t z1, takeWhile_append_not _ d hdws t z2]
    by_cases hbe : (t.takeWhile isPySpace).isEmpty = true
    · rw [if_pos hbe, if_pos hbe]
    · rw [if_neg hbe, if_neg hbe]
      have hle2 : (t.takeWhile isPySpace).length ≤ t.length :=
        (List.takeWhile_sublist _).length_le
      rw [List.drop_append_of_le_length hle2, List.drop_append_of_le_length hle2]
      rcases hrem2 : t.drop (t.takeWhile isPySpace).length with _ | ⟨f, u⟩
      · rfl
      · rfl

theorem mDash2_window (p : Option Char) (w : List Char) (d : Char)
    (z1 z2 : List Char) (hd : wsdash d = false) :
    mDash2 p (w ++ d :: z1) = mDash2 p (w ++ d :: z2) := by
  rcases p with _ | a
  · rfl
  · unfold mDash2
    dsimp only
    rcases ha : isAsciiAlpha a
    · rfl
    · have hdws : isPySpace d = false := wsdash_not_space hd
      rw [takeWhile_append_not _ d hdws w z1, takeWhile_append_not _ d hdws w z2]
      by_cases hae : (w.takeWhile isPySpace).isEmpty = true
      · rw [if_pos hae, if_pos hae]
      · rw [if_neg hae, if_neg hae]
        have hle : (w.takeWhile isPySpace).length ≤ w.length :=
          (List.takeWhile_sublist _).length_le
        rw [List.drop_append_of_le_length hle, List.drop_append_of_le_length hle]
        rcases hrem : w.drop (w.takeWhile isPySpace).length with _ | ⟨e, t⟩
        · have hdd := wsdash_not_dashc hd
          simp [hdd]
        · exact mDash2_after_a e t d z1 z2 hdws (w.takeWhile isPySpace).length

theorem mDash3_window (p : Option Char) (w : List Char) (d : Char)
    (z1 z2 : List Char) (hd : wsdash d = false) :
    mDash3 p (w ++ d :: z1) = mDash3 p (w ++ d :: z2) := by
  rcases p with _ | a
  · rfl
  · unfold mDash3
    dsimp only
    rcases ha : isAsciiAlpha a
    · rfl
    · have hdws : isPySpace d = false := wsdash_not_space hd
      have hdnd : decide (d = '-') = false := by simp [wsdash_not_hyph hd]
      rw [takeWhile_append_not _ d hdws w z1, takeWhile_append_not _ d hdws w z2]
      have hle : (w.takeWhile isPySpace).length ≤ w.length :=
        (List.takeWhile_sublist _).length_le
      rw [List.drop_append_of_le_length hle, List.drop_append_of_le_length hle]
      rw [takeWhile_append_not _ d hdnd _ z1, takeWhile_append_not _ d hdnd _ z2]
      by_cases hlen :
          ((w.drop (w.takeWhile isPySpace).length).takeWhile
            (fun c => c = '-')).length < 2
      · rw [if_pos hlen, if_pos hlen]
      · rw [if_neg hlen, if_neg hlen]
        have hle2 : ((w.drop (w.takeWhile isPySpace).length).takeWhile
            (fun c => c = '-')).length ≤
            (w.drop (w.takeWhile isPySpace).length).length :=
          (List.takeWhile_sublist _).length_le
        rw [List.drop_append_of_le_length hle2, List.drop_append_of_le_length hle2]
        rw [takeWhile_append_not _ d hdws _ z1, takeWhile_append_not _ d hdws _ z2]
        have hle3 : (((w.drop (w.takeWhile isPySpace).length).drop
            ((w.drop (w.takeWhile isPySpace).length).takeWhile
              (fun c => c = '-')).length).takeWhile isPySpace).length ≤
            ((w.drop (w.takeWhile isPySpace).length).drop
            ((w.drop (w.takeWhile isPySpace).length).takeWhile
              (fun c => c = '-')).length).length :=
          (List.takeWhile_sublist _).length_le
        rw [List.drop_append_of_le_length hle3, List.drop_append_of_le_length hle3]
        rcases hrem : ((w.drop (w.takeWhile isPySpace).length).drop
            ((w.drop (w.takeWhile isPySpace).length).takeWhile
              (fun c => c = '-')).length).drop
            (((w.drop (w.takeWhile isPySpace).length).drop
            ((w.drop (w.takeWhile isPySpace).length).takeWhile
              (fun c => c = '-')).length).takeWhile isPySpace).length
            with _ | ⟨f, u⟩
        · rfl
        · rfl

end OcrClean

namespace OcrClean

/-! Shape of the dash matchers' successful matches: the consumed segment is
whitespace/dash characters ending in a non-letter. -/

theorem wsdash_of_space {c : Char} (h : isPySpace c = true) : wsdash c = true := by
  unfold wsdash
  simp [h]

theorem wsdash_of_dashc {c : Char} (h : isDashChar c = true) : wsdash c = true := by
  unfold wsdash
  simp [h]

theorem mDash1_shape (p : Option Char) (cs : List Char) (repl : List Char)
    (k : Nat) (h : mDash1 p cs = some (repl, k)) :
    repl = ['—'] ∧ 1 ≤ k ∧ k ≤ cs.length ∧
    (∀ c ∈ cs.take k, wsdash c = true) ∧
    (∀ d, (cs.take k).getLast? = some d → isAsciiAlpha d = false) := by
  rcases p with _ | a
  · simp [mDash1] at h
  · unfold mDash1 at h
    dsimp only at h
    split at h
    · simp at h
    · split at h
      case isTrue => simp at h
      case isFalse hlen =>
        split at h
        case h_2 => simp at h
        case h_1 e rest heq =>
          split at h
          case isFalse => simp at h
          case isTrue halpha =>
            simp only [Option.some.injEq, Prod.mk.injEq] at h
            obtain ⟨hrepl, hk⟩ := h
            have htake : cs.take k = cs.takeWhile (fun c => c = '-') := by
              rw [← hk]
              exact takeWhile_length_take _ cs
            refine ⟨hrepl.symm, by omega, ?_, ?_, ?_⟩
            · rw [← hk]
              exact (List.takeWhile_sublist _).length_le
            · intro c hc
              rw [htake] at hc
              have := List.mem_takeWhile_imp hc
              simp only [decide_eq_true_eq] at this
              subst this
              decide
            · intro d hd
              rw [htake] at hd
              have hmem := mem_of_getLast?_eq _ d hd
              have := List.mem_takeWhile_imp hmem
              simp only [decide_eq_true_eq] at this
              subst this
              decide

theorem mDash2_shape (p : Option Char) (cs : List Char) (repl : List Char)
    (k : Nat) (h : mDash2 p cs = some (repl, k)) :
    repl = [' ', '—', ' '] ∧ 1 ≤ k ∧ k ≤ cs.length ∧
    (∀ c ∈ cs.take k, wsdash c = true) ∧
    (∀ d, (cs.take k).getLast? = some d → isAsciiAlpha d = false) ∧
    (∃ α r2, cs.drop k = α :: r2 ∧ isAsciiAlpha α = true) := by
  rcases p with _ | a
  · simp [mDash2] at h
  · unfold mDash2 at h
    dsimp only at h
    split at h
    · simp at h
    · split at h
      case isTrue => simp at h
      case isFalse hane =>
        split at h
        case h_2 => simp at h
        case h_1 d r2 heq1 =>
          split at h
          case isTrue => simp at h
          case isFalse hdash =>
            split at h
            case isTrue => simp at h
            case isFalse hbne =>
              split at h
              case h_2 => simp at h
              case h_1 α r3 heq2 =>
                split at h
                case isFalse => simp at h
                case isTrue halpha =>
                  simp only [Option.some.injEq, Prod.mk.injEq] at h
                  obtain ⟨hrepl, hk⟩ := h
                  have hdd : isDashChar d = true := by
                    rcases hdc : isDashChar d
                    · rw [hdc] at hdash; simp at hdash
                    · rfl
                  have hcs : cs = cs.takeWhile isPySpace ++ d :: r2 := by
                    conv_lhs => rw [← List.take_append_drop
                      (cs.takeWhile isPySpace).length cs]
                    rw [takeWhile_length_take isPySpace cs, heq1]
                  have hr2 : r2 = r2.takeWhile isPySpace ++ α :: r3 := by
                    conv_lhs => rw [← List.take_append_drop
                      (r2.takeWhile isPySpace).length r2]
                    rw [takeWhile_length_take isPySpace r2, heq2]
                  have hcs2 : cs = (cs.takeWhile isPySpace ++
                      d :: r2.takeWhile isPySpace) ++ α :: r3 := by
                    conv_lhs => rw [hcs]
                    conv_lhs => rw [hr2]
                    simp
                  have hklen : k = (cs.takeWhile isPySpace ++
                      d :: r2.takeWhile isPySpace).length := by
                    rw [← hk]
                    simp only [List.length_append, List.length_cons]
                    omega
                  have htake : cs.take k = cs.takeWhile isPySpace ++
                      d :: r2.takeWhile isPySpace := by
                    conv_lhs => rw [hcs2, hklen]
                    exact List.take_left _ _
                  have hdropk : cs.drop k = α :: r3 := by
                    conv_lhs => rw [hcs2, hklen]
                    exact List.drop_left _ _
                  refine ⟨hrepl.symm, by omega, ?_, ?_, ?_, α, r3, hdropk, halpha⟩
                  · have := congrArg List.length hcs2
                    simp only [List.length_append, List.length_cons] at this
                    omega
                  · intro c hc
                    rw [htake] at hc
                    rcases List.mem_append.mp hc with hc | hc
                    · exact wsdash_of_space (List.mem_takeWhile_imp hc)
                    · rcases List.mem_cons.mp hc with rfl | hc
                      · exact wsdash_of_dashc hdd
                      · exact wsdash_of_space (List.mem_takeWhile_imp hc)
                  · intro e he
                    rw [htake] at he
                    have hbne2 : r2.takeWhile isPySpace ≠ [] := by
                      intro hb
                      rw [hb] at hbne
                      simp at hbne
                    rw [getLast?_append_right _ _ (by simp),
                      getLast?_cons_of_ne_nil _ _ hbne2] at he
                    have hmem := mem_of_getLast?_eq _ e he
                    exact isPySpace_not_alpha e (List.mem_takeWhile_imp hmem)

theorem mDash3_shape (p : Option Char) (cs : List Char) (repl : List Char)
    (k : Nat) (h : mDash3 p cs = some (repl, k)) :
    repl = ['—'] ∧ 1 ≤ k ∧ k ≤ cs.length ∧
    (∀ c ∈ cs.take k, wsdash c = true) ∧
    (∀ d, (cs.take k).getLast? = some d → isAsciiAlpha d = false) := by
  rcases p with _ | a
  · simp [mDash3] at h
  · unfold mDash3 at h
    dsimp only at h
    split at h
    · simp at h
    · split at h
      case isTrue => simp at h
      case isFalse hlen =>
        split at h
        case h_2 => simp at h
        case h_1 α r3 heq2 =>
          split at h
          case isFalse => simp at h
          case isTrue halpha =>
            simp only [Option.some.injEq, Prod.mk.injEq] at h
            obtain ⟨hrepl, hk⟩ := h
            have hcs : cs = cs.takeWhile isPySpace ++
                (cs.drop (cs.takeWhile isPySpace).length) := by
              conv_lhs => rw [← List.take_append_drop
                (cs.takeWhile isPySpace).length cs]
              rw [takeWhile_length_take isPySpace cs]
            have hX : cs.drop (cs.takeWhile isPySpace).length =
                (cs.drop (cs.takeWhile isPySpace).length).takeWhile
                  (fun c => c = '-') ++
                ((cs.drop (cs.takeWhile isPySpace).length).drop
                  ((cs.drop (cs.takeWhile isPySpace).length).takeWhile
                    (fun c => c = '-')).length) := by
              conv_lhs => rw [← List.take_append_drop
                ((cs.drop (cs.takeWhile isPySpace).length).takeWhile
                  (fun c => c = '-')).length
                (cs.drop (cs.takeWhile isPySpace).length)]
              rw [takeWhile_length_take]
            have hX2 : (cs.drop (cs.takeWhile isPySpace).length).drop
                ((cs.drop (cs.takeWhile isPySpace).length).takeWhile
                  (fun c => c = '-')).length =
                ((cs.drop (cs.takeWhile isPySpace).length).drop
                  ((cs.drop (cs.takeWhile isPySpace).length).takeWhile
                    (fun c => c = '-')).length).takeWhile isPySpace ++
                α :: r3 := by
              conv_lhs => rw [← List.take_append_drop
                (((cs.drop (cs.takeWhile isPySpace).length).drop
                  ((cs.drop (cs.takeWhile isPySpace).length).takeWhile
                    (fun c => c = '-')).length).takeWhile isPySpace).length
                ((cs.drop (cs.takeWhile isPySpace).length).drop
                  ((cs.drop (cs.takeWhile isPySpace).length).takeWhile
                    (fun c => c = '-')).length)]
              rw [takeWhile_length_take, heq2]
            have hcs2 : cs = (cs.takeWhile isPySpace ++
                ((cs.drop (cs.takeWhile isPySpace).length).takeWhile
                  (fun c => c = '-') ++
                 ((cs.drop (cs.takeWhile isPySpace).length).drop
                  ((cs.drop (cs.takeWhile isPySpace).length).takeWhile
                    (fun c => c = '-')).length).takeWhile isPySpace)) ++
                α :: r3 := by
              conv_lhs => rw [hcs]
              conv_lhs => rw [hX]
              conv_lhs => rw [hX2]
              simp
            have hklen : k = (cs.takeWhile isPySpace ++
                ((cs.drop (cs.takeWhile isPySpace).length).takeWhile
                  (fun c => c = '-') ++
                 ((cs.drop (cs.takeWhile isPySpace).length).drop
                  ((cs.drop (cs.takeWhile isPySpace).length).takeWhile
                    (fun c => c = '-')).length).takeWhile isPySpace)).length := by
              rw [← hk]
              simp only [List.length_append]
              omega
            have htake : cs.take k = cs.takeWhile isPySpace ++
                ((cs.drop (cs.takeWhile isPySpace).length).takeWhile
                  (fun c => c = '-') ++
                 ((cs.drop (cs.takeWhile isPySpace).length).drop
                  ((cs.drop (cs.takeWhile isPySpace).length).takeWhile
                    (fun c => c = '-')).length).takeWhile isPySpace) := by
              conv_lhs => rw [hcs2, hklen]
              exact List.take_left _ _
            refine ⟨hrepl.symm, by omega, ?_, ?_, ?_⟩
            · have := congrArg List.length hcs2
              simp only [List.length_append, List.length_cons] at this
              omega
            · intro c hc
              rw [htake] at hc
              rcases List.mem_append.mp hc with hc | hc
              · exact wsdash_of_space (List.mem_takeWhile_imp hc)
              · rcases List.mem_append.mp hc with hc | hc
                · have := List.mem_takeWhile_imp hc
                  simp only [decide_eq_true_eq] at this
                  subst this
                  decide
                · exact wsdash_of_space (List.mem_takeWhile_imp hc)
            · intro e he
              rw [htake] at he
              have hhne : (cs.drop (cs.takeWhile isPySpace).length).takeWhile
                  (fun c => c = '-') ≠ [] := by
                intro hb
                rw [hb] at hlen
                simp at hlen
              rcases hbe : ((cs.drop (cs.takeWhile isPySpace).length).drop
                  ((cs.drop (cs.takeWhile isPySpace).length).takeWhile
                    (fun c => c = '-')).length).takeWhile isPySpace with _ | ⟨f, bs⟩
              · rw [hbe, List.append_nil, getLast?_append_right _ _ hhne] at he
                have hmem := mem_of_getLast?_eq _ e he
                have := List.mem_takeWhile_imp hmem
                simp only [decide_eq_true_eq] at this
                subst this
                decide
              · rw [hbe, getLast?_append_right _ _ (by simp),
                  getLast?_append_right _ _ (by simp)] at he
                have hmem := mem_of_getLast?_eq _ e he
                rw [← hbe] at hmem
                exact isPySpace_not_alpha e (List.mem_takeWhile_imp hmem)

end OcrClean

namespace OcrClean

/-! Transfer: a matcher that only reads its whitespace/dash window and the
next character cannot start matching on a scanned tail if it did not match
on the original tail. -/

theorem drop_takeWhile_head_not (P : Char → Bool) :
    ∀ (l : List Char) (d : Char) (r : List Char),
      l.drop (l.takeWhile P).length = d :: r → P d = false := by
  intro l
  induction l with
  | nil => intro d r h; simp at h
  | cons c t ih =>
    intro d r h
    rcases hc : P c
    · rw [List.takeWhile_cons, if_neg (by simp [hc])] at h
      simp only [List.length_nil, List.drop_zero, List.cons.injEq] at h
      obtain ⟨rfl, rfl⟩ := h
      exact hc
    · rw [List.takeWhile_cons, if_pos hc] at h
      simp only [List.length_cons, List.drop_succ_cons] at h
      exact ih d r h

theorem exists_getLast?_of_ne_nil (l : List Char) (h : l ≠ []) :
    ∃ d, l.getLast? = some d := by
  rcases List.eq_nil_or_concat l with rfl | ⟨a, c, rfl⟩
  · simp at h
  · exact ⟨c, by simp [List.getLast?_concat]⟩

theorem PrevOf_eq_getLast (p : Option Char) (l : List Char) (d : Char)
    (hd : l.getLast? = some d) : PrevOf p l = some d := by
  unfold PrevOf
  rw [hd]

theorem newPrevAfter_nonalpha (p : Option Char) (cs : List Char) (k : Nat)
    (hk : 1 ≤ k) (hkl : k ≤ cs.length)
    (hlast : ∀ d, (cs.take k).getLast? = some d → isAsciiAlpha d = false) :
    ∀ e, newPrevAfter p cs k = some e → isAsciiAlpha e = false := by
  have hne : cs.take k ≠ [] := by
    intro hnil
    have := congrArg List.length hnil
    simp only [List.length_take, List.length_nil] at this
    omega
  obtain ⟨d, hd⟩ := exists_getLast?_of_ne_nil _ hne
  intro e he
  rw [newPrevAfter_eq, PrevOf_eq_getLast p _ d hd] at he
  rw [Option.some.injEq] at he
  rw [← he]
  exact hlast d hd

theorem matcher_nonalpha_congr (m : RMatcher)
    (hm : ∀ p cs, (∀ c, p = some c → isAsciiAlpha c = false) → m p cs = none)
    (p q : Option Char)
    (hp : ∀ c, p = some c → isAsciiAlpha c = false)
    (hq : ∀ c, q = some c → isAsciiAlpha c = false) :
    ∀ cs, m p cs = m q cs := by
  intro cs
  rw [hm p cs hp, hm q cs hq]

theorem mDash1_head_nw (p : Option Char) (c : Char) (l : List Char)
    (hc : wsdash c = false) : mDash1 p (c :: l) = none :=
  mDash1_head_nd p c l (wsdash_not_hyph hc)

theorem mDash2_head_nw (p : Option Char) (c : Char) (l : List Char)
    (hc : wsdash c = false) : mDash2 p (c :: l) = none :=
  mDash2_head_nws p c l (wsdash_not_space hc)

theorem mDash3_head_nw (p : Option Char) (c : Char) (l : List Char)
    (hc : wsdash c = false) : mDash3 p (c :: l) = none :=
  mDash3_head p c l (wsdash_not_space hc) (wsdash_not_hyph hc)

theorem alpha_not_pySpace (c : Char) (h : isAsciiAlpha c = true) :
    isPySpace c = false := by
  rcases hs : isPySpace c
  · rfl
  · have h2 := isPySpace_not_alpha c hs
    rw [h] at h2
    exact h2

theorem PrevOf_wsdash (c : Char) (hc : wsdash c = true) (w : List Char)
    (hw : ∀ e ∈ w, wsdash e = true) :
    ∀ e, PrevOf (some c) w = some e → wsdash e = true := by
  intro e he
  unfold PrevOf at he
  rcases hg : w.getLast? with _ | g
  · rw [hg] at he
    rw [Option.some.injEq] at he
    rw [← he]
    exact hc
  · rw [hg] at he
    rw [Option.some.injEq] at he
    rw [← he]
    exact hw g (mem_of_getLast?_eq w g hg)

theorem window_head_transfer (ms mp : RMatcher)
    (hms : ∀ p cs, (∀ c, p = some c → isAsciiAlpha c = false) → ms p cs = none)
    (hwin : ∀ (p : Option Char) (w : List Char) (d : Char) (z1 z2 : List Char),
      wsdash d = false → mp p (w ++ d :: z1) = mp p (w ++ d :: z2))
    (hhead : ∀ (p : Option Char) (c : Char) (l : List Char),
      wsdash c = false → mp p (c :: l) = none)
    (p : Option Char) (c : Char) (rest : List Char) (fuel : Nat)
    (hfuel : rest.length < fuel)
    (h : mp p (c :: rest) = none) :
    mp p (c :: subScanF ms fuel (some c) rest) = none := by
  rcases hc : wsdash c
  · exact hhead p c _ hc
  · have hcna : ∀ e, (some c : Option Char) = some e → isAsciiAlpha e = false := by
      intro e he
      rw [Option.some.injEq] at he
      rw [← he]
      exact wsdash_nonalpha c hc
    have hdecomp : rest = rest.takeWhile wsdash ++
        rest.drop (rest.takeWhile wsdash).length := by
      conv_lhs => rw [← List.take_append_drop (rest.takeWhile wsdash).length rest]
      rw [takeWhile_length_take]
    rcases hdr : rest.drop (rest.takeWhile wsdash).length with _ | ⟨d, r⟩
    · have hrw : rest = rest.takeWhile wsdash := by
        conv_lhs => rw [hdecomp]
        rw [hdr, List.append_nil]
      have hwalk := nonalpha_prefix_walk ms hms rest fuel (some c) []
        (by rw [List.append_nil]; exact hfuel) hcna
        (fun e he => wsdash_nonalpha e (List.mem_takeWhile_imp (hrw ▸ he)))
      rw [List.append_nil] at hwalk
      rw [hwalk, scanF_nil, List.append_nil]
      exact h
    · have hd : wsdash d = false := drop_takeWhile_head_not wsdash rest d r hdr
      have hdecomp2 : rest = rest.takeWhile wsdash ++ d :: r := by
        conv_lhs => rw [hdecomp]
        rw [hdr]
      have hwmem : ∀ e ∈ rest.takeWhile wsdash, isAsciiAlpha e = false :=
        fun e he => wsdash_nonalpha e (List.mem_takeWhile_imp he)
      have hwalk := nonalpha_prefix_walk ms hms (rest.takeWhile wsdash) fuel
        (some c) (d :: r) (by rw [← hdecomp2]; exact hfuel) hcna hwmem
      have hpv : ∀ e, PrevOf (some c) (rest.takeWhile wsdash) = some e →
          isAsciiAlpha e = false := by
        intro e he
        exact wsdash_nonalpha e (PrevOf_wsdash c hc _
          (fun g hg => List.mem_takeWhile_imp hg) e he)
      have hlen2 : (d :: r).length < fuel - (rest.takeWhile wsdash).length := by
        have hlen := congrArg List.length hdecomp2
        simp only [List.length_append, List.length_cons] at hlen
        simp only [List.length_cons]
        omega
      rcases hf : fuel - (rest.takeWhile wsdash).length with _ | f2
      · rw [hf] at hlen2
        simp at hlen2
      · rw [hf] at hwalk
        have hstep : subScanF ms (f2 + 1)
            (PrevOf (some c) (rest.takeWhile wsdash)) (d :: r) =
            d :: subScanF ms f2 (some d) r :=
          scanF_cons_none ms f2 _ d r (hms _ _ hpv)
        conv_lhs => rw [hdecomp2]
        rw [hwalk, hstep]
        have hgoal := hwin p (c :: rest.takeWhile wsdash) d
          (subScanF ms f2 (some d) r) r hd
        simp only [List.cons_append] at hgoal
        rw [hgoal]
        rw [hdecomp2] at h
        exact h

end OcrClean

namespace OcrClean

/-! A pass never re-matches: after scanning with `mDash1` (resp. `mDash3`)
there is no match of that matcher anywhere in the output. -/

theorem NoM_scan_id (m : RMatcher) :
    ∀ (fuel : Nat) (p : Option Char) (l : List Char),
      NoM m p l → subScanF m fuel p l = l := by
  intro fuel
  induction fuel with
  | zero => intro p l _; rfl
  | succ fuel ih =>
    intro p l h
    rcases l with _ | ⟨c, rest⟩
    · rfl
    · rw [scanF_cons_none m fuel p c rest (NoM_hd h), ih (some c) rest (NoM_tl h)]

theorem mDash1_scan_noM : ∀ (fuel : Nat) (p : Option Char) (l : List Char),
    l.length < fuel → NoM mDash1 p (subScanF mDash1 fuel p l) := by
  intro fuel
  induction fuel using Nat.strong_induction_on with
  | _ fuel ih =>
    intro p l hlen
    rcases fuel with _ | f
    · omega
    · rcases l with _ | ⟨c, rest⟩
      · rw [scanF_nil]
        exact NoM_nil _ _ (mDash1_nil p)
      · have hrl : rest.length < f := by
          simp only [List.length_cons] at hlen
          omega
        rcases hm : mDash1 p (c :: rest) with _ | ⟨repl, k⟩
        · rw [scanF_cons_none _ _ _ _ _ hm]
          exact noM_cons _ _ _ _
            (window_head_transfer mDash1 mDash1 mDash1_nonalpha
              mDash1_window mDash1_head_nw p c rest f hrl hm)
            (ih f (by omega) (some c) rest hrl)
        · obtain ⟨hrepl, hk1, hkl, hwk, hlast⟩ := mDash1_shape p (c :: rest) repl k hm
          have hdl : ((c :: rest).drop k).length < f := by
            simp only [List.length_drop, List.length_cons]
            simp only [List.length_cons] at hlen
            omega
          have hrec := ih f (by omega) (newPrevAfter p (c :: rest) k)
            ((c :: rest).drop k) hdl
          have hp' := newPrevAfter_nonalpha p (c :: rest) k hk1 hkl hlast
          have hcong := matcher_nonalpha_congr mDash1 mDash1_nonalpha
            (newPrevAfter p (c :: rest) k) (some '—') hp'
            (fun e he => by rw [Option.some.injEq] at he; rw [← he]; decide)
          have hrec2 := NoM_prev_congr _ _ hcong hrec
          rw [subScanF, hm]
          dsimp only
          subst hrepl
          simp only [List.cons_append, List.nil_append]
          exact noM_cons _ _ _ _ (mDash1_head_nd p '—' _ (by decide)) hrec2

theorem mDash3_scan_noM : ∀ (fuel : Nat) (p : Option Char) (l : List Char),
    l.length < fuel → NoM mDash3 p (subScanF mDash3 fuel p l) := by
  intro fuel
  induction fuel using Nat.strong_induction_on with
  | _ fuel ih =>
    intro p l hlen
    rcases fuel with _ | f
    · omega
    · rcases l with _ | ⟨c, rest⟩
      · rw [scanF_nil]
        exact NoM_nil _ _ (mDash3_nil p)
      · have hrl : rest.length < f := by
          simp only [List.length_cons] at hlen
          omega
        rcases hm : mDash3 p (c :: rest) with _ | ⟨repl, k⟩
        · rw [scanF_cons_none _ _ _ _ _ hm]
          exact noM_cons _ _ _ _
            (window_head_transfer mDash3 mDash3 mDash3_nonalpha
              mDash3_window mDash3_head_nw p c rest f hrl hm)
            (ih f (by omega) (some c) rest hrl)
        · obtain ⟨hrepl, hk1, hkl, hwk, hlast⟩ := mDash3_shape p (c :: rest) repl k hm
          have hdl : ((c :: rest).drop k).length < f := by
            simp only [List.length_drop, List.length_cons]
            simp only [List.length_cons] at hlen
            omega
          have hrec := ih f (by omega) (newPrevAfter p (c :: rest) k)
            ((c :: rest).drop k) hdl
          have hp' := newPrevAfter_nonalpha p (c :: rest) k hk1 hkl hlast
          have hcong := matcher_nonalpha_congr mDash3 mDash3_nonalpha
            (newPrevAfter p (c :: rest) k) (some '—') hp'
            (fun e he => by rw [Option.some.injEq] at he; rw [← he]; decide)
          have hrec2 := NoM_prev_congr _ _ hcong hrec
          rw [subScanF, hm]
          dsimp only
          subst hrepl
          simp only [List.cons_append, List.nil_append]
          exact noM_cons _ _ _ _
            (mDash3_head p '—' _ (by decide) (by decide)) hrec2

end OcrClean

namespace OcrClean

/-! The later dash passes do not create matches for the earlier matchers. -/

theorem mDash2_scan_pres_noM1 : ∀ (fuel : Nat) (p : Option Char) (l : List Char),
    l.length < fuel → NoM mDash1 p l →
    NoM mDash1 p (subScanF mDash2 fuel p l) := by
  intro fuel
  induction fuel using Nat.strong_induction_on with
  | _ fuel ih =>
    intro p l hlen hno
    rcases fuel with _ | f
    · omega
    · rcases l with _ | ⟨c, rest⟩
      · rw [scanF_nil]
        exact hno
      · have hrl : rest.length < f := by
          simp only [List.length_cons] at hlen
          omega
        rcases hm : mDash2 p (c :: rest) with _ | ⟨repl, k⟩
        · rw [scanF_cons_none _ _ _ _ _ hm]
          exact noM_cons _ _ _ _
            (window_head_transfer mDash2 mDash1 mDash2_nonalpha
              mDash1_window mDash1_head_nw p c rest f hrl (NoM_hd hno))
            (ih f (by omega) (some c) rest hrl (NoM_tl hno))
        · obtain ⟨hrepl, hk1, hkl, hwk, hlast, α, r2, hdk, halpha⟩ :=
            mDash2_shape p (c :: rest) repl k hm
          have hdl : ((c :: rest).drop k).length < f := by
            simp only [List.length_drop, List.length_cons]
            simp only [List.length_cons] at hlen
            omega
          have hpre : NoM mDash1 (PrevOf p ((c :: rest).take k))
              ((c :: rest).drop k) := by
            apply NoM_dr
            rw [List.take_append_drop]
            exact hno
          rw [← newPrevAfter_eq] at hpre
          have hrec := ih f (by omega) (newPrevAfter p (c :: rest) k)
            ((c :: rest).drop k) hdl hpre
          have hp' := newPrevAfter_nonalpha p (c :: rest) k hk1 hkl hlast
          have hcong := matcher_nonalpha_congr mDash1 mDash1_nonalpha
            (newPrevAfter p (c :: rest) k) (some ' ') hp'
            (fun e he => by rw [Option.some.injEq] at he; rw [← he]; decide)
          have hrec2 := NoM_prev_congr _ _ hcong hrec
          rw [subScanF, hm]
          dsimp only
          subst hrepl
          simp only [List.cons_append, List.nil_append]
          refine noM_cons _ _ _ _ (mDash1_head_nd p ' ' _ (by decide)) ?_
          refine noM_cons _ _ _ _ (mDash1_nonalpha (some ' ') _ (fun e he => by
            rw [Option.some.injEq] at he
            rw [← he]
            decide)) ?_
          refine noM_cons _ _ _ _ (mDash1_nonalpha (some '—') _ (fun e he => by
            rw [Option.some.injEq] at he
            rw [← he]
            decide)) ?_
          exact hrec2

theorem mDash3_scan_pres_noM1 : ∀ (fuel : Nat) (p : Option Char) (l : List Char),
    l.length < fuel → NoM mDash1 p l →
    NoM mDash1 p (subScanF mDash3 fuel p l) := by
  intro fuel
  induction fuel using Nat.strong_induction_on with
  | _ fuel ih =>
    intro p l hlen hno
    rcases fuel with _ | f
    · omega
    · rcases l with _ | ⟨c, rest⟩
      · rw [scanF_nil]
        exact hno
      · have hrl : rest.length < f := by
          simp only [List.length_cons] at hlen
          omega
        rcases hm : mDash3 p (c :: rest) with _ | ⟨repl, k⟩
        · rw [scanF_cons_none _ _ _ _ _ hm]
          exact noM_cons _ _ _ _
            (window_head_transfer mDash3 mDash1 mDash3_nonalpha
              mDash1_window mDash1_head_nw p c rest f hrl (NoM_hd hno))
            (ih f (by omega) (some c) rest hrl (NoM_tl hno))
        · obtain ⟨hrepl, hk1, hkl, hwk, hlast⟩ := mDash3_shape p (c :: rest) repl k hm
          have hdl : ((c :: rest).drop k).length < f := by
            simp only [List.length_drop, List.length_cons]
            simp only [List.length_cons] at hlen
            omega
          have hpre : NoM mDash1 (PrevOf p ((c :: rest).take k))
              ((c :: rest).drop k) := by
            apply NoM_dr
            rw [List.take_append_drop]
            exact hno
          rw [← newPrevAfter_eq] at hpre
          have hrec := ih f (by omega) (newPrevAfter p (c :: rest) k)
            ((c :: rest).drop k) hdl hpre
          have hp' := newPrevAfter_nonalpha p (c :: rest) k hk1 hkl hlast
          have hcong := matcher_nonalpha_congr mDash1 mDash1_nonalpha
            (newPrevAfter p (c :: rest) k) (some '—') hp'
            (fun e he => by rw [Option.some.injEq] at he; rw [← he]; decide)
          have hrec2 := NoM_prev_congr _ _ hcong hrec
          rw [subScanF, hm]
          dsimp only
          subst hrepl
          simp only [List.cons_append, List.nil_append]
          exact noM_cons _ _ _ _ (mDash1_head_nd p '—' _ (by decide)) hrec2

end OcrClean

namespace OcrClean

/-! Pass 3 keeps pass 2 canonical: any `mDash2` match in its output replaces
a segment by itself. -/

theorem window_canon_transfer (ms : RMatcher)
    (hms : ∀ p cs, (∀ c, p = some c → isAsciiAlpha c = false) → ms p cs = none)
    (p : Option Char) (c : Char) (rest : List Char) (fuel : Nat)
    (hfuel : rest.length < fuel)
    (h : ∀ repl k, mDash2 p (c :: rest) = some (repl, k) →
      repl = List.take k (c :: rest)) :
    ∀ repl k, mDash2 p (c :: subScanF ms fuel (some c) rest) = some (repl, k) →
      repl = List.take k (c :: subScanF ms fuel (some c) rest) := by
  intro repl k hmm
  rcases hc : wsdash c
  · rw [mDash2_head_nw p c _ hc] at hmm
    cases hmm
  · have hcna : ∀ e, (some c : Option Char) = some e → isAsciiAlpha e = false := by
      intro e he
      rw [Option.some.injEq] at he
      rw [← he]
      exact wsdash_nonalpha c hc
    have hdecomp : rest = rest.takeWhile wsdash ++
        rest.drop (rest.takeWhile wsdash).length := by
      conv_lhs => rw [← List.take_append_drop (rest.takeWhile wsdash).length rest]
      rw [takeWhile_length_take]
    rcases hdr : rest.drop (rest.takeWhile wsdash).length with _ | ⟨d, r⟩
    · have hrw : rest = rest.takeWhile wsdash := by
        conv_lhs => rw [hdecomp]
        rw [hdr, List.append_nil]
      have hwalk := nonalpha_prefix_walk ms hms rest fuel (some c) []
        (by rw [List.append_nil]; exact hfuel) hcna
        (fun e he => wsdash_nonalpha e (List.mem_takeWhile_imp (hrw ▸ he)))
      rw [List.append_nil] at hwalk
      rw [hwalk, scanF_nil, List.append_nil] at hmm ⊢
      exact h repl k hmm
    · have hd : wsdash d = false := drop_takeWhile_head_not wsdash rest d r hdr
      have hdecomp2 : rest = rest.takeWhile wsdash ++ d :: r := by
        conv_lhs => rw [hdecomp]
        rw [hdr]
      have hwmem : ∀ e ∈ rest.takeWhile wsdash, isAsciiAlpha e = false :=
        fun e he => wsdash_nonalpha e (List.mem_takeWhile_imp he)
      have hwalk := nonalpha_prefix_walk ms hms (rest.takeWhile wsdash) fuel
        (some c) (d :: r) (by rw [← hdecomp2]; exact hfuel) hcna hwmem
      have hpv : ∀ e, PrevOf (some c) (rest.takeWhile wsdash) = some e →
          isAsciiAlpha e = false := by
        intro e he
        exact wsdash_nonalpha e (PrevOf_wsdash c hc _
          (fun g hg => List.mem_takeWhile_imp hg) e he)
      have hlen2 : (d :: r).length < fuel - (rest.takeWhile wsdash).length := by
        have hlen := congrArg List.length hdecomp2
        simp only [List.length_append, List.length_cons] at hlen
        simp only [List.length_cons]
        omega
      rcases hf : fuel - (rest.takeWhile wsdash).length with _ | f2
      · rw [hf] at hlen2
        simp at hlen2
      · rw [hf] at hwalk
        have hstep : subScanF ms (f2 + 1)
            (PrevOf (some c) (rest.takeWhile wsdash)) (d :: r) =
            d :: subScanF ms f2 (some d) r :=
          scanF_cons_none ms f2 _ d r (hms _ _ hpv)
        have hout : subScanF ms fuel (some c) rest =
            rest.takeWhile wsdash ++ d :: subScanF ms f2 (some d) r := by
          conv_lhs => rw [hdecomp2]
          rw [hwalk, hstep]
        rw [hout] at hmm
        rw [hout]
        have hmm2 : mDash2 p ((c :: rest.takeWhile wsdash) ++
            d :: subScanF ms f2 (some d) r) = some (repl, k) := hmm
        have hwin := mDash2_window p (c :: rest.takeWhile wsdash) d r
          (subScanF ms f2 (some d) r) hd
        have hm0 : mDash2 p ((c :: rest.takeWhile wsdash) ++ d :: r) =
            some (repl, k) := by
          rw [hwin]
          exact hmm2
        have hmr : mDash2 p (c :: rest) = some (repl, k) := by
          rw [hdecomp2]
          exact hm0
        have hre : repl = List.take k (c :: rest) := h repl k hmr
        obtain ⟨hrepl, hk1, hkl, hwk, hlast, α, r2, hdk, halpha⟩ :=
          mDash2_shape p ((c :: rest.takeWhile wsdash) ++
            d :: subScanF ms f2 (some d) r) repl k hmm2
        have hkw : k ≤ (c :: rest.takeWhile wsdash).length := by
          have hkle := take_all_le_takeWhile wsdash k
            ((c :: rest.takeWhile wsdash) ++ d :: subScanF ms f2 (some d) r)
            hkl hwk
          rw [takeWhile_append_not wsdash d hd] at hkle
          exact le_trans hkle (List.takeWhile_sublist _).length_le
        show repl = List.take k ((c :: rest.takeWhile wsdash) ++
          d :: subScanF ms f2 (some d) r)
        have hL : List.take k ((c :: rest.takeWhile wsdash) ++
            d :: subScanF ms f2 (some d) r) =
            List.take k (c :: rest.takeWhile wsdash) :=
          List.take_append_of_le_length hkw
        have hR : List.take k (c :: rest) =
            List.take k (c :: rest.takeWhile wsdash) := by
          conv_lhs => rw [hdecomp2]
          exact List.take_append_of_le_length hkw
        rw [hL, ← hR]
        exact hre

theorem mDash3_scan_pres_canon2 :
    ∀ (fuel : Nat) (p : Option Char) (l : List Char),
    l.length < fuel → CanonM mDash2 p l →
    CanonM mDash2 p (subScanF mDash3 fuel p l) := by
  intro fuel
  induction fuel using Nat.strong_induction_on with
  | _ fuel ih =>
    intro p l hlen hcan
    rcases fuel with _ | f
    · omega
    · rcases l with _ | ⟨c, rest⟩
      · rw [scanF_nil]
        exact hcan
      · have hrl : rest.length < f := by
          simp only [List.length_cons] at hlen
          omega
        rcases hm : mDash3 p (c :: rest) with _ | ⟨repl, k⟩
        · rw [scanF_cons_none _ _ _ _ _ hm]
          exact canonM_cons _ _ _ _
            (window_canon_transfer mDash3 mDash3_nonalpha p c rest f hrl
              (CanonM_hd hcan))
            (ih f (by omega) (some c) rest hrl (CanonM_tl hcan))
        · obtain ⟨hrepl, hk1, hkl, hwk, hlast⟩ := mDash3_shape p (c :: rest) repl k hm
          have hdl : ((c :: rest).drop k).length < f := by
            simp only [List.length_drop, List.length_cons]
            simp only [List.length_cons] at hlen
            omega
          have hpre : CanonM mDash2 (PrevOf p ((c :: rest).take k))
              ((c :: rest).drop k) := by
            apply CanonM_dr
            rw [List.take_append_drop]
            exact hcan
          rw [← newPrevAfter_eq] at hpre
          have hrec := ih f (by omega) (newPrevAfter p (c :: rest) k)
            ((c :: rest).drop k) hdl hpre
          have hp' := newPrevAfter_nonalpha p (c :: rest) k hk1 hkl hlast
          have hcong := matcher_nonalpha_congr mDash2 mDash2_nonalpha
            (newPrevAfter p (c :: rest) k) (some '—') hp'
            (fun e he => by rw [Option.some.injEq] at he; rw [← he]; decide)
          have hrec2 := CanonM_prev_congr _ _ hcong hrec
          rw [subScanF, hm]
          dsimp only
          subst hrepl
          simp only [List.cons_append, List.nil_append]
          refine canonM_cons _ _ _ _ ?_ hrec2
          intro repl2 k2 hmm
          rw [mDash2_head_nws p '—' _ (by decide)] at hmm
          cases hmm

end OcrClean

namespace OcrClean

/-! Pass 2 leaves its own output canonical: the only `mDash2` matches in the
output are the ` — ` segments it produced, which match to themselves. -/

theorem alpha_not_wsdash (c : Char) (h : isAsciiAlpha c = true) :
    wsdash c = false := by
  rcases hw : wsdash c
  · rfl
  · have h2 := wsdash_nonalpha c hw
    rw [h] at h2
    exact h2

theorem mDash2_canonical_at (p : Option Char) (α : Char) (X : List Char)
    (halpha : isAsciiAlpha α = true) :
    ∀ repl k, mDash2 p (' ' :: '—' :: ' ' :: α :: X) = some (repl, k) →
      repl = List.take k (' ' :: '—' :: ' ' :: α :: X) := by
  intro repl k hm
  obtain ⟨hrepl, hk1, hkl, hwk, hlast, β, r3, hdk, hβ⟩ :=
    mDash2_shape p (' ' :: '—' :: ' ' :: α :: X) repl k hm
  have htw : (' ' :: '—' :: ' ' :: α :: X).takeWhile wsdash =
      [' ', '—', ' '] := by
    rw [List.takeWhile_cons, if_pos (by decide), List.takeWhile_cons,
      if_pos (by decide), List.takeWhile_cons, if_pos (by decide),
      List.takeWhile_cons, if_neg (by simp [alpha_not_wsdash α halpha])]
  have hk3 : k ≤ 3 := by
    have hkle := take_all_le_takeWhile wsdash k
      (' ' :: '—' :: ' ' :: α :: X) hkl hwk
    rw [htw] at hkle
    simpa using hkle
  interval_cases k
  · have hdk1 : ('—' : Char) :: ' ' :: α :: X = β :: r3 := hdk
    rw [List.cons.injEq] at hdk1
    rw [← hdk1.1] at hβ
    exact absurd hβ (by decide)
  · have hdk2 : (' ' : Char) :: α :: X = β :: r3 := hdk
    rw [List.cons.injEq] at hdk2
    rw [← hdk2.1] at hβ
    exact absurd hβ (by decide)
  · rw [hrepl]
    rfl

theorem mDash2_canon_vac (q : Option Char) (c : Char) (l : List Char)
    (hq : ∀ e, q = some e → isAsciiAlpha e = false) :
    ∀ repl k, mDash2 q (c :: l) = some (repl, k) →
      repl = List.take k (c :: l) := by
  intro repl k hmm
  rw [mDash2_nonalpha q _ hq] at hmm
  cases hmm

theorem mDash2_scan_canon : ∀ (fuel : Nat) (p : Option Char) (l : List Char),
    l.length < fuel → CanonM mDash2 p (subScanF mDash2 fuel p l) := by
  intro fuel
  induction fuel using Nat.strong_induction_on with
  | _ fuel ih =>
    intro p l hlen
    rcases fuel with _ | f
    · omega
    · rcases l with _ | ⟨c, rest⟩
      · rw [scanF_nil]
        exact CanonM_nil _ _ (mDash2_nil p)
      · have hrl : rest.length < f := by
          simp only [List.length_cons] at hlen
          omega
        rcases hm : mDash2 p (c :: rest) with _ | ⟨repl, k⟩
        · rw [scanF_cons_none _ _ _ _ _ hm]
          exact canonM_cons _ _ _ _
            (window_canon_transfer mDash2 mDash2_nonalpha p c rest f hrl
              (fun repl2 k2 hmm => by rw [hm] at hmm; cases hmm))
            (ih f (by omega) (some c) rest hrl)
        · obtain ⟨hrepl, hk1, hkl, hwk, hlast, α, r2, hdk, halpha⟩ :=
            mDash2_shape p (c :: rest) repl k hm
          have hdl : ((c :: rest).drop k).length < f := by
            simp only [List.length_drop, List.length_cons]
            simp only [List.length_cons] at hlen
            omega
          rcases f with _ | f3
          · rw [hdk] at hdl
            simp at hdl
          · have hr2l : r2.length < f3 := by
              rw [hdk] at hdl
              simp only [List.length_cons] at hdl
              omega
            have hstep : subScanF mDash2 (f3 + 1) (newPrevAfter p (c :: rest) k)
                (α :: r2) = α :: subScanF mDash2 f3 (some α) r2 :=
              scanF_cons_none mDash2 f3 _ α r2
                (mDash2_head_nws _ α r2 (alpha_not_pySpace α halpha))
            have hrec := ih f3 (by omega) (some α) r2 hr2l
            rw [subScanF, hm]
            dsimp only
            subst hrepl
            rw [hdk, hstep]
            simp only [List.cons_append, List.nil_append]
            exact canonM_cons _ _ _ _ (mDash2_canonical_at p α _ halpha)
              (canonM_cons _ _ _ _ (mDash2_canon_vac (some ' ') _ _
                  (fun e he => by
                    rw [Option.some.injEq] at he
                    rw [← he]
                    decide))
                (canonM_cons _ _ _ _ (mDash2_canon_vac (some '—') _ _
                    (fun e he => by
                      rw [Option.some.injEq] at he
                      rw [← he]
                      decide))
                  (canonM_cons _ _ _ _ (mDash2_canon_vac (some ' ') _ _
                      (fun e he => by
                        rw [Option.some.injEq] at he
                        rw [← he]
                        decide)) hrec)))

end OcrClean

namespace OcrClean

/-! Idempotence of `normalize_em_dashes`: after the three passes, pass 1 and
pass 3 find no match and every pass-2 match replaces a segment by itself. -/

theorem subScan_noM_id (m : RMatcher) (l : List Char) (h : NoM m none l) :
    subScan m l = l :=
  NoM_scan_id m (l.length + 1) none l h

theorem normalizeEmDashList_idem (cs : List Char) :
    normalizeEmDashList (normalizeEmDashList cs) = normalizeEmDashList cs := by
  have h1 : NoM mDash1 none (subScan mDash1 cs) :=
    mDash1_scan_noM (cs.length + 1) none cs (Nat.lt_succ_self _)
  have h2 : NoM mDash1 none (subScan mDash2 (subScan mDash1 cs)) :=
    mDash2_scan_pres_noM1 ((subScan mDash1 cs).length + 1) none _
      (Nat.lt_succ_self _) h1
  have h3 : NoM mDash1 none
      (subScan mDash3 (subScan mDash2 (subScan mDash1 cs))) :=
    mDash3_scan_pres_noM1 ((subScan mDash2 (subScan mDash1 cs)).length + 1)
      none _ (Nat.lt_succ_self _) h2
  have h4 : CanonM mDash2 none (subScan mDash2 (subScan mDash1 cs)) :=
    mDash2_scan_canon ((subScan mDash1 cs).length + 1) none _
      (Nat.lt_succ_self _)
  have h5 : CanonM mDash2 none
      (subScan mDash3 (subScan mDash2 (subScan mDash1 cs))) :=
    mDash3_scan_pres_canon2 ((subScan mDash2 (subScan mDash1 cs)).length + 1)
      none _ (Nat.lt_succ_self _) h4
  have h6 : NoM mDash3 none
      (subScan mDash3 (subScan mDash2 (subScan mDash1 cs))) :=
    mDash3_scan_noM ((subScan mDash2 (subScan mDash1 cs)).length + 1) none _
      (Nat.lt_succ_self _)
  show subScan mDash3 (subScan mDash2 (subScan mDash1
    (subScan mDash3 (subScan mDash2 (subScan mDash1 cs))))) =
    subScan mDash3 (subScan mDash2 (subScan mDash1 cs))
  rw [subScan_noM_id mDash1 _ h3, subScan_take_id mDash2 _ h5,
    subScan_noM_id mDash3 _ h6]

theorem normalize_em_dashes_idem (s : String) :
    normalize_em_dashes (normalize_em_dashes s) = normalize_em_dashes s :=
  congrArg (fun l => (⟨l⟩ : String)) (normalizeEmDashList_idem s.data)

end OcrClean

namespace OcrClean

/-- C6: each of `normalize_unicode_and_spaces`, `normalize_em_dashes`,
`merge_soft_split_paragraphs_text` and `merge_paragraphs_split_by_hyphen` is
idempotent: applying the function twice yields the same string as applying it
once. -/
theorem cleaning_passes_idempotent :
    (∀ s : String, normalize_unicode_and_spaces
      (normalize_unicode_and_spaces s) = normalize_unicode_and_spaces s) ∧
    (∀ s : String, normalize_em_dashes (normalize_em_dashes s) =
      normalize_em_dashes s) ∧
    (∀ s : String, merge_soft_split_paragraphs_text
      (merge_soft_split_paragraphs_text s) =
      merge_soft_split_paragraphs_text s) ∧
    (∀ s : String, merge_paragraphs_split_by_hyphen
      (merge_paragraphs_split_by_hyphen s) =
      merge_paragraphs_split_by_hyphen s) :=
  ⟨normalize_unicode_and_spaces_idem, normalize_em_dashes_idem,
    merge_soft_split_paragraphs_text_idem, merge_paragraphs_split_by_hyphen_idem⟩

end OcrClean
